import Mathlib

/-!
# Verification of `util.hh` (cffi-lua): `util::vector`, `util::map`, `util::fnv1a`

Shallow embedding of the container code of `src/util.hh`.

Conventions of the embedding
* `size_t` values are natural numbers.  The containers compute `p_cap + 1`,
  `p_size++`, `p_size - 1` and `++p_nelems` on them; these wrap around only on
  a container of `2^w - 1` elements, which no allocation provides, or on an
  empty array (`p_size - 1`), which is handled as undefined behaviour.  The
  hash computation of `fnv1a`, where wrap-around is the point, is modulo
  `2^w`.
* Allocation (`new`) always succeeds.  `reserve` is the member for a request
  whose byte count `n * sizeof(T)` does not wrap around; `reserve_sized` is
  the member with the byte count computed in `w`-bit arithmetic.
* `push_back` and `emplace_back` are the members for an argument that
  designates an object outside the array; `push_back_ref` and
  `emplace_back_ref` are the members for any reference argument, one into the
  array itself included.
* A raw buffer of `T` is a list of cells; a cell is `some x` when an object
  with value `x` has been constructed in it and `none` when it is raw memory.
  A null pointer is `none`.
* Undefined behaviour (reading or destroying a cell that holds no object,
  indexing outside the buffer, dividing by zero) makes an operation return
  `none`; every operation therefore returns an `Option`.
-/

namespace util

/-! ## vector -/

/-- The state of a `util::vector<T>`: `p_buf`, `p_size`, `p_cap`,
with their in-class initialisers (`nullptr`, `0`, `0`). -/
structure vector (T : Type) where
  p_buf : Option (List (Option T)) := none
  p_size : Nat := 0
  p_cap : Nat := 0
deriving Repr, DecidableEq

namespace vector

variable {T : Type}

/-- The constant `vector::MIN_SIZE`. -/
def MIN_SIZE : Nat := 4

/-- Reading the object stored in cell `i` of a buffer (`p_buf[i]` used as a
value); `none` when `i` is outside the buffer or the cell holds no object. -/
def read_at (buf : List (Option T)) (i : Nat) : Option T :=
  (buf[i]?).join

/-- Placement construction `new (&buf[i]) T(x)`; `none` when `i` is outside
the buffer. -/
def construct_at (buf : List (Option T)) (i : Nat) (x : T) : Option (List (Option T)) :=
  if i < buf.length then some (buf.set i (some x)) else none

/-- Destructor call `buf[i].~T()`; `none` when cell `i` holds no object. -/
def destroy_at (buf : List (Option T)) (i : Nat) : Option (List (Option T)) :=
  match read_at buf i with
  | some _ => some (buf.set i none)
  | none => none

/-- The default constructor `vector()`. -/
def new : vector T := {}

/-- The accessor `size()`. -/
def size (v : vector T) : Nat := v.p_size

/-- The accessor `capacity()`. -/
def capacity (v : vector T) : Nat := v.p_cap

/-- The accessor `empty()`. -/
def empty (v : vector T) : Bool := v.p_size == 0

/-- The accessor `data()`. -/
def data (v : vector T) : Option (List (Option T)) := v.p_buf

/-- The loop of `reserve`, `k` iterations starting at index `i`:
`new (&np[i]) T(move(p_buf[i])); p_buf[i].~T();`.  The old buffer is released
right after the loop, so only the new buffer is threaded through. -/
def reserve_loop (p_buf : List (Option T)) : Nat → Nat → List (Option T) → Option (List (Option T))
  | 0, _, np => some np
  | k + 1, i, np =>
    match read_at p_buf i with
    | none => none
    | some x =>
      match construct_at np i x with
      | none => none
      | some np1 => reserve_loop p_buf k (i + 1) np1

/-- The member `reserve(n)`, for a request whose byte count `n * sizeof(T)`
does not wrap around in `size_t`: the allocation then provides the `n` cells
asked for.  The member with the byte count in `w`-bit arithmetic is
`reserve_sized`. -/
def reserve (v : vector T) (n : Nat) : Option (vector T) :=
  if n ≤ v.p_cap then
    some v
  else
    let n := if n < MIN_SIZE then MIN_SIZE else n
    let np : List (Option T) := List.replicate n none
    if v.p_cap ≠ 0 then
      match reserve_loop (v.p_buf.getD []) v.p_size 0 np with
      | none => none
      | some np1 => some { p_buf := some np1, p_size := v.p_size, p_cap := n }
    else
      some { p_buf := some np, p_size := v.p_size, p_cap := n }

/-- The member `push_back(v)` (both overloads: the element is copied or moved
into the new cell), for an argument that designates an object outside the
array, `x` being the value of that object.  The member for any reference
argument is `push_back_ref`. -/
def push_back (v : vector T) (x : T) : Option (vector T) :=
  match reserve v (v.p_cap + 1) with
  | none => none
  | some v1 =>
    match construct_at (v1.p_buf.getD []) v1.p_size x with
    | none => none
    | some buf => some { v1 with p_buf := some buf, p_size := v1.p_size + 1 }

/-- The member `emplace_back(args...)` for arguments that designate objects
outside the array; `x` is the value constructed from the arguments, the second
component is the returned reference.  The member for any reference argument
is `emplace_back_ref`. -/
def emplace_back (v : vector T) (x : T) : Option (vector T × T) :=
  match reserve v (v.p_cap + 1) with
  | none => none
  | some v1 =>
    match construct_at (v1.p_buf.getD []) v1.p_size x with
    | none => none
    | some buf => some ({ v1 with p_buf := some buf, p_size := v1.p_size + 1 }, x)

/-- The member `pop_back()`.  On an empty array `p_size - 1` wraps around and
the destructor call is outside the buffer. -/
def pop_back (v : vector T) : Option (vector T) :=
  if v.p_size = 0 then none
  else
    match destroy_at (v.p_buf.getD []) (v.p_size - 1) with
    | none => none
    | some buf => some { v with p_buf := some buf, p_size := v.p_size - 1 }

/-- The loop of `resize`, `k` iterations starting at index `i`:
`p_buf[i].~T()`. -/
def resize_loop : Nat → Nat → List (Option T) → Option (List (Option T))
  | 0, _, buf => some buf
  | k + 1, i, buf =>
    match destroy_at buf i with
    | none => none
    | some buf1 => resize_loop k (i + 1) buf1

/-- The member `resize(n)`: the loop runs for `i = n, …, p_size - 1`, then
`p_size = n`, whatever `n` is. -/
def resize (v : vector T) (n : Nat) : Option (vector T) :=
  match resize_loop (v.p_size - n) n (v.p_buf.getD []) with
  | none => none
  | some buf => some { v with p_buf := v.p_buf.map (fun _ => buf), p_size := n }

/-- The member `clear()`. -/
def clear (v : vector T) : Option (vector T) := resize v 0

/-- The member `operator[](i)`, read as a value. -/
def subscript (v : vector T) (i : Nat) : Option T :=
  read_at (v.p_buf.getD []) i

/-- The member `front()`. -/
def front (v : vector T) : Option T :=
  read_at (v.p_buf.getD []) 0

/-- The member `back()`; on an empty array `p_size - 1` wraps around. -/
def back (v : vector T) : Option T :=
  if v.p_size = 0 then none else read_at (v.p_buf.getD []) (v.p_size - 1)

/-- The member `swap(v)`: the three fields are exchanged; the result is the
pair (this, v) after the call. -/
def swap (this v : vector T) : vector T × vector T :=
  ({ p_buf := v.p_buf, p_size := v.p_size, p_cap := v.p_cap },
   { p_buf := this.p_buf, p_size := this.p_size, p_cap := this.p_cap })

/-- The move assignment `operator=(vector &&v)`: the pair (this, v) after the
call. -/
def move_assign (this v : vector T) : vector T × vector T :=
  swap this v

/-- The loop of the copy assignment, `k` iterations starting at index `i`:
`push_back(v[i])`. -/
def copy_loop (v : vector T) : Nat → Nat → vector T → Option (vector T)
  | 0, _, this => some this
  | k + 1, i, this =>
    match subscript v i with
    | none => none
    | some x =>
      match push_back this x with
      | none => none
      | some this1 => copy_loop v k (i + 1) this1

/-- The copy assignment `operator=(vector const &v)` for `v` an object other
than `*this`: the pair (this, v) after the call.  `v` is a const reference:
it is read and handed back as it was. -/
def copy_assign (this v : vector T) : Option (vector T × vector T) :=
  match resize this 0 with
  | none => none
  | some this1 =>
    match (if v.size > this1.capacity then reserve this1 v.size else some this1) with
    | none => none
    | some this2 =>
      match copy_loop v v.size 0 this2 with
      | none => none
      | some this3 => some (this3, v)

/-- The number of cells of `T` in the buffer `new unsigned char[n * sizeof(T)]`
of `reserve`, the product being computed in `size_t`, that is modulo `2^w`:
the bytes allocated, divided by the size of a cell. -/
def alloc_cells (w size_of n : Nat) : Nat :=
  ((n * size_of) % 2 ^ w) / size_of

/-- The member `reserve(n)` on a platform whose `size_t` has `w` bits, for an
element type with `sizeof(T) = size_of`: as `reserve`, but the new buffer has
the cells that `n * sizeof(T)` bytes, computed modulo `2^w`, hold; `p_cap`
becomes `n` all the same. -/
def reserve_sized (w size_of : Nat) (v : vector T) (n : Nat) : Option (vector T) :=
  if n ≤ v.p_cap then
    some v
  else
    let n := if n < MIN_SIZE then MIN_SIZE else n
    let np : List (Option T) := List.replicate (alloc_cells w size_of n) none
    if v.p_cap ≠ 0 then
      match reserve_loop (v.p_buf.getD []) v.p_size 0 np with
      | none => none
      | some np1 => some { p_buf := some np1, p_size := v.p_size, p_cap := n }
    else
      some { p_buf := some np, p_size := v.p_size, p_cap := n }

/-- What a reference argument of `push_back` / `emplace_back` designates: an
object outside the array that holds `x`, or the element at index `i` of the
array the member is called on (as in `v.push_back(v[i])`,
`v.push_back(v.front())`). -/
inductive operand (T : Type) where
  | outside (x : T)
  | element (i : Nat)
deriving Repr, DecidableEq

/-- The first test of `reserve(n)`: when `n ≤ p_cap` the call returns at once
and the buffer, with every reference into it, stays; otherwise a new buffer is
allocated and the old one is released. -/
def reserve_keeps_buffer (v : vector T) (n : Nat) : Bool :=
  decide (n ≤ v.p_cap)

/-- Reading a reference argument after the call `reserve(n)` that took the
array from `v` to `v1`: an object outside the array is read as it is; a
reference to element `i` is read from the buffer when `reserve` kept it and
is dangling (the object it designated has been released) when it did not. -/
def read_operand (v v1 : vector T) (n : Nat) : operand T → Option T
  | .outside x => some x
  | .element i =>
    if reserve_keeps_buffer v n then read_at (v1.p_buf.getD []) i else none

/-- The member `push_back(v)` for any reference argument:
`reserve(p_cap + 1)` first, then the new cell is constructed from what the
reference designates. -/
def push_back_ref (v : vector T) (a : operand T) : Option (vector T) :=
  match reserve v (v.p_cap + 1) with
  | none => none
  | some v1 =>
    match read_operand v v1 (v.p_cap + 1) a with
    | none => none
    | some x =>
      match construct_at (v1.p_buf.getD []) v1.p_size x with
      | none => none
      | some buf => some { v1 with p_buf := some buf, p_size := v1.p_size + 1 }

/-- The member `emplace_back(arg)` for any reference argument from which the
element is copy- or move-constructed; the second component is the returned
reference. -/
def emplace_back_ref (v : vector T) (a : operand T) : Option (vector T × T) :=
  match reserve v (v.p_cap + 1) with
  | none => none
  | some v1 =>
    match read_operand v v1 (v.p_cap + 1) a with
    | none => none
    | some x =>
      match construct_at (v1.p_buf.getD []) v1.p_size x with
      | none => none
      | some buf => some ({ v1 with p_buf := some buf, p_size := v1.p_size + 1 }, x)

/-- The class invariant of the data model: `p_size ≤ p_cap`; no buffer exactly
when `p_cap = 0`; otherwise the buffer has `p_cap` cells, of which the first
`p_size` hold objects and the others are raw. -/
def wf (v : vector T) : Prop :=
  v.p_size ≤ v.p_cap ∧
  match v.p_buf with
  | none => v.p_cap = 0
  | some buf => 0 < v.p_cap ∧ buf.length = v.p_cap ∧
      (buf.take v.p_size).all Option.isSome = true ∧
      (buf.drop v.p_size).all Option.isNone = true

instance (v : vector T) : Decidable (wf v) := by
  unfold wf; cases v.p_buf <;> infer_instance

/-- The live elements of the array, in index order. -/
def elems (v : vector T) : List T :=
  ((v.p_buf.getD []).take v.p_size).reduceOption

/-- The buffer of a well-formed array of capacity `cap` whose live elements
are `xs`: the objects, then raw cells. -/
def buffer_of (xs : List T) (cap : Nat) : List (Option T) :=
  xs.map some ++ List.replicate (cap - xs.length) none

/-- The well-formed array with live elements `xs` and capacity `cap`. -/
def canon (xs : List T) (cap : Nat) : vector T :=
  { p_buf := if cap = 0 then none else some (buffer_of xs cap),
    p_size := xs.length, p_cap := cap }

end vector

/-! ### Call sequences on an array -/

/-- One call of the stack interface of the array: `push_back(x)` or
`pop_back()`. -/
inductive stack_op (T : Type) where
  | push (x : T)
  | pop
deriving Repr, DecidableEq

namespace vector

variable {T : Type}

/-- Performing one call on the array. -/
def apply_op (v : vector T) : stack_op T → Option (vector T)
  | .push x => push_back v x
  | .pop => pop_back v

/-- Performing a sequence of calls on the array, first call first. -/
def run_ops (v : vector T) : List (stack_op T) → Option (vector T)
  | [] => some v
  | op :: ops =>
    match apply_op v op with
    | none => none
    | some v1 => run_ops v1 ops

end vector

/-- The reference stack: one call on a list, the top of the stack being the
end of the list. -/
def ref_apply {T : Type} (s : List T) : stack_op T → List T
  | .push x => s ++ [x]
  | .pop => s.dropLast

/-- The reference stack after a sequence of calls. -/
def ref_run {T : Type} (s : List T) (ops : List (stack_op T)) : List T :=
  ops.foldl ref_apply s

/-- The number of `push_back` calls of a sequence. -/
def count_push {T : Type} : List (stack_op T) → Nat
  | [] => 0
  | .push _ :: ops => count_push ops + 1
  | .pop :: ops => count_push ops

/-- The number of `pop_back` calls of a sequence. -/
def count_pop {T : Type} : List (stack_op T) → Nat
  | [] => 0
  | .push _ :: ops => count_pop ops
  | .pop :: ops => count_pop ops + 1

/-- No `pop_back` of the sequence is called on an empty array, for a sequence
that starts on an array of `n` elements. -/
def pops_ok {T : Type} (n : Nat) : List (stack_op T) → Bool
  | [] => true
  | .push _ :: ops => pops_ok (n + 1) ops
  | .pop :: ops => decide (0 < n) && pops_ok (n - 1) ops

/-- One call of the stack interface with its argument as it is passed:
`push_back` of a reference, or `pop_back()`. -/
inductive stack_call (T : Type) where
  | push (a : vector.operand T)
  | pop
deriving Repr, DecidableEq

/-- The call `push_back(x)` with `x` an object outside the array, as a call
with a reference argument. -/
def to_call {T : Type} : stack_op T → stack_call T
  | .push x => .push (.outside x)
  | .pop => .pop

/-- The reference stack under one call: a push of a reference to the element
at index `i` pushes a copy of that element; `none` for a reference to an
element that does not exist and for a pop on the empty stack. -/
def ref_call {T : Type} (s : List T) : stack_call T → Option (List T)
  | .push (.outside x) => some (s ++ [x])
  | .push (.element i) => (s[i]?).map (fun x => s ++ [x])
  | .pop =>
    match s with
    | [] => none
    | _ :: _ => some s.dropLast

/-- The reference stack after a sequence of calls. -/
def ref_calls {T : Type} (s : List T) : List (stack_call T) → Option (List T)
  | [] => some s
  | c :: calls =>
    match ref_call s c with
    | none => none
    | some s1 => ref_calls s1 calls

namespace vector

variable {T : Type}

/-- Performing one call with its reference argument on the array. -/
def apply_call (v : vector T) : stack_call T → Option (vector T)
  | .push a => push_back_ref v a
  | .pop => pop_back v

/-- Performing a sequence of calls with reference arguments on the array,
first call first. -/
def run_calls (v : vector T) : List (stack_call T) → Option (vector T)
  | [] => some v
  | c :: calls =>
    match apply_call v c with
    | none => none
    | some v1 => run_calls v1 calls

end vector

namespace vector

variable {T : Type}

/-- The array states reachable from a newly constructed array by successful
calls of `push_back`, `emplace_back`, `pop_back`, `reserve`, `resize`,
`clear`, and by copy assignment, move assignment and `swap` with arrays that
are reachable themselves.  `resize_ok v n` tells which calls `resize(n)` are
admitted on the state `v`. -/
inductive reachable_by (resize_ok : vector T → Nat → Prop) : vector T → Prop where
  | new : reachable_by resize_ok new
  | push_back (v : vector T) (x : T) (v1 : vector T) :
      reachable_by resize_ok v → push_back v x = some v1 → reachable_by resize_ok v1
  | emplace_back (v : vector T) (x : T) (v1 : vector T) (r : T) :
      reachable_by resize_ok v → emplace_back v x = some (v1, r) → reachable_by resize_ok v1
  | pop_back (v v1 : vector T) :
      reachable_by resize_ok v → pop_back v = some v1 → reachable_by resize_ok v1
  | reserve (v : vector T) (n : Nat) (v1 : vector T) :
      reachable_by resize_ok v → reserve v n = some v1 → reachable_by resize_ok v1
  | resize (v : vector T) (n : Nat) (v1 : vector T) :
      reachable_by resize_ok v → resize_ok v n → resize v n = some v1 →
      reachable_by resize_ok v1
  | clear (v v1 : vector T) :
      reachable_by resize_ok v → clear v = some v1 → reachable_by resize_ok v1
  | copy_assign (this v this1 v1 : vector T) :
      reachable_by resize_ok this → reachable_by resize_ok v →
      copy_assign this v = some (this1, v1) → reachable_by resize_ok this1
  | move_assign_target (this v : vector T) :
      reachable_by resize_ok this → reachable_by resize_ok v →
      reachable_by resize_ok (move_assign this v).1
  | move_assign_source (this v : vector T) :
      reachable_by resize_ok this → reachable_by resize_ok v →
      reachable_by resize_ok (move_assign this v).2
  | swap_this (this v : vector T) :
      reachable_by resize_ok this → reachable_by resize_ok v →
      reachable_by resize_ok (swap this v).1
  | swap_other (this v : vector T) :
      reachable_by resize_ok this → reachable_by resize_ok v →
      reachable_by resize_ok (swap this v).2

/-- Every call `resize(n)` is admitted. -/
def any_resize (_ : vector T) (_ : Nat) : Prop := True

/-- The calls `resize(n)` with `n ≤ capacity()` are admitted. -/
def resize_within_capacity (v : vector T) (n : Nat) : Prop := n ≤ v.capacity

/-- The part of the array invariant that speaks of the three fields only:
`p_size ≤ p_cap`, and `p_cap = 0` implies a null `p_buf`. -/
def fields_ok (v : vector T) : Prop :=
  v.p_size ≤ v.p_cap ∧ (v.p_cap = 0 → v.p_buf = none)

instance (v : vector T) : Decidable (fields_ok v) :=
  match h : v.p_buf with
  | none => decidable_of_iff (v.p_size ≤ v.p_cap) (by simp [fields_ok, h])
  | some _ => decidable_of_iff (v.p_size ≤ v.p_cap ∧ v.p_cap ≠ 0) (by simp [fields_ok, h])

end vector

/-! ## fnv1a, str_hash, str_equal

A C string argument (`char const *`) is the list of the bytes found at the
pointer, each a number below 256; a byte past the end of the list reads as
NUL.  The word width `w` of `size_t` (`FFI_WORDSIZE` of `platform.hh`) and the
signedness of plain `char` (implementation-defined) are parameters. -/

/-- The byte at `data[i]`. -/
def byte_at (data : List Nat) (i : Nat) : Nat := data.getD i 0

/-- The library function `strlen`: the number of bytes before the first NUL. -/
def strlen (data : List Nat) : Nat :=
  (data.takeWhile (fun b => b != 0)).length

/-- The value of a plain `char` object that holds the byte `b`: `b` itself
where plain `char` is unsigned, `b - 256` for `b ≥ 128` where it is signed. -/
def char_value (char_signed : Bool) (b : Nat) : Int :=
  if char_signed && decide (128 ≤ b) then (b : Int) - 256 else (b : Int)

/-- The conversion `T(c)` of an integer to the unsigned `w`-bit type `T`:
reduction modulo `2^w`. -/
def to_T (w : Nat) (c : Int) : Nat := (c % (2 : Int) ^ w).toNat

/-- The loop of `fnv1a::operator()`, `k` iterations starting at index `i`:
`hash ^= T(data[i]); hash *= prime;` in `w`-bit unsigned arithmetic. -/
def fnv1a_loop (w prime : Nat) (char_signed : Bool) (data : List Nat) : Nat → Nat → Nat → Nat
  | 0, _, hash => hash
  | k + 1, i, hash =>
    fnv1a_loop w prime char_signed data k (i + 1)
      (((hash ^^^ to_T w (char_value char_signed (byte_at data i))) * prime) % 2 ^ w)

/-- The functor `fnv1a<T, offset_basis, prime>::operator()(data)` for `T` an
unsigned type of `w` bits. -/
def fnv1a (w offset_basis prime : Nat) (char_signed : Bool) (data : List Nat) : Nat :=
  fnv1a_loop w prime char_signed data (strlen data) 0 offset_basis

/-- The functor `str_hash` of a 64-bit build: `fnv1a<size_t,
14695981039346656037, 1099511628211>`. -/
def str_hash64 (char_signed : Bool) (data : List Nat) : Nat :=
  fnv1a 64 14695981039346656037 1099511628211 char_signed data

/-- The functor `str_hash` of a 32-bit build: `fnv1a<size_t, 2166136261,
16777619>`. -/
def str_hash32 (char_signed : Bool) (data : List Nat) : Nat :=
  fnv1a 32 2166136261 16777619 char_signed data

/-- The functor `str_hash` as conditional compilation selects it; any word
size other than 64 and 32 is a build error (`none`). -/
def str_hash (FFI_WORDSIZE : Nat) (char_signed : Bool) (data : List Nat) : Option Nat :=
  if FFI_WORDSIZE = 64 then
    some (str_hash64 char_signed data)
  else if FFI_WORDSIZE = 32 then
    some (str_hash32 char_signed data)
  else
    none

/-- The library function `strcmp`, bytes compared as `unsigned char`: zero
when the two strings agree up to and including their first NUL, otherwise the
difference of the first two bytes that differ. -/
def strcmp : List Nat → List Nat → Int
  | [], [] => 0
  | [], b :: _ => - (b : Int)
  | a :: _, [] => (a : Int)
  | a :: k1, b :: k2 =>
    if a ≠ b then (a : Int) - (b : Int)
    else if a = 0 then 0
    else strcmp k1 k2

/-- The functor `str_equal`: `!strcmp(k1, k2)`. -/
def str_equal (k1 k2 : List Nat) : Bool := strcmp k1 k2 == 0

/-- The standard FNV-1a hash of a byte sequence, as the specification words
it: start from `offset_basis`; for each byte `b` in order,
`h := ((h XOR b) * prime) mod 2^w`. -/
def fnv1a_reference (w offset_basis prime : Nat) (s : List Nat) : Nat :=
  s.foldl (fun h b => ((h ^^^ b) * prime) % 2 ^ w) offset_basis

/-! ## map

A bucket is identified by its address, the pair (number of its chunk, index
in the chunk's bucket array).  An intrusive chain `b, b->next, …, nullptr` is
the list of its buckets, head first; the slot array `p_buckets` is the list of
its chains; the free list `p_unused` is the list of its buckets; `p_chunks` is
the list of the numbers of the allocated chunks, newest first.  A reference
or pointer into the map is a bucket address. -/

/-- The struct `map::entry`. -/
structure entry (K V : Type) where
  key : K
  data : V
deriving Repr, DecidableEq

/-- The struct `map::bucket`: its entry, and its address in place of the
`next` link that the list it stands in replaces. -/
structure bucket (K V : Type) where
  addr : Nat × Nat
  value : entry K V
deriving Repr, DecidableEq

/-- The state of a `util::map<K, V, HF, CF>`: hash functor `HF` and equality
functor `CF` are parameters of the type, as they are template parameters. -/
structure map (K V : Type) (HF : K → Nat) (CF : K → K → Bool) where
  p_size : Nat
  p_nelems : Nat := 0
  p_buckets : List (List (bucket K V))
  p_unused : List (bucket K V) := []
  p_chunks : List Nat := []
deriving Repr, DecidableEq

namespace map

variable {K V : Type} {HF : K → Nat} {CF : K → K → Bool}

/-- The constant `map::CHUNK_SIZE`. -/
def CHUNK_SIZE : Nat := 64

/-- The constant `map::DEFAULT_SIZE`. -/
def DEFAULT_SIZE : Nat := 1024

/-- The constructor `map(sz)`: `sz` slots, all null. -/
def new (sz : Nat) : map K V HF CF :=
  { p_size := sz, p_buckets := List.replicate sz [] }

/-- The member `empty()`. -/
def empty (m : map K V HF CF) : Bool := m.p_nelems == 0

/-- The chain scan of `find_bucket`: the first bucket `b` of the chain with
`CF{}(key, b->value.key)`. -/
def find_in_chain (CF : K → K → Bool) (key : K) : List (bucket K V) → Option (bucket K V)
  | [] => none
  | b :: next => if CF key b.value.key then some b else find_in_chain CF key next

/-- The member `find_bucket(key, h)`: the slot index `h` and the bucket found
(`none` inside for `nullptr`).  `HF{}(key) % p_size` is a division by zero
when `p_size` is 0, and `p_buckets[h]` must lie in the slot array. -/
def find_bucket (m : map K V HF CF) (key : K) : Option (Nat × Option (bucket K V)) :=
  if m.p_size = 0 then none
  else
    match m.p_buckets[HF key % m.p_size]? with
    | none => none
    | some chain => some (HF key % m.p_size, find_in_chain CF key chain)

/-- The buckets of a freshly allocated chunk number `c`, linked in index
order, their entries default-initialised. -/
def chunk_buckets [Inhabited K] [Inhabited V] (c : Nat) : List (bucket K V) :=
  (List.range CHUNK_SIZE).map fun i => { addr := (c, i), value := ⟨default, default⟩ }

/-- The member `add(hash)`: when the free list is empty a new chunk is
allocated and its buckets become the free list; the head of the free list is
then linked at the head of the chain of slot `hash`.  Returns the map and
the bucket. -/
def add [Inhabited K] [Inhabited V] (m : map K V HF CF) (hash : Nat) :
    Option (map K V HF CF × bucket K V) :=
  let m1 : map K V HF CF :=
    match m.p_unused with
    | [] => { m with p_chunks := m.p_chunks.length :: m.p_chunks,
                     p_unused := chunk_buckets m.p_chunks.length }
    | _ :: _ => m
  match m1.p_unused with
  | [] => none
  | b :: next =>
    match m1.p_buckets[hash]? with
    | none => none
    | some chain =>
      some ({ m1 with p_unused := next,
                      p_buckets := m1.p_buckets.set hash (b :: chain),
                      p_nelems := m1.p_nelems + 1 }, b)

/-- A store through a bucket pointer, on one list of buckets: the entry of
the bucket at address `a` becomes `f` of it. -/
def write_chain (a : Nat × Nat) (f : entry K V → entry K V) (c : List (bucket K V)) :
    List (bucket K V) :=
  c.map fun b => if b.addr = a then { b with value := f b.value } else b

/-- A store through a bucket pointer: the entry of the bucket at address `a`
becomes `f` of it, wherever the bucket is linked. -/
def write (m : map K V HF CF) (a : Nat × Nat) (f : entry K V → entry K V) : map K V HF CF :=
  { m with p_buckets := m.p_buckets.map (write_chain a f),
           p_unused := write_chain a f m.p_unused }

/-- A load through a reference to the data of the bucket at address `a`. -/
def load (m : map K V HF CF) (a : Nat × Nat) : Option V :=
  ((m.p_buckets.flatten ++ m.p_unused).find? (fun b => b.addr = a)).map (fun b => b.value.data)

/-- A store of `v` through a reference to the data of the bucket at
address `a` (a reference returned by `operator[]` or `insert`). -/
def store (m : map K V HF CF) (a : Nat × Nat) (v : V) : map K V HF CF :=
  write m a (fun e => { e with data := v })

/-- The member `operator[](key)`: the map after the call and the bucket whose
data the returned reference designates. -/
def subscript [Inhabited K] [Inhabited V] (m : map K V HF CF) (key : K) :
    Option (map K V HF CF × bucket K V) :=
  match find_bucket m key with
  | none => none
  | some (_, some b) => some (m, b)
  | some (h, none) =>
    match add m h with
    | none => none
    | some (m1, b) =>
      some (write m1 b.addr (fun e => { e with key := key }),
            { b with value := { b.value with key := key } })

/-- The member `find(key)`: the outer `none` is undefined behaviour, the
inner `none` is `nullptr`, `some v` a pointer to data that holds `v`. -/
def find (m : map K V HF CF) (key : K) : Option (Option V) :=
  match find_bucket m key with
  | none => none
  | some (_, none) => some none
  | some (_, some b) => some (some b.value.data)

/-- The member `insert(key, value)`: the map after the call and the bucket
whose data the returned reference designates. -/
def insert [Inhabited K] [Inhabited V] (m : map K V HF CF) (key : K) (value : V) :
    Option (map K V HF CF × bucket K V) :=
  match find_bucket m key with
  | none => none
  | some (_, some b) => some (m, b)
  | some (h, none) =>
    match add m h with
    | none => none
    | some (m1, b) =>
      some (write (write m1 b.addr (fun e => { e with key := key })) b.addr
              (fun e => { e with data := value }),
            { b with value := { key := key, data := value } })

/-- The member `drop_chunks()`: the loop deletes chunk after chunk until
`p_chunks` is null. -/
def drop_chunks : List Nat → List Nat
  | [] => []
  | _ :: nc => drop_chunks nc

/-- The member `clear()`; `memset` nulls the `p_size` slots. -/
def clear (m : map K V HF CF) : map K V HF CF :=
  if m.p_nelems = 0 then m
  else
    { m with p_nelems := 0, p_unused := [],
             p_buckets := List.replicate m.p_size [],
             p_chunks := drop_chunks m.p_chunks }

/-- The member `swap(m)`: the five fields are exchanged; the result is the
pair (this, m) after the call. -/
def swap (this m : map K V HF CF) : map K V HF CF × map K V HF CF :=
  ({ p_size := m.p_size, p_nelems := m.p_nelems, p_buckets := m.p_buckets,
     p_unused := m.p_unused, p_chunks := m.p_chunks },
   { p_size := this.p_size, p_nelems := this.p_nelems, p_buckets := this.p_buckets,
     p_unused := this.p_unused, p_chunks := this.p_chunks })

/-- The outer loop of `for_each`, `k` iterations starting at slot `i`; the
callback `func` is a state transformer on `σ`. -/
def for_each_loop {σ : Type} (m : map K V HF CF) (func : σ → K → V → σ) :
    Nat → Nat → σ → Option σ
  | 0, _, s => some s
  | k + 1, i, s =>
    match m.p_buckets[i]? with
    | none => none
    | some chain =>
      for_each_loop m func k (i + 1) (chain.foldl (fun s b => func s b.value.key b.value.data) s)

/-- The member `for_each(func)`: the state after all the calls of `func`. -/
def for_each {σ : Type} (m : map K V HF CF) (func : σ → K → V → σ) (init : σ) : Option σ :=
  for_each_loop m func m.p_size 0 init

/-- The pairs `for_each` calls its callback on, in call order. -/
def visited (m : map K V HF CF) : Option (List (K × V)) :=
  for_each m (fun acc k v => acc ++ [(k, v)]) []

end map

/-- One call on a map: `insert(key, value)`, `operator[](key)` with the
reference only read, `operator[](key) = value` (a store through the returned
reference), `clear()`. -/
inductive map_op (K V : Type) where
  | insert (key : K) (value : V)
  | subscript (key : K)
  | assign (key : K) (value : V)
  | clear
deriving Repr, DecidableEq

namespace map

variable {K V : Type} {HF : K → Nat} {CF : K → K → Bool}

/-- Performing one call on the map. -/
def apply_op [Inhabited K] [Inhabited V] (m : map K V HF CF) :
    map_op K V → Option (map K V HF CF)
  | .insert key value => (insert m key value).map Prod.fst
  | .subscript key => (subscript m key).map Prod.fst
  | .assign key value => (subscript m key).map fun r => store r.1 r.2.addr value
  | .clear => some (clear m)

/-- Performing a sequence of calls on the map, first call first. -/
def run_ops [Inhabited K] [Inhabited V] (m : map K V HF CF) :
    List (map_op K V) → Option (map K V HF CF)
  | [] => some m
  | op :: ops =>
    match apply_op m op with
    | none => none
    | some m1 => run_ops m1 ops

/-- The map states reachable from a construction with a positive slot count
by `insert`, `operator[]` and `clear` calls. -/
def reachable [Inhabited K] [Inhabited V] (m : map K V HF CF) : Prop :=
  ∃ sz ops, 0 < sz ∧ run_ops (new sz : map K V HF CF) ops = some m

/-- The keys a call stores when absent. -/
def op_keys : map_op K V → List K
  | .insert key _ => [key]
  | .subscript key => [key]
  | .assign key _ => [key]
  | .clear => []

/-- The equality functor is an equivalence relation. -/
def equivalence (CF : K → K → Bool) : Prop :=
  (∀ a, CF a a = true) ∧ (∀ a b, CF a b = true → CF b a = true) ∧
  (∀ a b c, CF a b = true → CF b c = true → CF a c = true)

/-- The hash functor gives equal hashes to equal keys. -/
def hash_consistent (HF : K → Nat) (CF : K → K → Bool) : Prop :=
  ∀ a b, CF a b = true → HF a = HF b


/-- The chain of slot `h` (empty for an index outside the slot array). -/
def slot (m : map K V HF CF) (h : Nat) : List (bucket K V) :=
  (m.p_buckets[h]?).getD []

/-- The buckets linked in the slot chains, in slot order then chain order. -/
def live (m : map K V HF CF) : List (bucket K V) :=
  m.p_buckets.flatten

/-- The map state after a new bucket `b` is linked at the head of the chain
of slot `h`, the free list becoming `unused` and the chunk list `chunks`. -/
def link (m : map K V HF CF) (h : Nat) (b : bucket K V) (unused : List (bucket K V))
    (chunks : List Nat) : map K V HF CF :=
  { p_size := m.p_size, p_nelems := m.p_nelems + 1,
    p_buckets := m.p_buckets.set h (b :: slot m h),
    p_unused := unused, p_chunks := chunks }

/-- The invariant of the map's data model: a positive number of slots, one
chain per slot; every bucket is in the chain its key hashes to; the keys of a
chain are pairwise unequal under `CF`; `p_nelems` counts the linked buckets;
the buckets of the chains and of the free list have pairwise different
addresses, all inside allocated chunks; the chunks hold exactly these
buckets; the free list is shorter than a chunk. -/
structure inv (m : map K V HF CF) : Prop where
  size_pos : 0 < m.p_size
  slots : m.p_buckets.length = m.p_size
  hashed : ∀ h chain, m.p_buckets[h]? = some chain →
    ∀ b ∈ chain, HF b.value.key % m.p_size = h
  distinct_keys : ∀ chain ∈ m.p_buckets,
    chain.Pairwise (fun b1 b2 => CF b1.value.key b2.value.key = false)
  nelems : m.p_nelems = (live m).length
  nodup : ((live m ++ m.p_unused).map bucket.addr).Nodup
  in_chunk : ∀ b ∈ live m ++ m.p_unused, b.addr.1 < m.p_chunks.length
  account : CHUNK_SIZE * m.p_chunks.length = m.p_nelems + m.p_unused.length
  unused_lt : m.p_unused.length < CHUNK_SIZE

/-- The map states reachable from constructions with a positive slot count by
`insert`, `operator[]` and `clear` calls and by `swap` with maps that are
reachable the same way. -/
inductive reachable_swap [Inhabited K] [Inhabited V] : map K V HF CF → Prop where
  | new (sz : Nat) : 0 < sz → reachable_swap (new sz)
  | call (m : map K V HF CF) (op : map_op K V) (m1 : map K V HF CF) :
      reachable_swap m → apply_op m op = some m1 → reachable_swap m1
  | swap_this (this m : map K V HF CF) :
      reachable_swap this → reachable_swap m → reachable_swap (swap this m).1
  | swap_other (this m : map K V HF CF) :
      reachable_swap this → reachable_swap m → reachable_swap (swap this m).2

end map

/-- An equality functor on numbers, for concrete instances: `a == b`. -/
def nat_equal (a b : Nat) : Bool := a == b

/-- A hash functor on numbers, for concrete instances: the number itself. -/
def nat_hash (a : Nat) : Nat := a
/-! # Theorems -/

/-! ## vector -/

namespace vector

variable {T : Type}

/-! ### The canonical form of a well-formed array -/

theorem buffer_of_length (xs : List T) (cap : Nat) (h : xs.length ≤ cap) :
    (buffer_of xs cap).length = cap := by
  simp [buffer_of]; omega

theorem buffer_of_get (xs : List T) (cap i : Nat) :
    ((buffer_of xs cap)[i]?).join = xs[i]? := by
  unfold buffer_of
  by_cases h : i < xs.length
  · rw [List.getElem?_append_left (by simpa using h)]
    simp [h]
  · rw [List.getElem?_append_right (by simpa using h)]
    simp only [List.length_map]
    rw [List.getElem?_eq_none (Nat.le_of_not_lt h)]
    by_cases h2 : i - xs.length < cap - xs.length
    · simp [List.getElem?_replicate, h2]
    · simp [List.getElem?_replicate, h2]

theorem buffer_of_set (xs : List T) (cap : Nat) (x : T) (h : xs.length < cap) :
    (buffer_of xs cap).set xs.length (some x) = buffer_of (xs ++ [x]) cap := by
  unfold buffer_of
  rw [List.set_append_right _ _ (by simp)]
  simp only [List.length_map, Nat.sub_self, List.map_append, List.map_cons, List.map_nil,
    List.append_assoc, List.length_append, List.length_singleton]
  congr 1
  obtain ⟨d, hd⟩ : ∃ d, cap - xs.length = d + 1 := ⟨cap - xs.length - 1, by omega⟩
  rw [hd, show cap - (xs.length + 1) = d by omega]
  simp [List.replicate_succ]

theorem buffer_of_unset (xs : List T) (cap : Nat) (x : T) (h : xs.length < cap) :
    (buffer_of (xs ++ [x]) cap).set xs.length none = buffer_of xs cap := by
  rw [← buffer_of_set xs cap x h]
  unfold buffer_of
  rw [List.set_set]
  rw [List.set_append_right _ _ (by simp)]
  simp only [List.length_map, Nat.sub_self]
  congr 1
  obtain ⟨d, hd⟩ : ∃ d, cap - xs.length = d + 1 := ⟨cap - xs.length - 1, by omega⟩
  rw [hd]
  simp [List.replicate_succ]

theorem buffer_shape (buf : List (Option T)) (n : Nat) (hn : n ≤ buf.length)
    (h1 : (buf.take n).all Option.isSome = true)
    (h2 : (buf.drop n).all Option.isNone = true) :
    ((buf.take n).reduceOption).length = n ∧
    buf = buffer_of ((buf.take n).reduceOption) buf.length := by
  induction buf generalizing n with
  | nil => simp at hn; subst hn; simp [buffer_of]
  | cons a buf ih =>
    cases n with
    | zero =>
      simp only [List.take_zero, List.reduceOption_nil, List.length_nil, true_and]
      simp only [List.drop_zero, List.all_eq_true] at h2
      unfold buffer_of
      simp only [List.map_nil, List.length_nil, Nat.sub_zero, List.nil_append]
      apply List.ext_getElem (by simp)
      intro i hi1 hi2
      have := h2 _ (List.getElem_mem hi1)
      simp only [List.getElem_replicate]
      cases hx : (a :: buf)[i] with
      | none => rfl
      | some y => rw [hx] at this; simp at this
    | succ n =>
      simp only [List.take_succ_cons, List.all_cons, Bool.and_eq_true] at h1
      simp only [List.drop_succ_cons] at h2
      simp only [List.length_cons, Nat.add_le_add_iff_right] at hn
      obtain ⟨ha, h1⟩ := h1
      obtain ⟨y, rfl⟩ := Option.isSome_iff_exists.mp ha
      obtain ⟨e1, e2⟩ := ih n hn h1 h2
      simp only [List.take_succ_cons, List.reduceOption_cons_of_some, List.length_cons, e1, true_and]
      unfold buffer_of at e2 ⊢
      simp only [List.map_cons, List.length_cons, e1, Nat.add_sub_add_right, List.cons_append]
      rw [e1] at e2
      rw [← e2]

theorem reduceOption_map_some (xs : List T) : (xs.map some).reduceOption = xs := by
  induction xs with
  | nil => rfl
  | cons a xs ih => simp [List.reduceOption_cons_of_some, ih]

theorem wf_canon (v : vector T) (h : wf v) :
    v = canon (elems v) v.p_cap ∧ (elems v).length = v.p_size := by
  obtain ⟨buf, sz, cap⟩ := v
  unfold wf at h
  cases buf with
  | none =>
    simp only at h
    obtain ⟨h1, h2⟩ := h
    subst h2
    simp only [Nat.le_zero_eq] at h1
    subst h1
    simp [canon, elems]
  | some buf =>
    simp only at h
    obtain ⟨h1, h2, h3, h4, h5⟩ := h
    subst h3
    obtain ⟨e1, e2⟩ := buffer_shape buf sz h1 h4 h5
    simp only [canon, elems, Option.getD_some, e1, and_true]
    have : buf.length ≠ 0 := by omega
    simp only [this, if_false]
    rw [← e2]

theorem canon_wf (xs : List T) (cap : Nat) (h : xs.length ≤ cap) : wf (canon xs cap) := by
  unfold wf canon
  refine ⟨h, ?_⟩
  by_cases hc : cap = 0
  · simp [hc]
  · simp only [hc, if_false]
    refine ⟨by omega, buffer_of_length xs cap h, ?_, ?_⟩
    · unfold buffer_of
      rw [List.take_append_of_le_length (by simp)]
      simp [List.take_of_length_le]
    · unfold buffer_of
      rw [List.drop_append_of_le_length (by simp)]
      simp [List.drop_of_length_le]

theorem canon_elems (xs : List T) (cap : Nat) (h : xs.length ≤ cap) :
    elems (canon xs cap) = xs := by
  unfold elems canon
  by_cases hc : cap = 0
  · subst hc
    simp only [Nat.le_zero_eq, List.length_eq_zero] at h
    subst h; simp
  · simp only [hc, if_false, Option.getD_some]
    unfold buffer_of
    rw [List.take_append_of_le_length (by simp)]
    simp only [List.map_append, List.length_map, Nat.sub_self, List.take_zero, List.append_nil,
      Nat.le_refl, List.take_of_length_le, List.take_append_of_le_length]
    exact reduceOption_map_some xs

/-! ### The operations on the canonical form -/

theorem read_at_buffer_of (xs : List T) (cap i : Nat) :
    read_at (buffer_of xs cap) i = xs[i]? :=
  buffer_of_get xs cap i

theorem canon_getD (xs : List T) (cap : Nat) (h : xs.length ≤ cap) :
    (canon xs cap).p_buf.getD [] = buffer_of xs cap := by
  unfold canon
  by_cases hc : cap = 0
  · subst hc
    simp only [Nat.le_zero_eq, List.length_eq_zero] at h
    subst h; simp [buffer_of]
  · simp [hc]

theorem reserve_loop_buffer_of (xs : List T) (c n k : Nat) :
    ∀ i, i + k ≤ xs.length → xs.length ≤ n →
      reserve_loop (buffer_of xs c) k i (buffer_of (xs.take i) n)
        = some (buffer_of (xs.take (i + k)) n) := by
  induction k with
  | zero => intro i _ _; simp [reserve_loop]
  | succ k ih =>
    intro i hik hn
    have hi : i < xs.length := by omega
    have hlen : (xs.take i).length = i := by simp; omega
    simp only [reserve_loop, read_at_buffer_of, List.getElem?_eq_getElem hi]
    have hc : construct_at (buffer_of (xs.take i) n) i xs[i]
        = some (buffer_of (xs.take (i + 1)) n) := by
      unfold construct_at
      rw [buffer_of_length _ _ (by omega), if_pos (by omega)]
      have := buffer_of_set (xs.take i) n xs[i] (by omega)
      rw [hlen] at this
      rw [this, List.take_succ, List.getElem?_eq_getElem hi]
      rfl
    rw [hc]
    simp only
    rw [ih (i + 1) (by omega) hn, show i + 1 + k = i + (k + 1) by omega]

theorem reserve_canon (xs : List T) (cap n : Nat) (h : xs.length ≤ cap) :
    reserve (canon xs cap) n
      = some (canon xs (if n ≤ cap then cap else max n MIN_SIZE)) := by
  unfold reserve
  by_cases hn : n ≤ cap
  · simp [canon, hn]
  · have hcap : (canon xs cap).p_cap = cap := rfl
    have hsz : (canon xs cap).p_size = xs.length := rfl
    simp only [hcap, hsz, hn, if_false]
    have hm : (if n < MIN_SIZE then MIN_SIZE else n) = max n MIN_SIZE := by
      unfold MIN_SIZE; split <;> omega
    rw [hm]
    have hpos : max n MIN_SIZE ≠ 0 := by unfold MIN_SIZE; omega
    have hrep : List.replicate (max n MIN_SIZE) (none : Option T)
        = buffer_of (xs.take 0) (max n MIN_SIZE) := by
      simp [buffer_of]
    by_cases hc : cap = 0
    · subst hc
      simp only [Nat.le_zero_eq, List.length_eq_zero] at h
      subst h
      simp only [ne_eq, not_true_eq_false, if_false, canon, hpos, List.length_nil]
      simp [buffer_of]
    · simp only [ne_eq, hc, not_false_eq_true, if_true]
      rw [canon_getD xs cap h, hrep,
        reserve_loop_buffer_of xs cap (max n MIN_SIZE) xs.length 0 (by omega) (by omega)]
      simp [canon, hpos]

theorem push_back_canon (xs : List T) (cap : Nat) (x : T) (h : xs.length ≤ cap) :
    push_back (canon xs cap) x
      = some (canon (xs ++ [x]) (max (cap + 1) MIN_SIZE)) := by
  unfold push_back
  have hcap : (canon xs cap).p_cap = cap := rfl
  rw [hcap, reserve_canon xs cap (cap + 1) h]
  simp only [Nat.add_one_le_iff, Nat.lt_irrefl, if_false]
  have hlt : xs.length < max (cap + 1) MIN_SIZE := by omega
  rw [canon_getD xs _ (by omega)]
  have hsz : (canon xs (max (cap + 1) MIN_SIZE)).p_size = xs.length := rfl
  rw [hsz]
  unfold construct_at
  rw [buffer_of_length _ _ (by omega), if_pos hlt, buffer_of_set xs _ x hlt]
  have hpos : max (cap + 1) MIN_SIZE ≠ 0 := by omega
  simp [canon, hpos]

theorem emplace_back_canon (xs : List T) (cap : Nat) (x : T) (h : xs.length ≤ cap) :
    emplace_back (canon xs cap) x
      = some (canon (xs ++ [x]) (max (cap + 1) MIN_SIZE), x) := by
  have hp := push_back_canon xs cap x h
  unfold push_back at hp
  unfold emplace_back
  cases hr : reserve (canon xs cap) ((canon xs cap).p_cap + 1) with
  | none => rw [hr] at hp; simp at hp
  | some v1 =>
    rw [hr] at hp
    simp only at hp ⊢
    cases hc : construct_at (v1.p_buf.getD []) v1.p_size x with
    | none => rw [hc] at hp; simp at hp
    | some buf =>
      rw [hc] at hp
      simp only [Option.some.injEq] at hp ⊢
      rw [hp]

theorem pop_back_canon (xs : List T) (cap : Nat) (x : T) (h : xs.length < cap) :
    pop_back (canon (xs ++ [x]) cap) = some (canon xs cap) := by
  unfold pop_back
  have hsz : (canon (xs ++ [x]) cap).p_size = xs.length + 1 := by simp [canon]
  rw [hsz, canon_getD _ _ (by simp; omega)]
  simp only [Nat.add_one_ne_zero, if_false, Nat.add_sub_cancel]
  unfold destroy_at
  rw [read_at_buffer_of]
  simp only [List.getElem?_append_right (Nat.le_refl _), Nat.sub_self, List.getElem?_cons_zero]
  rw [buffer_of_unset xs cap x h]
  have hpos : cap ≠ 0 := by omega
  simp [canon, hpos]

theorem subscript_canon (xs : List T) (cap i : Nat) (h : xs.length ≤ cap) :
    subscript (canon xs cap) i = xs[i]? := by
  unfold subscript
  rw [canon_getD xs cap h, read_at_buffer_of]

theorem front_canon (xs : List T) (cap : Nat) (h : xs.length ≤ cap) :
    front (canon xs cap) = xs.head? := by
  unfold front
  rw [canon_getD xs cap h, read_at_buffer_of]
  cases xs <;> simp

theorem back_canon (xs : List T) (cap : Nat) (h : xs.length ≤ cap) :
    back (canon xs cap) = xs.getLast? := by
  unfold back
  have hsz : (canon xs cap).p_size = xs.length := rfl
  rw [hsz, canon_getD xs cap h, read_at_buffer_of]
  by_cases hx : xs = []
  · subst hx; rfl
  · have : xs.length ≠ 0 := by simpa using hx
    simp only [this, if_false]
    rw [List.getLast?_eq_getElem?]

theorem resize_loop_get (k : Nat) :
    ∀ (i : Nat) (buf : List (Option T)),
      (∀ j, i ≤ j → j < i + k → (read_at buf j).isSome = true) →
      ∃ buf1, resize_loop k i buf = some buf1 ∧
        ∀ j, buf1[j]? = if i ≤ j ∧ j < i + k then some none else buf[j]? := by
  induction k with
  | zero =>
    intro i buf _
    refine ⟨buf, rfl, fun j => ?_⟩
    have : ¬ (i ≤ j ∧ j < i + 0) := by omega
    rw [if_neg this]
  | succ k ih =>
    intro i buf hlive
    have hi := hlive i (Nat.le_refl _) (by omega)
    obtain ⟨y, hy⟩ := Option.isSome_iff_exists.mp hi
    have hilt : i < buf.length := by
      by_contra hcon
      unfold read_at at hy
      rw [List.getElem?_eq_none (by omega)] at hy
      simp at hy
    have hd : destroy_at buf i = some (buf.set i none) := by
      unfold destroy_at; rw [hy]
    have hlive2 : ∀ j, i + 1 ≤ j → j < i + 1 + k →
        (read_at (buf.set i none) j).isSome = true := by
      intro j h1 h2
      have := hlive j (by omega) (by omega)
      unfold read_at at this ⊢
      rw [List.getElem?_set_ne (by omega)]
      exact this
    obtain ⟨buf1, e1, e2⟩ := ih (i + 1) (buf.set i none) hlive2
    refine ⟨buf1, ?_, fun j => ?_⟩
    · simp only [resize_loop, hd, e1]
    · rw [e2 j]
      by_cases hj : j = i
      · subst hj
        have h1 : ¬ (j + 1 ≤ j ∧ j < j + 1 + k) := by omega
        have h2 : j ≤ j ∧ j < j + (k + 1) := by omega
        simp [h1, h2, hilt]
      · rw [List.getElem?_set_ne (fun h => hj h.symm)]
        by_cases hr : i + 1 ≤ j ∧ j < i + 1 + k
        · have : i ≤ j ∧ j < i + (k + 1) := by omega
          simp [hr, this]
        · have : ¬ (i ≤ j ∧ j < i + (k + 1)) := by omega
          simp [hr, this]

theorem buffer_of_getElem? (xs : List T) (cap j : Nat) (h : xs.length ≤ cap) :
    (buffer_of xs cap)[j]? =
      if j < xs.length then some xs[j]? else if j < cap then some none else none := by
  unfold buffer_of
  by_cases h1 : j < xs.length
  · rw [List.getElem?_append_left (by simpa using h1)]
    simp [h1]
  · rw [List.getElem?_append_right (by simpa using h1)]
    simp only [List.length_map, h1, if_false, List.getElem?_replicate]
    by_cases h2 : j < cap
    · have : j - xs.length < cap - xs.length := by omega
      simp [h2, this]
    · have : ¬ j - xs.length < cap - xs.length := by omega
      simp [h2, this]

theorem resize_canon (xs : List T) (cap n : Nat) (h : xs.length ≤ cap) (hn : n ≤ xs.length) :
    resize (canon xs cap) n = some (canon (xs.take n) cap) := by
  unfold resize
  have hsz : (canon xs cap).p_size = xs.length := rfl
  rw [hsz, canon_getD xs cap h]
  have hlive : ∀ j, n ≤ j → j < n + (xs.length - n) →
      (read_at (buffer_of xs cap) j).isSome = true := by
    intro j _ h2
    rw [read_at_buffer_of, List.getElem?_eq_getElem (by omega)]
    rfl
  obtain ⟨buf1, e1, e2⟩ := resize_loop_get (xs.length - n) n (buffer_of xs cap) hlive
  rw [e1]
  have hb : buf1 = buffer_of (xs.take n) cap := by
    apply List.ext_getElem?
    intro j
    rw [e2 j, buffer_of_getElem? xs cap j h,
      buffer_of_getElem? (xs.take n) cap j (by simp; omega)]
    simp only [List.length_take]
    by_cases h1 : j < n
    · have a1 : ¬ (n ≤ j ∧ j < n + (xs.length - n)) := by omega
      have a2 : j < xs.length := by omega
      have a3 : j < min n xs.length := by omega
      simp [a1, a2, a3, List.getElem?_take, h1]
    · have a3 : ¬ j < min n xs.length := by omega
      by_cases h2 : j < xs.length
      · have a1 : n ≤ j ∧ j < n + (xs.length - n) := by omega
        have a4 : j < cap := by omega
        simp [a1, a3, a4]
      · have a1 : ¬ (n ≤ j ∧ j < n + (xs.length - n)) := by omega
        simp [a1, a3, h2]
  subst hb
  simp only [canon, Option.some.injEq]
  by_cases hc : cap = 0
  · simp [hc]; omega
  · simp [hc]; omega

theorem copy_loop_canon (ys : List T) (c : Nat) (hy : ys.length ≤ c) (k : Nat) :
    ∀ (i : Nat) (acc : List T) (cap : Nat), i + k ≤ ys.length → acc.length ≤ cap →
      ∃ cap1, cap ≤ cap1 ∧ acc.length + k ≤ cap1 ∧
        copy_loop (canon ys c) k i (canon acc cap)
          = some (canon (acc ++ (ys.drop i).take k) cap1) := by
  induction k with
  | zero =>
    intro i acc cap _ hacc
    exact ⟨cap, Nat.le_refl _, hacc, by simp [copy_loop]⟩
  | succ k ih =>
    intro i acc cap hik hacc
    have hi : i < ys.length := by omega
    simp only [copy_loop, subscript_canon ys c i hy, List.getElem?_eq_getElem hi,
      push_back_canon acc cap ys[i] hacc]
    obtain ⟨cap1, h1, h2, h3⟩ := ih (i + 1) (acc ++ [ys[i]]) (max (cap + 1) MIN_SIZE)
      (by omega) (by simp; omega)
    refine ⟨cap1, by omega, by simp at h2; omega, ?_⟩
    rw [h3]
    congr 2
    rw [List.append_assoc]
    congr 1
    rw [List.drop_eq_getElem_cons hi, List.take_succ_cons]
    simp

theorem copy_assign_canon (xs ys : List T) (cx cy : Nat)
    (hx : xs.length ≤ cx) (hy : ys.length ≤ cy) :
    ∃ cap1, cx ≤ cap1 ∧ ys.length ≤ cap1 ∧
      copy_assign (canon xs cx) (canon ys cy) = some (canon ys cap1, canon ys cy) := by
  unfold copy_assign
  rw [resize_canon xs cx 0 hx (Nat.zero_le _)]
  simp only [List.take_zero]
  have hs : (canon ys cy).size = ys.length := rfl
  have hc : (canon ([] : List T) cx).capacity = cx := rfl
  rw [hs, hc]
  have hres : (if ys.length > cx then reserve (canon ([] : List T) cx) ys.length
      else some (canon [] cx))
      = some (canon [] (if ys.length ≤ cx then cx else max ys.length MIN_SIZE)) := by
    by_cases h : ys.length > cx
    · rw [if_pos h, reserve_canon [] cx ys.length (by simp)]
    · rw [if_neg h, if_pos (by omega)]
  rw [hres]
  simp only
  obtain ⟨cap1, h1, h2, h3⟩ := copy_loop_canon ys cy hy ys.length 0 []
    (if ys.length ≤ cx then cx else max ys.length MIN_SIZE) (by omega) (by simp)
  refine ⟨cap1, ?_, by simpa using h2, ?_⟩
  · split at h1 <;> omega
  · rw [h3]; simp

end vector

/-! ### Stack discipline (C2) -/

namespace vector

variable {T : Type}

theorem run_ops_canon (ops : List (stack_op T)) :
    ∀ (xs : List T) (cap : Nat), xs.length ≤ cap → pops_ok xs.length ops = true →
      ∃ cap1, (ref_run xs ops).length ≤ cap1 ∧
        run_ops (canon xs cap) ops = some (canon (ref_run xs ops) cap1) ∧
        (ref_run xs ops).length + count_pop ops = xs.length + count_push ops := by
  induction ops with
  | nil =>
    intro xs cap h _
    exact ⟨cap, h, rfl, rfl⟩
  | cons op ops ih =>
    intro xs cap h hok
    cases op with
    | push x =>
      simp only [pops_ok] at hok
      obtain ⟨cap1, h1, h2, h3⟩ := ih (xs ++ [x]) (max (cap + 1) MIN_SIZE)
        (by simp; omega) (by simpa using hok)
      refine ⟨cap1, h1, ?_, ?_⟩
      · simp only [run_ops, apply_op, push_back_canon xs cap x h]
        exact h2
      · simp only [List.length_append, List.length_singleton] at h3
        simp only [ref_run, List.foldl_cons, count_pop, count_push] at h3 ⊢
        simp only [ref_apply] at h3 ⊢
        omega
    | pop =>
      simp only [pops_ok, Bool.and_eq_true, decide_eq_true_eq] at hok
      obtain ⟨hpos, hok⟩ := hok
      have hne : xs ≠ [] := by
        intro hnil; subst hnil; simp at hpos
      obtain ⟨ys, y, rfl⟩ : ∃ ys y, xs = ys ++ [y] :=
        ⟨xs.dropLast, xs.getLast hne, (List.dropLast_append_getLast hne).symm⟩
      simp only [List.length_append, List.length_singleton, Nat.add_sub_cancel] at hok h
      obtain ⟨cap1, h1, h2, h3⟩ := ih ys cap (by omega) hok
      have hd : ref_run (ys ++ [y]) (stack_op.pop :: ops) = ref_run ys ops := by
        simp [ref_run, ref_apply]
      refine ⟨cap1, by rw [hd]; exact h1, ?_, ?_⟩
      · simp only [run_ops, apply_op, pop_back_canon ys cap y (by omega)]
        rw [hd]; exact h2
      · rw [hd]
        simp only [count_pop, count_push, List.length_append, List.length_singleton]
        omega

theorem new_eq_canon : (new : vector T) = canon [] 0 := rfl

theorem ref_run_push (xs ys : List T) :
    ref_run xs (ys.map stack_op.push) = xs ++ ys := by
  induction ys generalizing xs with
  | nil => simp [ref_run]
  | cons y ys ih =>
    have := ih (xs ++ [y])
    simp only [ref_run, List.map_cons, List.foldl_cons, ref_apply] at this ⊢
    rw [this]; simp

theorem pops_ok_push (ys : List T) (n : Nat) :
    pops_ok n (ys.map stack_op.push) = true := by
  induction ys generalizing n with
  | nil => rfl
  | cons y ys ih => simp only [List.map_cons, pops_ok]; exact ih (n + 1)

theorem count_push_map (ys : List T) : count_push (ys.map stack_op.push) = ys.length := by
  induction ys with
  | nil => rfl
  | cons y ys ih => simp [count_push, ih]

/-- Stack discipline for arguments outside the array: for every sequence of
`push_back` / `pop_back` calls on a newly constructed array, every pushed
object being outside the array, in which `pop_back` is never called on an
empty array, the calls all succeed, `size()` is the number of pushes minus the
number of pops, the elements at the indices below `size()` are those of the
reference stack (in push order), and `front()` / `back()` are its first and
last element.  Pushing `0..999` gives `size() = 1000`, `front() = 0`,
`back() = 999`. -/
theorem stack_discipline_outside :
    (∀ (T : Type) (ops : List (stack_op T)), pops_ok 0 ops = true →
      ∃ v, run_ops (new : vector T) ops = some v ∧
        count_pop ops ≤ count_push ops ∧
        v.size = count_push ops - count_pop ops ∧
        v.size = (ref_run [] ops).length ∧
        (∀ i, i < v.size → v.subscript i = (ref_run [] ops)[i]? ∧ (v.subscript i).isSome = true) ∧
        v.front = (ref_run [] ops).head? ∧
        v.back = (ref_run [] ops).getLast?) ∧
    (∃ v, run_ops (new : vector Nat) ((List.range 1000).map stack_op.push) = some v ∧
        v.size = 1000 ∧ v.front = some 0 ∧ v.back = some 999) := by
  constructor
  · intro T ops hok
    obtain ⟨cap1, h1, h2, h3⟩ := run_ops_canon ops ([] : List T) 0 (by simp) hok
    refine ⟨canon (ref_run [] ops) cap1, ?_, ?_, ?_, rfl, ?_, ?_, ?_⟩
    · rw [new_eq_canon]; exact h2
    · simp only [List.length_nil] at h3; omega
    · simp only [List.length_nil] at h3
      show (ref_run [] ops).length = _
      omega
    · intro i hi
      have hi2 : i < (ref_run [] ops).length := hi
      rw [subscript_canon _ _ _ h1]
      refine ⟨rfl, ?_⟩
      rw [List.getElem?_eq_getElem hi2]; rfl
    · exact front_canon _ _ h1
    · exact back_canon _ _ h1
  · obtain ⟨cap1, h1, h2, _⟩ := run_ops_canon ((List.range 1000).map stack_op.push)
      ([] : List Nat) 0 (by simp) (pops_ok_push _ _)
    rw [ref_run_push] at h1 h2
    simp only [List.nil_append] at h1 h2
    refine ⟨canon (List.range 1000) cap1, ?_, ?_, ?_, ?_⟩
    · rw [new_eq_canon]; exact h2
    · simp [size, canon]
    · rw [front_canon _ _ h1, show (1000 : Nat) = 999 + 1 from rfl, List.range_succ_eq_map]; rfl
    · rw [back_canon _ _ h1, List.getLast?_range]; rfl

/-- The stack discipline at the call sequence push 1, push 2, pop, push 3. -/
theorem stack_discipline_outside_example :
    pops_ok 0 [stack_op.push 1, stack_op.push 2, stack_op.pop, stack_op.push 3] = true ∧
    ∃ v, run_ops (new : vector Nat)
        [stack_op.push 1, stack_op.push 2, stack_op.pop, stack_op.push 3] = some v ∧
      v.size = 2 ∧ v.subscript 0 = some 1 ∧ v.subscript 1 = some 3 ∧
      v.front = some 1 ∧ v.back = some 3 := by
  refine ⟨by decide, ?_⟩
  obtain ⟨v, h1, _, h3, _, h5, h6, h7⟩ := stack_discipline_outside.1 Nat
    [stack_op.push 1, stack_op.push 2, stack_op.pop, stack_op.push 3] (by decide)
  refine ⟨v, h1, ?_, ?_, ?_, ?_, ?_⟩
  · rw [h3]; decide
  · have h30 : v.size = 2 := by rw [h3]; decide
    rw [(h5 0 (by omega)).1]; decide
  · have h30 : v.size = 2 := by rw [h3]; decide
    rw [(h5 1 (by omega)).1]; decide
  · rw [h6]; decide
  · rw [h7]; decide

end vector

/-! ### reserve, assignment (C6, C7, C9, C10) -/

namespace vector

variable {T : Type}

theorem subscript_isSome_of_wf (v : vector T) (h : wf v) (i : Nat) (hi : i < v.size) :
    (v.subscript i).isSome = true := by
  obtain ⟨e1, e2⟩ := wf_canon v h
  have hle : (elems v).length ≤ v.p_cap := by rw [e2]; exact h.1
  rw [e1, subscript_canon _ _ _ hle, List.getElem?_eq_getElem (by rw [e2]; exact hi)]
  rfl

/-- Claim C6, as the code has it: the move assignment `B = move(A)` exchanges
the two arrays.  `B` gets the size, capacity and elements `A` had; `A` gets
the size, capacity and elements `B` had, so `A` is empty exactly when `B` was
empty before; and when `B` was a well-formed array, `A` accepts further
`push_back` calls, which append after the elements it took over from `B`. -/
theorem C6_move_assign_exchanges (T : Type) (a b : vector T) :
    ((move_assign b a).1.size = a.size ∧ (move_assign b a).1.capacity = a.capacity ∧
      ∀ i, (move_assign b a).1.subscript i = a.subscript i) ∧
    ((move_assign b a).2.size = b.size ∧ (move_assign b a).2.capacity = b.capacity ∧
      ∀ i, (move_assign b a).2.subscript i = b.subscript i) ∧
    ((move_assign b a).2.size = 0 ↔ b.size = 0) ∧
    (wf b → wf (move_assign b a).2 ∧
      ∀ x, ∃ a2, push_back (move_assign b a).2 x = some a2 ∧ wf a2 ∧
        a2.size = b.size + 1 ∧ a2.subscript b.size = some x ∧
        ∀ i, i < b.size → a2.subscript i = b.subscript i) := by
  have h2 : (move_assign b a).2 = b := rfl
  have h1 : (move_assign b a).1 = a := rfl
  rw [h1, h2]
  refine ⟨⟨rfl, rfl, fun _ => rfl⟩, ⟨rfl, rfl, fun _ => rfl⟩, Iff.rfl, ?_⟩
  intro hb
  refine ⟨hb, fun x => ?_⟩
  obtain ⟨e1, e2⟩ := wf_canon b hb
  have hle : (elems b).length ≤ b.p_cap := by rw [e2]; exact hb.1
  have hp := push_back_canon (elems b) b.p_cap x hle
  rw [← e1] at hp
  have hle2 : (elems b ++ [x]).length ≤ max (b.p_cap + 1) MIN_SIZE := by
    simp only [List.length_append, List.length_singleton]; omega
  refine ⟨_, hp, canon_wf _ _ hle2, ?_, ?_, ?_⟩
  · simp only [size, canon, List.length_append, List.length_singleton, e2]
  · rw [subscript_canon _ _ _ hle2]
    have : b.size = (elems b).length := e2.symm
    rw [this, List.getElem?_append_right (Nat.le_refl _)]
    simp
  · intro i hi
    rw [subscript_canon _ _ _ hle2]
    have hi2 : i < (elems b).length := by rw [e2]; exact hi
    rw [List.getElem?_append_left hi2]
    conv_rhs => rw [e1, subscript_canon _ _ _ hle]

/-- Witness of C6 at `A = [1]` and `B = [2]` (both of capacity 4): after
`B = move(A)`, `B` holds `1`, `A` holds `2`, and `A.push_back(5)` gives
`[2, 5]`. -/
theorem C6_move_assign_exchanges_witness :
    wf (canon [2] 4 : vector Nat) ∧
    (move_assign (canon [2] 4 : vector Nat) (canon [1] 4)).1.subscript 0 = some 1 ∧
    (move_assign (canon [2] 4 : vector Nat) (canon [1] 4)).2.subscript 0 = some 2 ∧
    ∃ a2, push_back (move_assign (canon [2] 4 : vector Nat) (canon [1] 4)).2 5 = some a2 ∧
      a2.size = 2 ∧ a2.subscript 1 = some 5 ∧ a2.subscript 0 = some 2 := by
  have h := C6_move_assign_exchanges Nat (canon [1] 4) (canon [2] 4)
  obtain ⟨a2, h1, _, h3, h4, h5⟩ := (h.2.2.2 (by decide)).2 5
  refine ⟨by decide, ?_, ?_, a2, h1, h3, h4, ?_⟩
  · rw [h.1.2.2 0]; decide
  · rw [h.2.1.2.2 0]; decide
  · rw [h5 0 (by decide)]; decide

/-- Counterexample to C6 as stated: with `A = [1]` and `B = [2]` (both of
capacity 4), after `B = move(A)` the array `A` is not empty: it has size 1
and holds `2`. -/
theorem C6_move_assign_source_not_emptied :
    wf (canon [1] 4 : vector Nat) ∧ wf (canon [2] 4 : vector Nat) ∧
    push_back (new : vector Nat) 1 = some (canon [1] 4) ∧
    push_back (new : vector Nat) 2 = some (canon [2] 4) ∧
    (move_assign (canon [2] 4 : vector Nat) (canon [1] 4)).2.size = 1 ∧
    ¬ ((move_assign (canon [2] 4 : vector Nat) (canon [1] 4)).2.size = 0) ∧
    (move_assign (canon [2] 4 : vector Nat) (canon [1] 4)).2.subscript 0 = some 2 := by
  decide

/-- Claim C7: for well-formed arrays `A` and `B` (distinct objects, `B` in any
state), the copy assignment `B = A` succeeds and leaves `B` a well-formed
array with `B.size() = A.size()` and `B[i] = A[i]` for every `i < A.size()`;
`A` (size, capacity, elements) is after the call what it was before. -/
theorem C7_copy_assign_copies (T : Type) (a b : vector T) (ha : wf a) (hb : wf b) :
    ∃ b1 a1, copy_assign b a = some (b1, a1) ∧ wf b1 ∧
      b1.size = a.size ∧
      (∀ i, i < a.size → b1.subscript i = a.subscript i ∧ (a.subscript i).isSome = true) ∧
      elems b1 = elems a ∧
      a1 = a ∧ a1.size = a.size ∧ a1.capacity = a.capacity ∧
      (∀ i, a1.subscript i = a.subscript i) := by
  obtain ⟨ea1, ea2⟩ := wf_canon a ha
  obtain ⟨eb1, eb2⟩ := wf_canon b hb
  have hla : (elems a).length ≤ a.p_cap := by rw [ea2]; exact ha.1
  have hlb : (elems b).length ≤ b.p_cap := by rw [eb2]; exact hb.1
  obtain ⟨cap1, _, h2, h3⟩ := copy_assign_canon (elems b) (elems a) b.p_cap a.p_cap hlb hla
  rw [← ea1, ← eb1] at h3
  refine ⟨_, _, h3, canon_wf _ _ h2, ?_, ?_, canon_elems _ _ h2, rfl, rfl, rfl, fun _ => rfl⟩
  · show (elems a).length = a.p_size
    exact ea2
  · intro i hi
    refine ⟨?_, subscript_isSome_of_wf a ha i hi⟩
    rw [subscript_canon _ _ _ h2]
    conv_rhs => rw [ea1, subscript_canon _ _ _ hla]

/-- Witness of C7 at `A = [1, 2, 3]` (capacity 6) and `B = [9]` (capacity 4). -/
theorem C7_copy_assign_copies_witness :
    wf (canon [1, 2, 3] 6 : vector Nat) ∧ wf (canon [9] 4 : vector Nat) ∧
    ∃ b1 a1, copy_assign (canon [9] 4 : vector Nat) (canon [1, 2, 3] 6) = some (b1, a1) ∧
      b1.size = 3 ∧ elems b1 = [1, 2, 3] ∧ a1 = canon [1, 2, 3] 6 := by
  obtain ⟨b1, a1, h1, _, h3, _, h5, h6, _⟩ :=
    C7_copy_assign_copies Nat (canon [1, 2, 3] 6) (canon [9] 4) (by decide) (by decide)
  exact ⟨by decide, by decide, b1, a1, h1, h3, by rw [h5]; decide, h6⟩

/-- Claim C9 fails on the code: `push_back` calls `reserve(p_cap + 1)`, so
every `push_back` reallocates.  On a newly constructed array, `reserve(4)`
gives capacity 4 and size 0, and the one `push_back(7)` that follows (size 1,
within the reserved 4) changes the capacity to 5 and the buffer with it.  In
general a `push_back` on a well-formed array of capacity `c` leaves the
capacity `max (c + 1) 4`, never `c`. -/
theorem C9_push_back_after_reserve_reallocates :
    (∃ v1 v2, reserve (new : vector Nat) 4 = some v1 ∧ v1.capacity = 4 ∧ v1.size = 0 ∧
      push_back v1 7 = some v2 ∧ v2.size = 1 ∧ v2.size ≤ 4 ∧
      v2.capacity = 5 ∧ v2.capacity ≠ v1.capacity ∧ v2.data ≠ v1.data) ∧
    (∀ (T : Type) (v : vector T) (x : T), wf v →
      ∃ v2, push_back v x = some v2 ∧ v2.capacity = max (v.capacity + 1) 4 ∧
        v2.capacity ≠ v.capacity) := by
  constructor
  · exact ⟨canon [] 4, canon [7] 5, by decide, by decide, by decide, by decide, by decide,
      by decide, by decide, by decide, by decide⟩
  · intro T v x hv
    obtain ⟨e1, e2⟩ := wf_canon v hv
    have hle : (elems v).length ≤ v.p_cap := by rw [e2]; exact hv.1
    have hp := push_back_canon (elems v) v.p_cap x hle
    rw [← e1] at hp
    refine ⟨_, hp, rfl, ?_⟩
    show max (v.p_cap + 1) MIN_SIZE ≠ v.p_cap
    omega

/-- The effect of `reserve` where the byte count of the request does not wrap
around: for every well-formed array (in particular `size() ≤ capacity()`) and
every `n`: if `n > capacity()`, `reserve(n)` succeeds, sets `capacity()` to
`max n 4` and leaves `size()` and every element at an index below `size()`
unchanged, in index order; if `n ≤ capacity()`, `reserve(n)` changes
nothing. -/
theorem reserve_effect (T : Type) (v : vector T) (n : Nat) (hv : wf v) :
    (v.capacity < n →
      ∃ v1, reserve v n = some v1 ∧ wf v1 ∧
        v1.capacity = max n 4 ∧ v1.size = v.size ∧
        (∀ i, i < v.size → v1.subscript i = v.subscript i ∧ (v.subscript i).isSome = true) ∧
        elems v1 = elems v) ∧
    (n ≤ v.capacity → reserve v n = some v) := by
  obtain ⟨e1, e2⟩ := wf_canon v hv
  have hle : (elems v).length ≤ v.p_cap := by rw [e2]; exact hv.1
  have hr := reserve_canon (elems v) v.p_cap n hle
  rw [← e1] at hr
  constructor
  · intro hn
    have hn2 : ¬ n ≤ v.p_cap := Nat.not_le.mpr hn
    rw [if_neg hn2] at hr
    have hle2 : (elems v).length ≤ max n MIN_SIZE := by
      have : v.p_cap < n := hn
      omega
    refine ⟨_, hr, canon_wf _ _ hle2, rfl, e2, ?_, canon_elems _ _ hle2⟩
    intro i hi
    refine ⟨?_, subscript_isSome_of_wf v hv i hi⟩
    rw [subscript_canon _ _ _ hle2]
    conv_rhs => rw [e1, subscript_canon _ _ _ hle]
  · intro hn
    have hn2 : n ≤ v.p_cap := hn
    rw [if_pos hn2, ← e1] at hr
    exact hr

/-- The effect of `reserve` at the array `[1, 2]` of capacity 4, with `n = 10`
(growth) and `n = 3` (no effect). -/
theorem reserve_effect_example :
    wf (canon [1, 2] 4 : vector Nat) ∧
    (∃ v1, reserve (canon [1, 2] 4 : vector Nat) 10 = some v1 ∧
        v1.capacity = 10 ∧ v1.size = 2 ∧ elems v1 = [1, 2]) ∧
    reserve (canon [1, 2] 4 : vector Nat) 3 = some (canon [1, 2] 4) :=
  ⟨by decide,
    ((reserve_effect Nat (canon [1, 2] 4) 10 (by decide)).1 (by decide)).imp
      fun _ h => ⟨h.1, h.2.2.1, h.2.2.2.1, h.2.2.2.2.2⟩,
    (reserve_effect Nat (canon [1, 2] 4) 3 (by decide)).2 (by decide)⟩

end vector

/-! ## fnv1a (C5) -/

theorem strlen_append_nul (s rest : List Nat) (hs : ∀ b ∈ s, b ≠ 0) :
    strlen (s ++ 0 :: rest) = s.length := by
  unfold strlen
  induction s with
  | nil => simp
  | cons a s ih =>
    have ha : a ≠ 0 := hs a (List.mem_cons_self _ _)
    have := ih (fun b hb => hs b (List.mem_cons_of_mem _ hb))
    simp [List.takeWhile_cons, ha, this]

theorem to_T_char_value_unsigned (w b : Nat) (hb : b < 2 ^ w) :
    to_T w (char_value false b) = b := by
  unfold to_T char_value
  simp only [Bool.false_and, Bool.false_eq_true, if_false]
  have : ((b : Int) % (2 : Int) ^ w) = (b : Int) := by
    apply Int.emod_eq_of_lt (by positivity)
    exact_mod_cast hb
  rw [this]; simp

theorem to_T_char_value_ascii (w b : Nat) (s : Bool) (hb : b < 2 ^ w) (h7 : b < 128) :
    to_T w (char_value s b) = b := by
  have : char_value s b = char_value false b := by
    unfold char_value
    have : ¬ 128 ≤ b := by omega
    simp [this]
  rw [this, to_T_char_value_unsigned w b hb]

theorem fnv1a_loop_eq_reference (w prime : Nat) (cs : Bool) (s : List Nat)
    (hconv : ∀ b ∈ s, to_T w (char_value cs b) = b) :
    ∀ (pre rest : List Nat) (hash : Nat),
      fnv1a_loop w prime cs (pre ++ s ++ rest) s.length pre.length hash
        = s.foldl (fun h b => ((h ^^^ b) * prime) % 2 ^ w) hash := by
  induction s with
  | nil => intro pre rest hash; rfl
  | cons a s ih =>
    intro pre rest hash
    have hb : byte_at (pre ++ a :: s ++ rest) pre.length = a := by
      simp only [byte_at, List.getD_eq_getElem?_getD, List.append_assoc, List.cons_append]
      rw [List.getElem?_append_right (Nat.le_refl _)]
      simp
    simp only [List.length_cons, fnv1a_loop, hb, List.foldl_cons,
      hconv a (List.mem_cons_self _ _)]
    have := ih (fun b hb => hconv b (List.mem_cons_of_mem _ hb)) (pre ++ [a]) rest
      (((hash ^^^ a) * prime) % 2 ^ w)
    simp only [List.length_append, List.length_singleton, List.append_assoc,
      List.singleton_append] at this
    simp only [List.append_assoc, List.cons_append]
    exact this

theorem fnv1a_eq_reference (w ob prime : Nat) (cs : Bool) (s rest : List Nat)
    (hs : ∀ b ∈ s, b ≠ 0) (hconv : ∀ b ∈ s, to_T w (char_value cs b) = b) :
    fnv1a w ob prime cs (s ++ 0 :: rest) = fnv1a_reference w ob prime s := by
  unfold fnv1a fnv1a_reference
  rw [strlen_append_nul s rest hs]
  have := fnv1a_loop_eq_reference w prime cs s hconv [] (0 :: rest) ob
  simpa using this

/-- Claim C5 against the code.  Where plain `char` is unsigned, and for byte
sequences of 7-bit values anywhere, `fnv1a` over a NUL-free byte sequence
followed by a NUL returns the standard FNV-1a value (for every width of at
least 8 bits, every `offset_basis` and `prime`), and the hash of the empty
string is `offset_basis`.  Where plain `char` is signed, `T(data[i])`
sign-extends a byte of 128 or more: for the one-byte string `0x80` the 64-bit
`str_hash` is `0x509c0cb379fdec5f` where standard FNV-1a gives
`0xaf643d4c8602915f` (and likewise for the 32-bit one). -/
theorem C5_fnv1a_against_standard :
    (∀ (w ob prime : Nat) (s rest : List Nat), 8 ≤ w →
      (∀ b ∈ s, b ≠ 0 ∧ b < 256) →
      fnv1a w ob prime false (s ++ 0 :: rest) = fnv1a_reference w ob prime s) ∧
    (∀ (w ob prime : Nat) (cs : Bool) (s rest : List Nat), 8 ≤ w →
      (∀ b ∈ s, b ≠ 0 ∧ b < 128) →
      fnv1a w ob prime cs (s ++ 0 :: rest) = fnv1a_reference w ob prime s) ∧
    (∀ (w ob prime : Nat) (cs : Bool) (rest : List Nat),
      fnv1a w ob prime cs (0 :: rest) = ob) ∧
    (str_hash 64 true [128, 0] = some 0x509c0cb379fdec5f ∧
      fnv1a_reference 64 14695981039346656037 1099511628211 [128] = 0xaf643d4c8602915f ∧
      str_hash 64 false [128, 0] = some 0xaf643d4c8602915f) ∧
    (str_hash 32 true [128, 0] = some 0x04f3b29f ∧
      fnv1a_reference 32 2166136261 16777619 [128] = 0x850b939f ∧
      str_hash 32 true [128, 0]
        ≠ some (fnv1a_reference 32 2166136261 16777619 [128])) := by
  refine ⟨?_, ?_, ?_, ?_, ?_⟩
  · intro w ob prime s rest hw hs
    have h256 : 256 ≤ 2 ^ w := by
      calc 256 = 2 ^ 8 := by norm_num
        _ ≤ 2 ^ w := Nat.pow_le_pow_right (by norm_num) hw
    exact fnv1a_eq_reference w ob prime false s rest (fun b hb => (hs b hb).1)
      (fun b hb => to_T_char_value_unsigned w b (by have := (hs b hb).2; omega))
  · intro w ob prime cs s rest hw hs
    have h256 : 256 ≤ 2 ^ w := by
      calc 256 = 2 ^ 8 := by norm_num
        _ ≤ 2 ^ w := Nat.pow_le_pow_right (by norm_num) hw
    exact fnv1a_eq_reference w ob prime cs s rest (fun b hb => (hs b hb).1)
      (fun b hb => to_T_char_value_ascii w b cs (by have := (hs b hb).2; omega) (hs b hb).2)
  · intro w ob prime cs rest
    rfl
  · refine ⟨by decide, by decide, by decide⟩
  · refine ⟨by decide, by decide, by decide⟩

/-! ## map -/

namespace map

variable {K V : Type} {HF : K → Nat} {CF : K → K → Bool}

/-! ### Lists of chains -/

theorem flatten_set_cons_perm (l : List (List (bucket K V))) (b : bucket K V) :
    ∀ h, h < l.length → ((l.set h (b :: (l[h]?).getD [])).flatten).Perm (b :: l.flatten) := by
  induction l with
  | nil => intro h hh; simp at hh
  | cons c l ih =>
    intro h hh
    cases h with
    | zero => simp
    | succ h =>
      simp only [List.length_cons, Nat.add_lt_add_iff_right] at hh
      simp only [List.set_cons_succ, List.flatten_cons, List.getElem?_cons_succ]
      have := ih h hh
      exact (List.Perm.append_left c this).trans List.perm_middle

theorem mem_set_chain (l : List (List (bucket K V))) (h : Nat) (c c1 : List (bucket K V))
    (hc : c1 ∈ l.set h c) : c1 = c ∨ c1 ∈ l := by
  rcases List.mem_or_eq_of_mem_set hc with h1 | h1
  · exact Or.inr h1
  · exact Or.inl h1

theorem write_chain_of_not_mem (a : Nat × Nat) (f : entry K V → entry K V)
    (c : List (bucket K V)) (ha : a ∉ c.map bucket.addr) : write_chain a f c = c := by
  induction c with
  | nil => rfl
  | cons b c ih =>
    simp only [List.map_cons, List.mem_cons, not_or] at ha
    have hb : ¬ b.addr = a := fun h => ha.1 h.symm
    simp only [write_chain, List.map_cons, hb, if_false, List.cons.injEq, true_and]
    exact ih ha.2

theorem write_chain_head (a : Nat × Nat) (f : entry K V → entry K V)
    (b : bucket K V) (c : List (bucket K V)) (hb : b.addr = a)
    (ha : a ∉ c.map bucket.addr) :
    write_chain a f (b :: c) = { b with value := f b.value } :: c := by
  have := write_chain_of_not_mem a f c ha
  simp only [write_chain, List.map_cons, hb, if_true, List.cons.injEq, true_and] at this ⊢
  exact this

theorem slot_mem (m : map K V HF CF) (h : Nat) (hh : h < m.p_buckets.length) :
    slot m h ∈ m.p_buckets := by
  unfold slot
  rw [List.getElem?_eq_getElem hh]
  exact List.getElem_mem hh

theorem slot_sub_live (m : map K V HF CF) (h : Nat) (b : bucket K V) (hb : b ∈ slot m h) :
    b ∈ live m := by
  unfold slot at hb
  by_cases hh : h < m.p_buckets.length
  · rw [List.getElem?_eq_getElem hh] at hb
    exact List.mem_flatten.mpr ⟨_, List.getElem_mem hh, hb⟩
  · rw [List.getElem?_eq_none (Nat.le_of_not_lt hh)] at hb
    simp at hb

/-! ### find_bucket, add and the stores under the invariant -/

theorem find_bucket_eq (m : map K V HF CF) (hm : inv m) (key : K) :
    find_bucket m key
      = some (HF key % m.p_size, find_in_chain CF key (slot m (HF key % m.p_size))) := by
  unfold find_bucket slot
  have h0 : m.p_size ≠ 0 := Nat.pos_iff_ne_zero.mp hm.size_pos
  have hlt : HF key % m.p_size < m.p_buckets.length := by
    rw [hm.slots]; exact Nat.mod_lt _ hm.size_pos
  simp [h0, List.getElem?_eq_getElem hlt]

theorem find_in_chain_none {key : K} {c : List (bucket K V)}
    (h : find_in_chain CF key c = none) : ∀ b ∈ c, CF key b.value.key = false := by
  induction c with
  | nil => intro b hb; simp at hb
  | cons a c ih =>
    intro b hb
    simp only [find_in_chain] at h
    by_cases ha : CF key a.value.key = true
    · simp [ha] at h
    · simp only [ha, if_false] at h
      rcases List.mem_cons.mp hb with rfl | hb
      · simpa using ha
      · exact ih h b hb

theorem find_in_chain_some {key : K} {c : List (bucket K V)} {b : bucket K V}
    (h : find_in_chain CF key c = some b) : b ∈ c ∧ CF key b.value.key = true := by
  induction c with
  | nil => simp [find_in_chain] at h
  | cons a c ih =>
    simp only [find_in_chain] at h
    by_cases ha : CF key a.value.key = true
    · simp only [ha, if_true, Option.some.injEq] at h
      subst h
      exact ⟨List.mem_cons_self _ _, ha⟩
    · simp only [ha, if_false] at h
      exact ⟨List.mem_cons_of_mem _ (ih h).1, (ih h).2⟩


theorem chunk_buckets_length [Inhabited K] [Inhabited V] (c : Nat) :
    (chunk_buckets c : List (bucket K V)).length = CHUNK_SIZE := by
  simp [chunk_buckets]

theorem chunk_buckets_addr [Inhabited K] [Inhabited V] (c : Nat) :
    (chunk_buckets c : List (bucket K V)).map bucket.addr
      = (List.range CHUNK_SIZE).map (fun i => (c, i)) := by
  simp [chunk_buckets, List.map_map, Function.comp_def]

theorem chunk_buckets_nodup [Inhabited K] [Inhabited V] (c : Nat) :
    ((chunk_buckets c : List (bucket K V)).map bucket.addr).Nodup := by
  rw [chunk_buckets_addr]
  exact (List.nodup_range _).map (fun i j h => by simpa using h)

theorem chunk_buckets_fst [Inhabited K] [Inhabited V] (c : Nat) (b : bucket K V)
    (hb : b ∈ (chunk_buckets c : List (bucket K V))) : b.addr.1 = c := by
  simp only [chunk_buckets, List.mem_map, List.mem_range] at hb
  obtain ⟨i, _, rfl⟩ := hb
  rfl

theorem chunk_buckets_ne_nil [Inhabited K] [Inhabited V] (c : Nat) :
    (chunk_buckets c : List (bucket K V)) ≠ [] := by
  intro h
  have := chunk_buckets_length (K := K) (V := V) c
  rw [h] at this
  simp [CHUNK_SIZE] at this

/-- What `add` does on a map that satisfies the invariant, for a slot index in
range: it succeeds; the bucket linked is the head of the free list, or of a
newly allocated chunk when the free list is empty. -/
theorem add_eq [Inhabited K] [Inhabited V] (m : map K V HF CF) (hm : inv m)
    (h : Nat) (hh : h < m.p_size) :
    ∃ b unused chunks, add m h = some (link m h b unused chunks, b) ∧
      ((m.p_unused = [] ∧ chunks = m.p_chunks.length :: m.p_chunks ∧
          b :: unused = chunk_buckets m.p_chunks.length) ∨
       (m.p_unused = b :: unused ∧ chunks = m.p_chunks)) := by
  have hlt : h < m.p_buckets.length := by rw [hm.slots]; exact hh
  cases hu : m.p_unused with
  | nil =>
    cases hc : (chunk_buckets m.p_chunks.length : List (bucket K V)) with
    | nil => exact absurd hc (chunk_buckets_ne_nil _)
    | cons b unused =>
      refine ⟨b, unused, m.p_chunks.length :: m.p_chunks, ?_, Or.inl ⟨rfl, rfl, rfl⟩⟩
      simp only [add, hu, hc, List.getElem?_eq_getElem hlt, link, slot, Option.getD_some]
  | cons b unused =>
    refine ⟨b, unused, m.p_chunks, ?_, Or.inr ⟨rfl, rfl⟩⟩
    simp only [add, hu, List.getElem?_eq_getElem hlt, link, slot, Option.getD_some]

theorem live_link_perm (m : map K V HF CF) (h : Nat) (hh : h < m.p_buckets.length)
    (b : bucket K V) (unused : List (bucket K V)) (chunks : List Nat) :
    (live (link m h b unused chunks)).Perm (b :: live m) := by
  unfold live link slot
  exact flatten_set_cons_perm m.p_buckets b h hh

/-- The bucket `add` takes is at an address no linked bucket and no bucket
left on the free list has. -/
theorem pool_fresh [Inhabited K] [Inhabited V] (m : map K V HF CF) (hm : inv m)
    (b0 : bucket K V) (unused : List (bucket K V)) (chunks : List Nat)
    (hpool : (m.p_unused = [] ∧ chunks = m.p_chunks.length :: m.p_chunks ∧
          b0 :: unused = chunk_buckets m.p_chunks.length) ∨
       (m.p_unused = b0 :: unused ∧ chunks = m.p_chunks)) :
    (b0.addr :: ((live m ++ unused).map bucket.addr)).Nodup := by
  rcases hpool with ⟨hu, _, hc⟩ | ⟨hu, _⟩
  · have hnd := hm.nodup
    rw [hu, List.append_nil] at hnd
    have hcn := chunk_buckets_nodup (K := K) (V := V) m.p_chunks.length
    rw [← hc, List.map_cons, List.nodup_cons] at hcn
    rw [List.nodup_cons, List.map_append]
    refine ⟨?_, ?_⟩
    · rw [List.mem_append, not_or]
      refine ⟨?_, hcn.1⟩
      intro hmem
      obtain ⟨x, hx, hxa⟩ := List.mem_map.mp hmem
      have h1 := hm.in_chunk x (List.mem_append_left _ hx)
      have h2 := chunk_buckets_fst (K := K) (V := V) m.p_chunks.length b0
        (by rw [← hc]; exact List.mem_cons_self _ _)
      rw [hxa, h2] at h1
      exact Nat.lt_irrefl _ h1
    · rw [List.nodup_append]
      refine ⟨hnd, hcn.2, ?_⟩
      intro a ha1 ha2
      obtain ⟨x, hx, hxa⟩ := List.mem_map.mp ha1
      obtain ⟨y, hy, hya⟩ := List.mem_map.mp ha2
      have h1 := hm.in_chunk x (List.mem_append_left _ hx)
      have h2 := chunk_buckets_fst (K := K) (V := V) m.p_chunks.length y
        (by rw [← hc]; exact List.mem_cons_of_mem _ hy)
      rw [hxa, ← hya, h2] at h1
      exact Nat.lt_irrefl _ h1
  · have hnd := hm.nodup
    rw [hu] at hnd
    have hp : ((live m ++ b0 :: unused).map bucket.addr).Perm
        (b0.addr :: (live m ++ unused).map bucket.addr) := by
      simp
    exact hp.nodup_iff.mp hnd

/-- The invariant is kept when a bucket taken as `add` takes it is linked at
the head of the chain its key hashes to, the key being unequal to the keys of
that chain. -/
theorem inv_link [Inhabited K] [Inhabited V] (m : map K V HF CF) (hm : inv m)
    (h : Nat) (hh : h < m.p_size) (b0 b : bucket K V) (unused : List (bucket K V))
    (chunks : List Nat) (haddr : b.addr = b0.addr)
    (hpool : (m.p_unused = [] ∧ chunks = m.p_chunks.length :: m.p_chunks ∧
          b0 :: unused = chunk_buckets m.p_chunks.length) ∨
       (m.p_unused = b0 :: unused ∧ chunks = m.p_chunks))
    (hhash : HF b.value.key % m.p_size = h)
    (hnew : ∀ x ∈ slot m h, CF b.value.key x.value.key = false) :
    inv (link m h b unused chunks) := by
  have hlt : h < m.p_buckets.length := by rw [hm.slots]; exact hh
  have hperm := live_link_perm m h hlt b unused chunks
  have hperm2 : ((live (link m h b unused chunks) ++ unused).map bucket.addr).Perm
      (b0.addr :: ((live m ++ unused).map bucket.addr)) := by
    have := (hperm.append_right unused).map bucket.addr
    simpa [haddr] using this
  refine ⟨hm.size_pos, ?_, ?_, ?_, ?_, ?_, ?_, ?_, ?_⟩
  · simp [link, hm.slots]
  · intro h1 chain hc x hx
    simp only [link] at hc ⊢
    by_cases he : h1 = h
    · subst he
      rw [List.getElem?_set_self hlt] at hc
      simp only [Option.some.injEq] at hc
      subst hc
      rcases List.mem_cons.mp hx with rfl | hx
      · exact hhash
      · have hs : m.p_buckets[h1]? = some (slot m h1) := by
          unfold slot; rw [List.getElem?_eq_getElem hlt]; rfl
        exact hm.hashed h1 _ hs x hx
    · rw [List.getElem?_set_ne (fun e => he e.symm)] at hc
      exact hm.hashed h1 chain hc x hx
  · intro chain hc
    simp only [link] at hc
    rcases mem_set_chain _ _ _ _ hc with rfl | hc
    · exact List.pairwise_cons.mpr ⟨hnew, hm.distinct_keys _ (slot_mem m h hlt)⟩
    · exact hm.distinct_keys _ hc
  · show m.p_nelems + 1 = (live (link m h b unused chunks)).length
    rw [hperm.length_eq, List.length_cons, hm.nelems]
  · show ((live (link m h b unused chunks) ++ unused).map bucket.addr).Nodup
    rw [hperm2.nodup_iff]
    exact pool_fresh m hm b0 unused chunks hpool
  · intro x hx
    show x.addr.1 < chunks.length
    have hx2 : x.addr ∈ (live (link m h b unused chunks) ++ unused).map bucket.addr :=
      List.mem_map_of_mem _ hx
    rw [hperm2.mem_iff] at hx2
    rcases hpool with ⟨hu, hch, hc⟩ | ⟨hu, hch⟩
    · subst hch
      simp only [List.length_cons]
      rcases List.mem_cons.mp hx2 with hx3 | hx3
      · have h2 := chunk_buckets_fst (K := K) (V := V) m.p_chunks.length b0
          (by rw [← hc]; exact List.mem_cons_self _ _)
        rw [hx3, h2]; exact Nat.lt_succ_self _
      · obtain ⟨y, hy, hya⟩ := List.mem_map.mp hx3
        rcases List.mem_append.mp hy with hy | hy
        · have := hm.in_chunk y (List.mem_append_left _ hy)
          rw [← hya]; omega
        · have h2 := chunk_buckets_fst (K := K) (V := V) m.p_chunks.length y
            (by rw [← hc]; exact List.mem_cons_of_mem _ hy)
          rw [← hya, h2]; exact Nat.lt_succ_self _
    · subst hch
      rcases List.mem_cons.mp hx2 with hx3 | hx3
      · have := hm.in_chunk b0 (by rw [hu]; simp)
        rw [hx3]; exact this
      · obtain ⟨y, hy, hya⟩ := List.mem_map.mp hx3
        have : y ∈ live m ++ m.p_unused := by
          rw [hu]
          rcases List.mem_append.mp hy with hy | hy
          · exact List.mem_append_left _ hy
          · exact List.mem_append_right _ (List.mem_cons_of_mem _ hy)
        rw [← hya]; exact hm.in_chunk y this
  · show CHUNK_SIZE * chunks.length = m.p_nelems + 1 + unused.length
    have hacc := hm.account
    rcases hpool with ⟨hu, hch, hc⟩ | ⟨hu, hch⟩
    · have hl := chunk_buckets_length (K := K) (V := V) m.p_chunks.length
      rw [← hc, List.length_cons] at hl
      rw [hu, List.length_nil] at hacc
      subst hch
      simp only [List.length_cons]
      rw [Nat.mul_succ]
      omega
    · rw [hu, List.length_cons] at hacc
      subst hch
      omega
  · show unused.length < CHUNK_SIZE
    rcases hpool with ⟨_, _, hc⟩ | ⟨hu, _⟩
    · have hl := chunk_buckets_length (K := K) (V := V) m.p_chunks.length
      rw [← hc, List.length_cons] at hl
      omega
    · have := hm.unused_lt
      rw [hu, List.length_cons] at this
      omega


/-- The bucket update a store through address `a` performs. -/
theorem write_chain_eq_map (a : Nat × Nat) (f : entry K V → entry K V) (c : List (bucket K V)) :
    write_chain a f c = c.map (fun b => if b.addr = a then { b with value := f b.value } else b) :=
  rfl

theorem write_chain_addr (a : Nat × Nat) (f : entry K V → entry K V) (c : List (bucket K V)) :
    (write_chain a f c).map bucket.addr = c.map bucket.addr := by
  induction c with
  | nil => rfl
  | cons b c ih =>
    simp only [write_chain, List.map_cons, List.map_map] at ih ⊢
    rw [ih]
    by_cases hb : b.addr = a <;> simp [hb]

theorem write_chain_key (a : Nat × Nat) (f : entry K V → entry K V)
    (hf : ∀ e, (f e).key = e.key) (c : List (bucket K V)) :
    (write_chain a f c).map (fun b => b.value.key) = c.map (fun b => b.value.key) := by
  induction c with
  | nil => rfl
  | cons b c ih =>
    simp only [write_chain, List.map_cons, List.map_map] at ih ⊢
    rw [ih]
    by_cases hb : b.addr = a <;> simp [hb, hf]

theorem write_chain_length (a : Nat × Nat) (f : entry K V → entry K V) (c : List (bucket K V)) :
    (write_chain a f c).length = c.length := by
  simp [write_chain]

theorem live_write (m : map K V HF CF) (a : Nat × Nat) (f : entry K V → entry K V) :
    live (write m a f) = write_chain a f (live m) := by
  simp only [live, write, write_chain_eq_map, List.map_flatten]
  rfl

theorem pairwise_keys_of_map_eq {c1 c2 : List (bucket K V)}
    (h : c1.map (fun b => b.value.key) = c2.map (fun b => b.value.key))
    (hp : c2.Pairwise (fun b1 b2 => CF b1.value.key b2.value.key = false)) :
    c1.Pairwise (fun b1 b2 => CF b1.value.key b2.value.key = false) := by
  have h2 : (c2.map (fun b => b.value.key)).Pairwise (fun k1 k2 => CF k1 k2 = false) :=
    List.pairwise_map.mpr hp
  rw [← h] at h2
  exact List.pairwise_map.mp h2

/-- A store that leaves keys alone keeps the invariant. -/
theorem inv_write (m : map K V HF CF) (hm : inv m) (a : Nat × Nat)
    (f : entry K V → entry K V) (hf : ∀ e, (f e).key = e.key) : inv (write m a f) := by
  have hlive := live_write m a f
  refine ⟨hm.size_pos, ?_, ?_, ?_, ?_, ?_, ?_, ?_, ?_⟩
  · simp [write, hm.slots]
  · intro h chain hc x hx
    simp only [write, List.getElem?_map, Option.map_eq_some'] at hc ⊢
    obtain ⟨c0, hc0, rfl⟩ := hc
    have hk := write_chain_key a f hf c0
    have hxk : x.value.key ∈ (write_chain a f c0).map (fun b => b.value.key) :=
      List.mem_map_of_mem (fun b => b.value.key) hx
    rw [hk] at hxk
    obtain ⟨y, hy, hyk⟩ := List.mem_map.mp hxk
    rw [← hyk]
    exact hm.hashed h c0 hc0 y hy
  · intro chain hc
    simp only [write, List.mem_map] at hc
    obtain ⟨c0, hc0, rfl⟩ := hc
    exact pairwise_keys_of_map_eq (write_chain_key a f hf c0) (hm.distinct_keys c0 hc0)
  · show m.p_nelems = (live (write m a f)).length
    rw [hlive, write_chain_length, hm.nelems]
  · show ((live (write m a f) ++ write_chain a f m.p_unused).map bucket.addr).Nodup
    rw [hlive, List.map_append, write_chain_addr, write_chain_addr, ← List.map_append]
    exact hm.nodup
  · intro x hx
    have hx2 : x.addr ∈ (live (write m a f) ++ write_chain a f m.p_unused).map bucket.addr :=
      List.mem_map_of_mem _ hx
    rw [hlive, List.map_append, write_chain_addr, write_chain_addr, ← List.map_append] at hx2
    obtain ⟨y, hy, hya⟩ := List.mem_map.mp hx2
    rw [← hya]
    exact hm.in_chunk y hy
  · show CHUNK_SIZE * m.p_chunks.length = m.p_nelems + (write_chain a f m.p_unused).length
    rw [write_chain_length]; exact hm.account
  · show (write_chain a f m.p_unused).length < CHUNK_SIZE
    rw [write_chain_length]; exact hm.unused_lt

/-- A store through the pointer `add` returned changes the bucket just linked
and nothing else. -/
theorem write_link [Inhabited K] [Inhabited V] (m : map K V HF CF) (hm : inv m)
    (h : Nat) (hh : h < m.p_size) (b0 b : bucket K V) (unused : List (bucket K V))
    (chunks : List Nat) (haddr : b.addr = b0.addr)
    (hpool : (m.p_unused = [] ∧ chunks = m.p_chunks.length :: m.p_chunks ∧
          b0 :: unused = chunk_buckets m.p_chunks.length) ∨
       (m.p_unused = b0 :: unused ∧ chunks = m.p_chunks))
    (f : entry K V → entry K V) :
    write (link m h b unused chunks) b0.addr f
      = link m h { b with value := f b.value } unused chunks := by
  have hlt : h < m.p_buckets.length := by rw [hm.slots]; exact hh
  have hnd2 := pool_fresh m hm b0 unused chunks hpool
  rw [List.nodup_cons, List.map_append, List.mem_append, not_or] at hnd2
  obtain ⟨⟨hn1, hn2⟩, _⟩ := hnd2
  have hchains : ∀ c ∈ m.p_buckets, write_chain b0.addr f c = c := by
    intro c hc
    apply write_chain_of_not_mem
    intro hmem
    apply hn1
    obtain ⟨x, hx, hxa⟩ := List.mem_map.mp hmem
    exact List.mem_map.mpr ⟨x, List.mem_flatten.mpr ⟨c, hc, hx⟩, hxa⟩
  have hmapid : m.p_buckets.map (write_chain b0.addr f) = m.p_buckets := by
    conv_rhs => rw [← List.map_id m.p_buckets]
    exact List.map_congr_left hchains
  simp only [write, link, List.map_set, hmapid]
  have hs : write_chain b0.addr f (b :: slot m h)
      = { b with value := f b.value } :: slot m h := by
    apply write_chain_head _ _ _ _ haddr
    intro hmem
    apply hn1
    obtain ⟨x, hx, hxa⟩ := List.mem_map.mp hmem
    exact List.mem_map.mpr ⟨x, slot_sub_live m h x hx, hxa⟩
  rw [hs, write_chain_of_not_mem _ _ _ hn2]


/-! ### insert and operator[] under the invariant -/

theorem insert_present [Inhabited K] [Inhabited V] (m : map K V HF CF) (hm : inv m)
    (key : K) (value : V) (b : bucket K V)
    (hf : find_in_chain CF key (slot m (HF key % m.p_size)) = some b) :
    insert m key value = some (m, b) := by
  simp only [insert, find_bucket_eq m hm key, hf]

theorem subscript_present [Inhabited K] [Inhabited V] (m : map K V HF CF) (hm : inv m)
    (key : K) (b : bucket K V)
    (hf : find_in_chain CF key (slot m (HF key % m.p_size)) = some b) :
    subscript m key = some (m, b) := by
  simp only [subscript, find_bucket_eq m hm key, hf]

theorem insert_absent [Inhabited K] [Inhabited V] (m : map K V HF CF) (hm : inv m)
    (key : K) (value : V)
    (hf : find_in_chain CF key (slot m (HF key % m.p_size)) = none) :
    ∃ b0 unused chunks,
      ((m.p_unused = [] ∧ chunks = m.p_chunks.length :: m.p_chunks ∧
          b0 :: unused = chunk_buckets m.p_chunks.length) ∨
       (m.p_unused = b0 :: unused ∧ chunks = m.p_chunks)) ∧
      insert m key value
        = some (link m (HF key % m.p_size) ⟨b0.addr, ⟨key, value⟩⟩ unused chunks,
                ⟨b0.addr, ⟨key, value⟩⟩) := by
  have hh : HF key % m.p_size < m.p_size := Nat.mod_lt _ hm.size_pos
  obtain ⟨b0, unused, chunks, hadd, hpool⟩ := add_eq m hm (HF key % m.p_size) hh
  refine ⟨b0, unused, chunks, hpool, ?_⟩
  simp only [insert, find_bucket_eq m hm key, hf, hadd]
  rw [write_link m hm _ hh b0 b0 unused chunks rfl hpool,
    write_link m hm _ hh b0 ⟨b0.addr, ⟨key, b0.value.data⟩⟩ unused chunks rfl hpool]

theorem subscript_absent [Inhabited K] [Inhabited V] (m : map K V HF CF) (hm : inv m)
    (key : K)
    (hf : find_in_chain CF key (slot m (HF key % m.p_size)) = none) :
    ∃ b0 unused chunks,
      ((m.p_unused = [] ∧ chunks = m.p_chunks.length :: m.p_chunks ∧
          b0 :: unused = chunk_buckets m.p_chunks.length) ∨
       (m.p_unused = b0 :: unused ∧ chunks = m.p_chunks)) ∧
      subscript m key
        = some (link m (HF key % m.p_size) ⟨b0.addr, ⟨key, b0.value.data⟩⟩ unused chunks,
                ⟨b0.addr, ⟨key, b0.value.data⟩⟩) := by
  have hh : HF key % m.p_size < m.p_size := Nat.mod_lt _ hm.size_pos
  obtain ⟨b0, unused, chunks, hadd, hpool⟩ := add_eq m hm (HF key % m.p_size) hh
  refine ⟨b0, unused, chunks, hpool, ?_⟩
  simp only [subscript, find_bucket_eq m hm key, hf, hadd]
  rw [write_link m hm _ hh b0 b0 unused chunks rfl hpool]

theorem drop_chunks_eq (l : List Nat) : drop_chunks l = [] := by
  induction l with
  | nil => rfl
  | cons _ l ih => simpa [drop_chunks] using ih

theorem live_replicate_nil (n : Nat) :
    (List.replicate n ([] : List (bucket K V))).flatten = [] := by
  induction n with
  | zero => rfl
  | succ n ih => simp [List.replicate_succ, ih]

theorem inv_new (sz : Nat) (hsz : 0 < sz) : inv (new sz : map K V HF CF) := by
  refine ⟨hsz, by simp [new], ?_, ?_, ?_, ?_, ?_, ?_, ?_⟩
  · intro h chain hc b hb
    simp only [new, List.getElem?_replicate] at hc
    split at hc
    · simp only [Option.some.injEq] at hc
      subst hc; simp at hb
    · simp at hc
  · intro chain hc
    simp only [new, List.mem_replicate] at hc
    rw [hc.2]; exact List.Pairwise.nil
  · simp [new, live, live_replicate_nil]
  · simp [new, live, live_replicate_nil]
  · intro b hb
    simp [new, live, live_replicate_nil] at hb
  · simp [new]
  · simp [new, CHUNK_SIZE]

theorem clear_eq (m : map K V HF CF) (hm : inv m) :
    clear m = (new m.p_size : map K V HF CF) := by
  unfold clear
  by_cases h0 : m.p_nelems = 0
  · rw [if_pos h0]
    have hacc := hm.account
    have hlt := hm.unused_lt
    rw [h0, Nat.zero_add] at hacc
    have hc : m.p_chunks.length = 0 := by
      by_contra hne
      have : CHUNK_SIZE ≤ CHUNK_SIZE * m.p_chunks.length :=
        Nat.le_mul_of_pos_right _ (Nat.pos_of_ne_zero hne)
      omega
    have hu : m.p_unused.length = 0 := by rw [hc] at hacc; omega
    have hl : (live m).length = 0 := by rw [← hm.nelems]; exact h0
    have hb : m.p_buckets = List.replicate m.p_size [] := by
      apply List.ext_getElem (by simp [hm.slots])
      intro i h1 h2
      simp only [List.getElem_replicate]
      apply List.eq_nil_iff_forall_not_mem.mpr
      intro b hb
      have : b ∈ live m := List.mem_flatten.mpr ⟨_, List.getElem_mem h1, hb⟩
      rw [List.length_eq_zero.mp hl] at this
      simp at this
    obtain ⟨sz, ne, bk, un, ch⟩ := m
    simp only at h0 hc hu hb
    simp only [List.length_eq_zero] at hc hu
    subst h0 hc hu hb
    rfl
  · rw [if_neg h0, drop_chunks_eq]
    rfl

theorem inv_clear (m : map K V HF CF) (hm : inv m) : inv (clear m) := by
  rw [clear_eq m hm]
  exact inv_new _ hm.size_pos

theorem mem_live_link (m : map K V HF CF) (h : Nat) (hh : h < m.p_buckets.length)
    (b : bucket K V) (unused : List (bucket K V)) (chunks : List Nat) (x : bucket K V) :
    x ∈ live (link m h b unused chunks) ↔ x = b ∨ x ∈ live m := by
  rw [(live_link_perm m h hh b unused chunks).mem_iff, List.mem_cons]

theorem slot_link_self (m : map K V HF CF) (h : Nat) (hh : h < m.p_buckets.length)
    (b : bucket K V) (unused : List (bucket K V)) (chunks : List Nat) :
    slot (link m h b unused chunks) h = b :: slot m h := by
  simp only [slot, link, List.getElem?_set_self hh, Option.getD_some]

theorem slot_link_ne (m : map K V HF CF) (h h1 : Nat) (hne : h1 ≠ h)
    (b : bucket K V) (unused : List (bucket K V)) (chunks : List Nat) :
    slot (link m h b unused chunks) h1 = slot m h1 := by
  simp only [slot, link]
  rw [List.getElem?_set_ne (fun e => hne e.symm)]

/-- What `insert` does on a map that satisfies the invariant: it succeeds and
keeps the invariant; either the key is present and the map is unchanged, or it
is absent and one bucket holding the key and the value is linked at the head
of the chain of the key's slot. -/
theorem insert_cases [Inhabited K] [Inhabited V] (m : map K V HF CF) (hm : inv m)
    (key : K) (value : V) :
    ∃ m1 b, insert m key value = some (m1, b) ∧ inv m1 ∧
      ((m1 = m ∧ find_in_chain CF key (slot m (HF key % m.p_size)) = some b) ∨
       (find_in_chain CF key (slot m (HF key % m.p_size)) = none ∧
        b.value = ⟨key, value⟩ ∧
        ∃ unused chunks, m1 = link m (HF key % m.p_size) b unused chunks)) := by
  have hh : HF key % m.p_size < m.p_size := Nat.mod_lt _ hm.size_pos
  cases hf : find_in_chain CF key (slot m (HF key % m.p_size)) with
  | some b => exact ⟨m, b, insert_present m hm key value b hf, hm, Or.inl ⟨rfl, rfl⟩⟩
  | none =>
    obtain ⟨b0, unused, chunks, hpool, hins⟩ := insert_absent m hm key value hf
    refine ⟨_, _, hins, ?_, Or.inr ⟨rfl, rfl, unused, chunks, rfl⟩⟩
    exact inv_link m hm _ hh b0 _ unused chunks rfl hpool rfl (find_in_chain_none hf)

/-- What `operator[]` does on a map that satisfies the invariant: as `insert`,
the data of a newly linked bucket being what the bucket held. -/
theorem subscript_cases [Inhabited K] [Inhabited V] (m : map K V HF CF) (hm : inv m)
    (key : K) :
    ∃ m1 b, subscript m key = some (m1, b) ∧ inv m1 ∧
      ((m1 = m ∧ find_in_chain CF key (slot m (HF key % m.p_size)) = some b) ∨
       (find_in_chain CF key (slot m (HF key % m.p_size)) = none ∧
        b.value.key = key ∧
        ∃ unused chunks, m1 = link m (HF key % m.p_size) b unused chunks)) := by
  have hh : HF key % m.p_size < m.p_size := Nat.mod_lt _ hm.size_pos
  cases hf : find_in_chain CF key (slot m (HF key % m.p_size)) with
  | some b => exact ⟨m, b, subscript_present m hm key b hf, hm, Or.inl ⟨rfl, rfl⟩⟩
  | none =>
    obtain ⟨b0, unused, chunks, hpool, hins⟩ := subscript_absent m hm key hf
    refine ⟨_, _, hins, ?_, Or.inr ⟨rfl, rfl, unused, chunks, rfl⟩⟩
    exact inv_link m hm _ hh b0 _ unused chunks rfl hpool rfl (find_in_chain_none hf)

theorem inv_store (m : map K V HF CF) (hm : inv m) (a : Nat × Nat) (v : V) :
    inv (store m a v) :=
  inv_write m hm a _ (fun _ => rfl)

/-- Every call succeeds on a map that satisfies the invariant, keeps the
invariant and the slot count, and links no bucket whose key is neither
already linked nor the key of the call. -/
theorem apply_op_inv [Inhabited K] [Inhabited V] (m : map K V HF CF) (hm : inv m)
    (op : map_op K V) :
    ∃ m1, apply_op m op = some m1 ∧ inv m1 ∧ m1.p_size = m.p_size ∧
      ∀ b ∈ live m1, b.value.key ∈ (live m).map (fun x => x.value.key) ∨
        b.value.key ∈ op_keys op := by
  have hh : ∀ key : K, HF key % m.p_size < m.p_buckets.length := by
    intro key; rw [hm.slots]; exact Nat.mod_lt _ hm.size_pos
  have hold : ∀ b ∈ live m, ∀ ks : List K,
      b.value.key ∈ (live m).map (fun x => x.value.key) ∨ b.value.key ∈ ks :=
    fun b hb _ => Or.inl (List.mem_map_of_mem _ hb)
  cases op with
  | insert key value =>
    obtain ⟨m1, b, h1, h2, h3⟩ := insert_cases m hm key value
    refine ⟨m1, by simp [apply_op, h1], h2, ?_, ?_⟩
    · rcases h3 with ⟨rfl, _⟩ | ⟨_, _, u, c, rfl⟩ <;> rfl
    · intro x hx
      rcases h3 with ⟨rfl, _⟩ | ⟨_, hb, u, c, rfl⟩
      · exact hold x hx _
      · rcases (mem_live_link m _ (hh key) b u c x).mp hx with rfl | hx
        · right; rw [hb]; simp [op_keys]
        · exact hold x hx _
  | subscript key =>
    obtain ⟨m1, b, h1, h2, h3⟩ := subscript_cases m hm key
    refine ⟨m1, by simp [apply_op, h1], h2, ?_, ?_⟩
    · rcases h3 with ⟨rfl, _⟩ | ⟨_, _, u, c, rfl⟩ <;> rfl
    · intro x hx
      rcases h3 with ⟨rfl, _⟩ | ⟨_, hb, u, c, rfl⟩
      · exact hold x hx _
      · rcases (mem_live_link m _ (hh key) b u c x).mp hx with rfl | hx
        · right; rw [hb]; simp [op_keys]
        · exact hold x hx _
  | assign key value =>
    obtain ⟨m1, b, h1, h2, h3⟩ := subscript_cases m hm key
    refine ⟨store m1 b.addr value, by simp [apply_op, h1], inv_store m1 h2 _ _, ?_, ?_⟩
    · show m1.p_size = m.p_size
      rcases h3 with ⟨rfl, _⟩ | ⟨_, _, u, c, rfl⟩ <;> rfl
    · intro x hx
      have hxk : x.value.key ∈ (live (store m1 b.addr value)).map (fun y => y.value.key) :=
        List.mem_map_of_mem (fun y => y.value.key) hx
      rw [store, live_write,
        write_chain_key b.addr (fun e => { e with data := value }) (fun _ => rfl)] at hxk
      obtain ⟨y, hy, hyk⟩ := List.mem_map.mp hxk
      rw [← hyk]
      rcases h3 with ⟨rfl, _⟩ | ⟨_, hb, u, c, rfl⟩
      · exact hold y hy _
      · rcases (mem_live_link m _ (hh key) b u c y).mp hy with rfl | hy
        · right; rw [hb]; simp [op_keys]
        · exact hold y hy _
  | clear =>
    refine ⟨clear m, rfl, inv_clear m hm, ?_, ?_⟩
    · rw [clear_eq m hm]; rfl
    · intro x hx
      rw [clear_eq m hm] at hx
      simp [new, live, live_replicate_nil] at hx

theorem run_ops_inv [Inhabited K] [Inhabited V] (ops : List (map_op K V)) :
    ∀ (m : map K V HF CF), inv m →
      ∃ m1, run_ops m ops = some m1 ∧ inv m1 ∧ m1.p_size = m.p_size ∧
        ∀ b ∈ live m1, b.value.key ∈ (live m).map (fun x => x.value.key) ∨
          b.value.key ∈ ops.flatMap op_keys := by
  induction ops with
  | nil =>
    intro m hm
    exact ⟨m, rfl, hm, rfl, fun b hb => Or.inl (List.mem_map_of_mem _ hb)⟩
  | cons op ops ih =>
    intro m hm
    obtain ⟨m1, h1, h2, h3, h4⟩ := apply_op_inv m hm op
    obtain ⟨m2, g1, g2, g3, g4⟩ := ih m1 h2
    refine ⟨m2, by simp [run_ops, h1, g1], g2, by rw [g3, h3], ?_⟩
    intro b hb
    rcases g4 b hb with hk | hk
    · obtain ⟨y, hy, hyk⟩ := List.mem_map.mp hk
      rcases h4 y hy with hk2 | hk2
      · left; rw [← hyk]; exact hk2
      · right
        rw [List.flatMap_cons, List.mem_append]
        left; rw [← hyk]; exact hk2
    · right
      rw [List.flatMap_cons, List.mem_append]
      right; exact hk

theorem reachable_inv [Inhabited K] [Inhabited V] (m : map K V HF CF) (hr : reachable m) :
    inv m := by
  obtain ⟨sz, ops, hsz, hrun⟩ := hr
  obtain ⟨m1, h1, h2, _⟩ := run_ops_inv ops (new sz : map K V HF CF) (inv_new sz hsz)
  rw [hrun] at h1
  simp only [Option.some.injEq] at h1
  rw [h1]; exact h2


/-! ### find, load and for_each under the invariant -/

theorem find_eq (m : map K V HF CF) (hm : inv m) (key : K) :
    find m key
      = some ((find_in_chain CF key (slot m (HF key % m.p_size))).map
          (fun b => b.value.data)) := by
  simp only [find, find_bucket_eq m hm key]
  cases find_in_chain CF key (slot m (HF key % m.p_size)) <;> rfl

theorem find_addr_of_nodup (l : List (bucket K V)) (hl : (l.map bucket.addr).Nodup)
    (b : bucket K V) (hb : b ∈ l) : l.find? (fun x => x.addr = b.addr) = some b := by
  induction l with
  | nil => simp at hb
  | cons a l ih =>
    rw [List.map_cons, List.nodup_cons] at hl
    rcases List.mem_cons.mp hb with rfl | hb
    · simp
    · have hne : ¬ a.addr = b.addr := by
        intro he
        exact hl.1 (he ▸ List.mem_map_of_mem bucket.addr hb)
      simp only [List.find?_cons, hne, decide_False]
      exact ih hl.2 hb

theorem load_of_mem (m : map K V HF CF) (hm : inv m) (b : bucket K V) (hb : b ∈ live m) :
    load m b.addr = some b.value.data := by
  unfold load
  have := find_addr_of_nodup (live m ++ m.p_unused) hm.nodup b (List.mem_append_left _ hb)
  unfold live at this
  rw [this]; rfl

theorem find_in_chain_self (hCF : equivalence CF) (c : List (bucket K V))
    (hc : c.Pairwise (fun b1 b2 => CF b1.value.key b2.value.key = false))
    (b : bucket K V) (hb : b ∈ c) : find_in_chain CF b.value.key c = some b := by
  induction c with
  | nil => simp at hb
  | cons a c ih =>
    rw [List.pairwise_cons] at hc
    by_cases hab : b = a
    · subst hab
      simp [find_in_chain, hCF.1]
    · have hbc : b ∈ c := by
        rcases List.mem_cons.mp hb with h | h
        · exact absurd h hab
        · exact h
      have h1 : CF a.value.key b.value.key = false := hc.1 b hbc
      have h2 : ¬ CF b.value.key a.value.key = true := by
        intro h3
        have := hCF.2.1 _ _ h3
        rw [h1] at this
        exact Bool.false_ne_true this
      simp only [find_in_chain, h2, if_false]
      exact ih hc.2 hbc

theorem foldl_snoc_pairs (l : List (bucket K V)) (init : List (K × V)) :
    l.foldl (fun acc b => acc ++ [(b.value.key, b.value.data)]) init
      = init ++ l.map (fun b => (b.value.key, b.value.data)) := by
  induction l generalizing init with
  | nil => simp
  | cons a l ih => simp [ih]

theorem for_each_loop_eq {σ : Type} (m : map K V HF CF) (func : σ → K → V → σ) (k : Nat) :
    ∀ (i : Nat) (s : σ), i + k ≤ m.p_buckets.length →
      for_each_loop m func k i s
        = some ((((m.p_buckets.drop i).take k).flatten).foldl
            (fun s b => func s b.value.key b.value.data) s) := by
  induction k with
  | zero => intro i s _; simp [for_each_loop]
  | succ k ih =>
    intro i s hik
    have hi : i < m.p_buckets.length := by omega
    simp only [for_each_loop, List.getElem?_eq_getElem hi]
    rw [ih (i + 1) _ (by omega), List.drop_eq_getElem_cons hi, List.take_succ_cons,
      List.flatten_cons, List.foldl_append]

theorem for_each_eq {σ : Type} (m : map K V HF CF) (hm : inv m) (func : σ → K → V → σ)
    (init : σ) :
    for_each m func init
      = some ((live m).foldl (fun s b => func s b.value.key b.value.data) init) := by
  unfold for_each
  rw [for_each_loop_eq m func m.p_size 0 init (by rw [hm.slots]; omega)]
  simp [live, ← hm.slots]

theorem visited_eq (m : map K V HF CF) (hm : inv m) :
    visited m = some ((live m).map (fun b => (b.value.key, b.value.data))) := by
  unfold visited
  rw [for_each_eq m hm, foldl_snoc_pairs]
  simp

theorem mem_live_slot (m : map K V HF CF) (hm : inv m) (b : bucket K V) (hb : b ∈ live m) :
    b ∈ slot m (HF b.value.key % m.p_size) := by
  obtain ⟨c, hc, hbc⟩ := List.mem_flatten.mp hb
  obtain ⟨i, hi, rfl⟩ := List.getElem_of_mem hc
  have hs : m.p_buckets[i]? = some m.p_buckets[i] := List.getElem?_eq_getElem hi
  have := hm.hashed i _ hs b hbc
  rw [this]
  unfold slot
  rw [hs]
  exact hbc

theorem live_pairwise (m : map K V HF CF) (hm : inv m) (hHF : hash_consistent HF CF) :
    (live m).Pairwise (fun b1 b2 => CF b1.value.key b2.value.key = false) := by
  unfold live
  rw [List.pairwise_flatten]
  refine ⟨hm.distinct_keys, ?_⟩
  rw [List.pairwise_iff_getElem]
  intro i j hi hj hij x hx y hy
  have hsi : m.p_buckets[i]? = some m.p_buckets[i] := List.getElem?_eq_getElem hi
  have hsj : m.p_buckets[j]? = some m.p_buckets[j] := List.getElem?_eq_getElem hj
  have h1 := hm.hashed i _ hsi x hx
  have h2 := hm.hashed j _ hsj y hy
  cases hcf : CF x.value.key y.value.key with
  | false => rfl
  | true =>
    have := hHF _ _ hcf
    rw [this, h2] at h1
    omega

end map

/-! ### insert, find, for_each, clear (C1, C3, C4, C8) -/

namespace map

theorem find_after_link {K V : Type} {HF : K → Nat} {CF : K → K → Bool}
    (m : map K V HF CF) (hm : inv m) (key : K) (b : bucket K V)
    (unused : List (bucket K V)) (chunks : List Nat)
    (hinv : inv (link m (HF key % m.p_size) b unused chunks))
    (hkey : b.value.key = key) (hCF : equivalence CF) (hHF : hash_consistent HF CF)
    (k1 : K) (hk : CF k1 key = true ∨ CF key k1 = true) :
    find (link m (HF key % m.p_size) b unused chunks) k1 = some (some b.value.data) := by
  have hk1 : CF k1 key = true := by
    rcases hk with h | h
    · exact h
    · exact hCF.2.1 _ _ h
  have hlt : HF key % m.p_size < m.p_buckets.length := by
    rw [hm.slots]; exact Nat.mod_lt _ hm.size_pos
  rw [find_eq _ hinv]
  have hsz : (link m (HF key % m.p_size) b unused chunks).p_size = m.p_size := rfl
  rw [hsz, hHF _ _ hk1, slot_link_self m _ hlt]
  simp [find_in_chain, hkey, hk1]

/-- Claim C1: on every map state reachable from a construction with a
positive slot count (equality an equivalence, hash consistent with it), for a
key `k` that is absent: `insert(k, v)` succeeds and afterwards `find(k1)`
returns `v` for every `k1` equal to `k`; `operator[](k)` succeeds and, once
`v` is stored through the returned reference, `find(k1)` returns `v` for every
`k1` equal to `k`; and `find` of a key that equals no key ever passed to
`insert` / `operator[]` returns absent.  With slot count 4 and `"a"`, `"b"`,
`"c"` inserted with 1, 2, 3 under `str_hash` / `str_equal` (of a 64-bit or a
32-bit build, plain `char` signed or not), `find("b")` is 2 and `find("d")`
is absent. -/
theorem C1_insert_then_find :
    (∀ (K V : Type) [Inhabited K] [Inhabited V] (HF : K → Nat) (CF : K → K → Bool)
        (sz : Nat) (ops : List (map_op K V)) (m : map K V HF CF) (k : K) (v : V),
      0 < sz → equivalence CF → hash_consistent HF CF →
      run_ops (new sz : map K V HF CF) ops = some m →
      (find m k = some none →
        (∃ m1 b, insert m k v = some (m1, b) ∧ load m1 b.addr = some v ∧
          ∀ k1, CF k1 k = true ∨ CF k k1 = true → find m1 k1 = some (some v)) ∧
        (∃ m1 b, subscript m k = some (m1, b) ∧
          load (store m1 b.addr v) b.addr = some v ∧
          ∀ k1, CF k1 k = true ∨ CF k k1 = true →
            find (store m1 b.addr v) k1 = some (some v))) ∧
      ((∀ key ∈ ops.flatMap op_keys, CF k key = false) → find m k = some none)) ∧
    (∀ cs : Bool,
      (run_ops (new 4 : map (List Nat) Nat (str_hash64 cs) str_equal)
          [.insert [97, 0] 1, .insert [98, 0] 2, .insert [99, 0] 3]).map
        (fun m => (find m [98, 0], find m [100, 0])) = some (some (some 2), some none) ∧
      (run_ops (new 4 : map (List Nat) Nat (str_hash32 cs) str_equal)
          [.insert [97, 0] 1, .insert [98, 0] 2, .insert [99, 0] 3]).map
        (fun m => (find m [98, 0], find m [100, 0])) = some (some (some 2), some none)) := by
  constructor
  · intro K V _ _ HF CF sz ops m k v hsz hCF hHF hrun
    have hm : inv m := reachable_inv m ⟨sz, ops, hsz, hrun⟩
    have hlt : HF k % m.p_size < m.p_buckets.length := by
      rw [hm.slots]; exact Nat.mod_lt _ hm.size_pos
    constructor
    · intro habs
      rw [find_eq m hm] at habs
      have hf : find_in_chain CF k (slot m (HF k % m.p_size)) = none := by
        cases hfc : find_in_chain CF k (slot m (HF k % m.p_size)) with
        | none => rfl
        | some b => rw [hfc] at habs; simp at habs
      constructor
      · obtain ⟨m1, b, h1, h2, h3⟩ := insert_cases m hm k v
        rcases h3 with ⟨_, h4⟩ | ⟨_, hb, u, c, rfl⟩
        · rw [hf] at h4; simp at h4
        · have hbd : b.value.data = v := by rw [hb]
          have hbk : b.value.key = k := by rw [hb]
          refine ⟨_, b, h1, ?_, ?_⟩
          · rw [load_of_mem _ h2 b ((mem_live_link m _ hlt b u c b).mpr (Or.inl rfl)), hbd]
          · intro k1 hk
            rw [find_after_link m hm k b u c h2 hbk hCF hHF k1 hk, hbd]
      · obtain ⟨m1, b, h1, h2, h3⟩ := subscript_cases m hm k
        rcases h3 with ⟨_, h4⟩ | ⟨_, hbk, u, c, rfl⟩
        · rw [hf] at h4; simp at h4
        · have hw : store (link m (HF k % m.p_size) b u c) b.addr v
              = link m (HF k % m.p_size) ⟨b.addr, ⟨b.value.key, v⟩⟩ u c := by
            obtain ⟨b0, u0, c0, hpool, hsub⟩ := subscript_absent m hm k hf
            rw [h1] at hsub
            simp only [Option.some.injEq, Prod.mk.injEq] at hsub
            obtain ⟨hl, hb0⟩ := hsub
            have hu : u = u0 := by
              have := congrArg (fun x => x.p_unused) hl
              exact this
            have hc : c = c0 := by
              have := congrArg (fun x => x.p_chunks) hl
              exact this
            subst hu hc
            have ha : b.addr = b0.addr := by rw [hb0]
            have hwl := write_link m hm (HF k % m.p_size) (Nat.mod_lt _ hm.size_pos)
              b0 b u c ha hpool
              (fun e => { e with data := v })
            rw [← ha] at hwl
            exact hwl
          have hinv2 := inv_store _ h2 b.addr v
          rw [hw] at hinv2
          refine ⟨_, b, h1, ?_, ?_⟩
          · rw [hw]
            exact load_of_mem _ hinv2 ⟨b.addr, ⟨b.value.key, v⟩⟩
              ((mem_live_link m _ hlt _ u c _).mpr (Or.inl rfl))
          · intro k1 hk
            rw [hw]
            exact find_after_link m hm k ⟨b.addr, ⟨b.value.key, v⟩⟩ u c hinv2 hbk hCF hHF k1 hk
    · intro hnever
      obtain ⟨m1, g1, _, _, g4⟩ := run_ops_inv ops (new sz : map K V HF CF) (inv_new sz hsz)
      rw [hrun] at g1
      simp only [Option.some.injEq] at g1
      subst g1
      rw [find_eq m hm]
      cases hfc : find_in_chain CF k (slot m (HF k % m.p_size)) with
      | none => rfl
      | some b =>
        exfalso
        obtain ⟨hb1, hb2⟩ := find_in_chain_some hfc
        rcases g4 b (slot_sub_live m _ b hb1) with h | h
        · simp [new, live, live_replicate_nil] at h
        · rw [hnever _ h] at hb2
          exact Bool.false_ne_true hb2
  · decide


theorem nat_equal_equivalence : equivalence nat_equal := by
  refine ⟨fun a => ?_, fun a b h => ?_, fun a b c h1 h2 => ?_⟩ <;>
    simp only [nat_equal, beq_iff_eq] at * <;> omega

theorem nat_hash_consistent : hash_consistent nat_hash nat_equal := by
  intro a b h
  simp only [nat_equal, beq_iff_eq] at h
  rw [h]

/-- Witness of C1 on a map of numbers with 2 slots that holds 1 ↦ 10 and
5 ↦ 50 (both in slot 1): the absent key 3, which goes to slot 1 too. -/
theorem C1_insert_then_find_witness :
    ∃ m, run_ops (new 2 : map Nat Nat nat_hash nat_equal)
        [.insert 1 10, .assign 5 50] = some m ∧
      find m 3 = some none ∧
      (∃ m1 b, insert m 3 30 = some (m1, b) ∧ load m1 b.addr = some 30 ∧
        ∀ k1, nat_equal k1 3 = true ∨ nat_equal 3 k1 = true → find m1 k1 = some (some 30)) ∧
      find m 7 = some none := by
  have hrun : run_ops (new 2 : map Nat Nat nat_hash nat_equal) [.insert 1 10, .assign 5 50]
      = some ((run_ops (new 2 : map Nat Nat nat_hash nat_equal)
          [.insert 1 10, .assign 5 50]).get (by decide)) := by simp
  have h := C1_insert_then_find.1 Nat Nat nat_hash nat_equal 2 [.insert 1 10, .assign 5 50]
    _ 3 30 (by decide) nat_equal_equivalence nat_hash_consistent hrun
  have h7 := C1_insert_then_find.1 Nat Nat nat_hash nat_equal 2 [.insert 1 10, .assign 5 50]
    _ 7 30 (by decide) nat_equal_equivalence nat_hash_consistent hrun
  exact ⟨_, hrun, by decide, (h.1 (by decide)).1, h7.2 (by decide)⟩


/-- Claim C3: on every reachable map state, for a key `k` that is present
with stored value `w` and every value `v`: `insert(k, v)` succeeds and returns
a reference whose target holds `w`; afterwards `find(k)` still returns `w`;
the element count, and in fact the whole map, is unchanged. -/
theorem C3_insert_present_keeps_value (K V : Type) [Inhabited K] [Inhabited V]
    (HF : K → Nat) (CF : K → K → Bool) (m : map K V HF CF) (k : K) (w v : V)
    (hr : reachable m) (hp : find m k = some (some w)) :
    ∃ m1 b, insert m k v = some (m1, b) ∧ b.value.data = w ∧ load m1 b.addr = some w ∧
      find m1 k = some (some w) ∧ m1.p_nelems = m.p_nelems ∧ m1 = m := by
  have hm := reachable_inv m hr
  rw [find_eq m hm] at hp
  cases hf : find_in_chain CF k (slot m (HF k % m.p_size)) with
  | none => rw [hf] at hp; simp at hp
  | some b =>
    rw [hf] at hp
    simp only [Option.map_some', Option.some.injEq] at hp
    refine ⟨m, b, insert_present m hm k v b hf, hp, ?_, ?_, rfl, rfl⟩
    · rw [load_of_mem m hm b (slot_sub_live m _ b (find_in_chain_some hf).1), hp]
    · rw [find_eq m hm, hf]; simp [hp]

/-- Witness of C3 on the map of numbers with 2 slots that holds 1 ↦ 10:
`insert(1, 99)`. -/
theorem C3_insert_present_keeps_value_witness :
    ∃ m, run_ops (new 2 : map Nat Nat nat_hash nat_equal) [.insert 1 10] = some m ∧
      find m 1 = some (some 10) ∧
      ∃ m1 b, insert m 1 99 = some (m1, b) ∧ b.value.data = 10 ∧
        load m1 b.addr = some 10 ∧ find m1 1 = some (some 10) ∧
        m1.p_nelems = m.p_nelems ∧ m1 = m := by
  have hrun : run_ops (new 2 : map Nat Nat nat_hash nat_equal) [.insert 1 10]
      = some ((run_ops (new 2 : map Nat Nat nat_hash nat_equal)
          [.insert 1 10]).get (by decide)) := by simp
  exact ⟨_, hrun, by decide,
    C3_insert_present_keeps_value Nat Nat nat_hash nat_equal _ 1 10 99
      ⟨2, [.insert 1 10], by decide, hrun⟩ (by decide)⟩

/-- Claim C4: on every map state reachable from a construction with a positive
slot count by `insert` / `operator[]` / `clear` calls (equality an equivalence,
hash consistent with it), `for_each` calls its callback once per live entry:
it succeeds, the number of calls is the element count, the keys of the
visited pairs are pairwise unequal, every visited pair `(k, v)` has
`find(k) = v`, every key for which `find` returns a value is visited with
that value, and the outcome for any callback is the fold of the callback over
these pairs.  The map holding `"a"`, `"b"`, `"c"` with 1, 2, 3 (slot count 4,
`str_hash` of either word size) is visited with values summing to 6. -/
theorem C4_for_each_visits_each_entry_once :
    (∀ (K V : Type) [Inhabited K] [Inhabited V] (HF : K → Nat) (CF : K → K → Bool)
        (m : map K V HF CF),
      equivalence CF → hash_consistent HF CF → reachable m →
      ∃ vs, visited m = some vs ∧ vs.length = m.p_nelems ∧
        vs.Pairwise (fun p q => CF p.1 q.1 = false ∧ CF q.1 p.1 = false) ∧
        (∀ p ∈ vs, find m p.1 = some (some p.2)) ∧
        (∀ k v, find m k = some (some v) → ∃ p ∈ vs, CF k p.1 = true ∧ p.2 = v) ∧
        (∀ (σ : Type) (func : σ → K → V → σ) (init : σ),
          for_each m func init = some (vs.foldl (fun s p => func s p.1 p.2) init))) ∧
    (∀ cs : Bool,
      (run_ops (new 4 : map (List Nat) Nat (str_hash64 cs) str_equal)
          [.insert [97, 0] 1, .insert [98, 0] 2, .insert [99, 0] 3]).bind
        (fun m => for_each m (fun s _ v => s + v) 0) = some 6 ∧
      (run_ops (new 4 : map (List Nat) Nat (str_hash32 cs) str_equal)
          [.insert [97, 0] 1, .insert [98, 0] 2, .insert [99, 0] 3]).bind
        (fun m => for_each m (fun s _ v => s + v) 0) = some 6) := by
  constructor
  · intro K V _ _ HF CF m hCF hHF hr
    have hm := reachable_inv m hr
    refine ⟨_, visited_eq m hm, ?_, ?_, ?_, ?_, ?_⟩
    · rw [List.length_map, hm.nelems]
    · rw [List.pairwise_map]
      refine (live_pairwise m hm hHF).imp ?_
      intro b1 b2 h12
      refine ⟨h12, ?_⟩
      cases h21 : CF b2.value.key b1.value.key with
      | false => rfl
      | true =>
        have := hCF.2.1 _ _ h21
        rw [h12] at this
        exact absurd this Bool.false_ne_true
    · intro p hp
      obtain ⟨b, hb, rfl⟩ := List.mem_map.mp hp
      rw [find_eq m hm,
        find_in_chain_self hCF _ (hm.distinct_keys _ (slot_mem m _
          (by rw [hm.slots]; exact Nat.mod_lt _ hm.size_pos))) b (mem_live_slot m hm b hb)]
      rfl
    · intro k v hf
      rw [find_eq m hm] at hf
      cases hfc : find_in_chain CF k (slot m (HF k % m.p_size)) with
      | none => rw [hfc] at hf; simp at hf
      | some b =>
        rw [hfc] at hf
        simp only [Option.map_some', Option.some.injEq] at hf
        obtain ⟨hb1, hb2⟩ := find_in_chain_some hfc
        exact ⟨(b.value.key, b.value.data),
          List.mem_map.mpr ⟨b, slot_sub_live m _ b hb1, rfl⟩, hb2, hf⟩
    · intro σ func init
      rw [for_each_eq m hm, List.foldl_map]
  · decide

/-- Witness of C4 on the map of numbers with 2 slots after `insert(1, 10)`,
`operator[](5) = 50`, `insert(2, 20)`, `insert(1, 11)`. -/
theorem C4_for_each_visits_each_entry_once_witness :
    ∃ m, run_ops (new 2 : map Nat Nat nat_hash nat_equal)
        [.insert 1 10, .assign 5 50, .insert 2 20, .insert 1 11] = some m ∧
      ∃ vs, visited m = some vs ∧ vs.length = m.p_nelems ∧
        vs.Pairwise (fun p q => nat_equal p.1 q.1 = false ∧ nat_equal q.1 p.1 = false) ∧
        (∀ p ∈ vs, find m p.1 = some (some p.2)) ∧
        vs = [(2, 20), (5, 50), (1, 10)] := by
  have hrun : run_ops (new 2 : map Nat Nat nat_hash nat_equal)
        [.insert 1 10, .assign 5 50, .insert 2 20, .insert 1 11]
      = some ((run_ops (new 2 : map Nat Nat nat_hash nat_equal)
          [.insert 1 10, .assign 5 50, .insert 2 20, .insert 1 11]).get (by decide)) := by
    simp
  obtain ⟨vs, h1, h2, h3, h4, _⟩ := C4_for_each_visits_each_entry_once.1 Nat Nat
    nat_hash nat_equal _ nat_equal_equivalence nat_hash_consistent
    ⟨2, [.insert 1 10, .assign 5 50, .insert 2 20, .insert 1 11], by decide, hrun⟩
  refine ⟨_, hrun, vs, h1, h2, h3, h4, ?_⟩
  have hv : visited ((run_ops (new 2 : map Nat Nat nat_hash nat_equal)
      [.insert 1 10, .assign 5 50, .insert 2 20, .insert 1 11]).get (by decide))
      = some [(2, 20), (5, 50), (1, 10)] := by decide
  rw [hv] at h1
  exact (Option.some.inj h1).symm

/-- Claim C8: on every reachable map state, after `clear()`: `empty()` is true,
`find(k)` returns absent for every key `k`, `for_each` calls its callback on
nothing, the map holds no chunk and its free list is empty. -/
theorem C8_clear_empties (K V : Type) [Inhabited K] [Inhabited V]
    (HF : K → Nat) (CF : K → K → Bool) (m : map K V HF CF) (hr : reachable m) :
    empty (clear m) = true ∧ (clear m).p_nelems = 0 ∧
    (∀ k, find (clear m) k = some none) ∧
    visited (clear m) = some [] ∧
    (∀ (σ : Type) (func : σ → K → V → σ) (init : σ),
      for_each (clear m) func init = some init) ∧
    (clear m).p_chunks = [] ∧ (clear m).p_unused = [] ∧
    (clear m).p_size = m.p_size := by
  have hm := reachable_inv m hr
  have hc := inv_clear m hm
  have hl : live (clear m) = [] := by
    rw [clear_eq m hm]; simp [new, live, live_replicate_nil]
  refine ⟨?_, ?_, ?_, ?_, ?_, ?_, ?_, ?_⟩
  · rw [clear_eq m hm]; rfl
  · rw [clear_eq m hm]; rfl
  · intro k
    rw [find_eq _ hc]
    cases hfc : find_in_chain CF k (slot (clear m) (HF k % (clear m).p_size)) with
    | none => rfl
    | some b =>
      have := slot_sub_live _ _ b (find_in_chain_some hfc).1
      rw [hl] at this
      simp at this
  · rw [visited_eq _ hc, hl]; rfl
  · intro σ func init
    rw [for_each_eq _ hc, hl]; rfl
  · rw [clear_eq m hm]; rfl
  · rw [clear_eq m hm]; rfl
  · rw [clear_eq m hm]; rfl

/-- Witness of C8 on the map of numbers with 2 slots that holds 1 ↦ 10 and
5 ↦ 50. -/
theorem C8_clear_empties_witness :
    ∃ m, run_ops (new 2 : map Nat Nat nat_hash nat_equal)
        [.insert 1 10, .assign 5 50] = some m ∧
      m.p_nelems = 2 ∧ m.p_chunks = [0] ∧ m.p_unused.length = 62 ∧
      find m 1 = some (some 10) ∧
      empty (clear m) = true ∧ find (clear m) 1 = some none ∧
      find (clear m) 5 = some none ∧ visited (clear m) = some [] ∧
      (clear m).p_chunks = [] ∧ (clear m).p_unused = [] := by
  have hrun : run_ops (new 2 : map Nat Nat nat_hash nat_equal) [.insert 1 10, .assign 5 50]
      = some ((run_ops (new 2 : map Nat Nat nat_hash nat_equal)
          [.insert 1 10, .assign 5 50]).get (by decide)) := by simp
  have h := C8_clear_empties Nat Nat nat_hash nat_equal _
    ⟨2, [.insert 1 10, .assign 5 50], by decide, hrun⟩
  exact ⟨_, hrun, by decide, by decide, by decide, by decide,
    h.1, h.2.2.1 1, h.2.2.1 5, h.2.2.2.1, h.2.2.2.2.2.1, h.2.2.2.2.2.2.1⟩

end map

/-! ## vector: capacity, resize, the invariant (C11, C13, C14, C17) -/

namespace vector

variable {T : Type}

theorem reserve_capacity (v : vector T) (n : Nat) (v1 : vector T)
    (h : reserve v n = some v1) :
    v1.p_size = v.p_size ∧
    ((n ≤ v.p_cap ∧ v1 = v) ∨ (v.p_cap < n ∧ v1.p_cap = max n MIN_SIZE ∧ v1.p_buf ≠ none)) := by
  unfold reserve at h
  by_cases hn : n ≤ v.p_cap
  · rw [if_pos hn] at h
    simp only [Option.some.injEq] at h
    subst h
    exact ⟨rfl, Or.inl ⟨hn, rfl⟩⟩
  · rw [if_neg hn] at h
    have hm : (if n < MIN_SIZE then MIN_SIZE else n) = max n MIN_SIZE := by
      unfold MIN_SIZE; split <;> omega
    simp only [hm] at h
    by_cases hc : v.p_cap ≠ 0
    · rw [if_pos hc] at h
      cases hl : reserve_loop (v.p_buf.getD []) v.p_size 0
          (List.replicate (max n MIN_SIZE) none) with
      | none => rw [hl] at h; simp at h
      | some np1 =>
        rw [hl] at h
        simp only [Option.some.injEq] at h
        subst h
        exact ⟨rfl, Or.inr ⟨Nat.not_le.mp hn, rfl, by simp⟩⟩
    · rw [if_neg hc] at h
      simp only [Option.some.injEq] at h
      subst h
      exact ⟨rfl, Or.inr ⟨Nat.not_le.mp hn, rfl, by simp⟩⟩

theorem push_back_fields (v : vector T) (x : T) (v1 : vector T)
    (h : push_back v x = some v1) :
    v1.p_size = v.p_size + 1 ∧ v1.p_cap = max (v.p_cap + 1) MIN_SIZE ∧ v1.p_buf ≠ none := by
  unfold push_back at h
  cases hr : reserve v (v.p_cap + 1) with
  | none => rw [hr] at h; simp at h
  | some v2 =>
    rw [hr] at h
    simp only at h
    obtain ⟨hs, hcases⟩ := reserve_capacity v _ v2 hr
    cases hc : construct_at (v2.p_buf.getD []) v2.p_size x with
    | none => rw [hc] at h; simp at h
    | some buf =>
      rw [hc] at h
      simp only [Option.some.injEq] at h
      subst h
      rcases hcases with ⟨hle, _⟩ | ⟨_, hcap, _⟩
      · omega
      · exact ⟨by simp [hs], hcap, by simp⟩

theorem emplace_back_eq (v : vector T) (x : T) :
    emplace_back v x = (push_back v x).map (fun v1 => (v1, x)) := by
  unfold emplace_back push_back
  cases reserve v (v.p_cap + 1) with
  | none => rfl
  | some v1 =>
    simp only
    cases construct_at (v1.p_buf.getD []) v1.p_size x <;> rfl

theorem pop_back_fields (v v1 : vector T) (h : pop_back v = some v1) :
    v1.p_size + 1 = v.p_size ∧ v1.p_cap = v.p_cap ∧ v1.p_buf ≠ none := by
  unfold pop_back at h
  by_cases h0 : v.p_size = 0
  · rw [if_pos h0] at h; simp at h
  · rw [if_neg h0] at h
    cases hd : destroy_at (v.p_buf.getD []) (v.p_size - 1) with
    | none => rw [hd] at h; simp at h
    | some buf =>
      rw [hd] at h
      simp only [Option.some.injEq] at h
      subst h
      exact ⟨by simp; omega, rfl, by simp⟩

theorem resize_fields (v : vector T) (n : Nat) (v1 : vector T) (h : resize v n = some v1) :
    v1.p_size = n ∧ v1.p_cap = v.p_cap ∧ (v1.p_buf = none ↔ v.p_buf = none) := by
  unfold resize at h
  cases hl : resize_loop (v.p_size - n) n (v.p_buf.getD []) with
  | none => rw [hl] at h; simp at h
  | some buf =>
    rw [hl] at h
    simp only [Option.some.injEq] at h
    subst h
    refine ⟨rfl, rfl, ?_⟩
    cases v.p_buf <;> simp

theorem copy_loop_capacity (w : vector T) (k : Nat) :
    ∀ (i : Nat) (v v1 : vector T), copy_loop w k i v = some v1 →
      v.p_cap ≤ v1.p_cap ∧ v1.p_size = v.p_size + k := by
  induction k with
  | zero =>
    intro i v v1 h
    simp only [copy_loop, Option.some.injEq] at h
    subst h
    exact ⟨Nat.le_refl _, rfl⟩
  | succ k ih =>
    intro i v v1 h
    simp only [copy_loop] at h
    cases hs : subscript w i with
    | none => rw [hs] at h; simp at h
    | some x =>
      rw [hs] at h
      simp only at h
      cases hp : push_back v x with
      | none => rw [hp] at h; simp at h
      | some v2 =>
        rw [hp] at h
        simp only at h
        obtain ⟨h1, h2, _⟩ := push_back_fields v x v2 hp
        obtain ⟨g1, g2⟩ := ih (i + 1) v2 v1 h
        exact ⟨by omega, by omega⟩

theorem copy_assign_capacity (v w : vector T) (r : vector T × vector T)
    (h : copy_assign v w = some r) :
    v.p_cap ≤ r.1.p_cap ∧ r.1.p_size = w.p_size ∧ r.2 = w := by
  unfold copy_assign at h
  cases h1 : resize v 0 with
  | none => rw [h1] at h; simp at h
  | some t1 =>
    rw [h1] at h
    simp only at h
    obtain ⟨a1, a2, _⟩ := resize_fields v 0 t1 h1
    cases h2 : (if w.size > t1.capacity then reserve t1 w.size else some t1) with
    | none => rw [h2] at h; simp at h
    | some t2 =>
      rw [h2] at h
      simp only at h
      have hb : t1.p_cap ≤ t2.p_cap ∧ t2.p_size = t1.p_size := by
        by_cases hw : w.size > t1.capacity
        · rw [if_pos hw] at h2
          obtain ⟨b1, b2⟩ := reserve_capacity t1 _ t2 h2
          rcases b2 with ⟨_, rfl⟩ | ⟨b3, b4, _⟩
          · exact ⟨Nat.le_refl _, rfl⟩
          · exact ⟨by omega, b1⟩
        · rw [if_neg hw] at h2
          simp only [Option.some.injEq] at h2
          subst h2
          exact ⟨Nat.le_refl _, rfl⟩
      cases h3 : copy_loop w w.size 0 t2 with
      | none => rw [h3] at h; simp at h
      | some t3 =>
        rw [h3] at h
        simp only [Option.some.injEq] at h
        subst h
        obtain ⟨c1, c2⟩ := copy_loop_capacity w w.size 0 t2 t3 h3
        refine ⟨by simp only; omega, ?_, rfl⟩
        simp only [c2, hb.2, a1]
        simp [size]

/-! ### The field invariant -/

theorem fields_ok_reserve (v : vector T) (n : Nat) (v1 : vector T) (hv : fields_ok v)
    (h : reserve v n = some v1) : fields_ok v1 := by
  obtain ⟨h1, h2⟩ := reserve_capacity v n v1 h
  rcases h2 with ⟨_, rfl⟩ | ⟨h3, h4, _⟩
  · exact hv
  · refine ⟨?_, ?_⟩
    · have := hv.1; omega
    · intro h0; unfold MIN_SIZE at h4; omega

theorem fields_ok_push_back (v : vector T) (x : T) (v1 : vector T) (hv : fields_ok v)
    (h : push_back v x = some v1) : fields_ok v1 := by
  obtain ⟨h1, h2, _⟩ := push_back_fields v x v1 h
  refine ⟨?_, ?_⟩
  · have := hv.1; omega
  · intro h0; unfold MIN_SIZE at h2; omega

theorem fields_ok_pop_back (v v1 : vector T) (hv : fields_ok v)
    (h : pop_back v = some v1) : fields_ok v1 := by
  obtain ⟨h1, h2, _⟩ := pop_back_fields v v1 h
  refine ⟨?_, ?_⟩
  · have := hv.1; omega
  · intro h0; have := hv.1; omega

theorem fields_ok_resize (v : vector T) (n : Nat) (v1 : vector T) (hv : fields_ok v)
    (hn : n ≤ v.p_cap) (h : resize v n = some v1) : fields_ok v1 := by
  obtain ⟨h1, h2, h3⟩ := resize_fields v n v1 h
  refine ⟨by omega, ?_⟩
  intro h0
  exact h3.mpr (hv.2 (by omega))

theorem fields_ok_copy_loop (w : vector T) (k : Nat) :
    ∀ (i : Nat) (v v1 : vector T), fields_ok v → copy_loop w k i v = some v1 →
      fields_ok v1 := by
  induction k with
  | zero =>
    intro i v v1 hv h
    simp only [copy_loop, Option.some.injEq] at h
    subst h
    exact hv
  | succ k ih =>
    intro i v v1 hv h
    simp only [copy_loop] at h
    cases hs : subscript w i with
    | none => rw [hs] at h; simp at h
    | some x =>
      rw [hs] at h
      simp only at h
      cases hp : push_back v x with
      | none => rw [hp] at h; simp at h
      | some v2 =>
        rw [hp] at h
        simp only at h
        exact ih (i + 1) v2 v1 (fields_ok_push_back v x v2 hv hp) h

theorem fields_ok_copy_assign (v w : vector T) (r : vector T × vector T) (hv : fields_ok v)
    (h : copy_assign v w = some r) : fields_ok r.1 := by
  unfold copy_assign at h
  cases h1 : resize v 0 with
  | none => rw [h1] at h; simp at h
  | some t1 =>
    rw [h1] at h
    simp only at h
    have ht1 := fields_ok_resize v 0 t1 hv (Nat.zero_le _) h1
    cases h2 : (if w.size > t1.capacity then reserve t1 w.size else some t1) with
    | none => rw [h2] at h; simp at h
    | some t2 =>
      rw [h2] at h
      simp only at h
      have ht2 : fields_ok t2 := by
        by_cases hw : w.size > t1.capacity
        · rw [if_pos hw] at h2
          exact fields_ok_reserve t1 _ t2 ht1 h2
        · rw [if_neg hw] at h2
          simp only [Option.some.injEq] at h2
          subst h2
          exact ht1
      cases h3 : copy_loop w w.size 0 t2 with
      | none => rw [h3] at h; simp at h
      | some t3 =>
        rw [h3] at h
        simp only [Option.some.injEq] at h
        subst h
        exact fields_ok_copy_loop w w.size 0 t2 t3 ht2 h3

theorem fields_ok_of_reachable (v : vector T)
    (h : reachable_by resize_within_capacity v) : fields_ok v := by
  induction h with
  | new => exact ⟨Nat.le_refl _, fun _ => rfl⟩
  | push_back v x v1 _ hp ih => exact fields_ok_push_back v x v1 ih hp
  | emplace_back v x v1 r _ hp ih =>
    rw [emplace_back_eq] at hp
    cases hq : push_back v x with
    | none => rw [hq] at hp; simp at hp
    | some v2 =>
      rw [hq] at hp
      simp only [Option.map_some', Option.some.injEq, Prod.mk.injEq] at hp
      rw [← hp.1]
      exact fields_ok_push_back v x v2 ih hq
  | pop_back v v1 _ hp ih => exact fields_ok_pop_back v v1 ih hp
  | reserve v n v1 _ hp ih => exact fields_ok_reserve v n v1 ih hp
  | resize v n v1 _ hn hp ih => exact fields_ok_resize v n v1 ih hn hp
  | clear v v1 _ hp ih => exact fields_ok_resize v 0 v1 ih (Nat.zero_le _) hp
  | copy_assign this v this1 v1 _ _ hp ih _ => exact fields_ok_copy_assign this v _ ih hp
  | move_assign_target this v _ _ _ ih2 => exact ih2
  | move_assign_source this v _ _ ih1 _ => exact ih1
  | swap_this this v _ _ _ ih2 => exact ih2
  | swap_other this v _ _ ih1 _ => exact ih1

/-! ### The claims -/

theorem pop_back_of_wf (v : vector T) (hv : wf v) (hpos : 0 < v.size) :
    ∃ v1, pop_back v = some v1 ∧ wf v1 ∧ v1.p_size + 1 = v.p_size := by
  obtain ⟨e1, e2⟩ := wf_canon v hv
  have hne : elems v ≠ [] := by
    intro h
    rw [h] at e2
    have : v.p_size = 0 := e2.symm
    have : 0 < v.p_size := hpos
    omega
  obtain ⟨ys, y, hy⟩ : ∃ ys y, elems v = ys ++ [y] :=
    ⟨(elems v).dropLast, (elems v).getLast hne, (List.dropLast_append_getLast hne).symm⟩
  have hle : ys.length < v.p_cap := by
    have := hv.1
    rw [← e2, hy] at this
    simp only [List.length_append, List.length_singleton] at this
    omega
  have hp := pop_back_canon ys v.p_cap y hle
  rw [← hy, ← e1] at hp
  refine ⟨_, hp, canon_wf _ _ (Nat.le_of_lt hle), ?_⟩
  rw [← e2, hy]
  simp [canon]

theorem resize_of_wf (v : vector T) (n : Nat) (hv : wf v) (hn : n ≤ v.size) :
    resize v n = some (canon ((elems v).take n) v.p_cap) := by
  obtain ⟨e1, e2⟩ := wf_canon v hv
  have hle : (elems v).length ≤ v.p_cap := by rw [e2]; exact hv.1
  have hr := resize_canon (elems v) v.p_cap n hle (by rw [e2]; exact hn)
  rw [← e1] at hr
  exact hr

/-- Claim C11, as the code has it: `push_back`, `emplace_back`, `pop_back`,
`reserve`, `resize`, `clear` and copy assignment never lower `capacity()` of
the array they are invoked on (`pop_back`, `resize` and `clear` leave it as it
is); move assignment and `swap` exchange the capacities of the two arrays, so
that afterwards the array has the capacity the other array had.  On a
well-formed array the calls succeed (`pop_back` on a non-empty one, `resize(n)`
for `n ≤ size()`, copy assignment from a well-formed array). -/
theorem C11_capacity_of_each_operation (T : Type) (v : vector T) :
    (∀ x v1, push_back v x = some v1 → v.capacity ≤ v1.capacity) ∧
    (∀ x v1 r, emplace_back v x = some (v1, r) → v.capacity ≤ v1.capacity) ∧
    (∀ v1, pop_back v = some v1 → v1.capacity = v.capacity) ∧
    (∀ n v1, reserve v n = some v1 → v.capacity ≤ v1.capacity) ∧
    (∀ n v1, resize v n = some v1 → v1.capacity = v.capacity) ∧
    (∀ v1, clear v = some v1 → v1.capacity = v.capacity) ∧
    (∀ w v1 w1, copy_assign v w = some (v1, w1) → v.capacity ≤ v1.capacity) ∧
    (∀ w, (move_assign v w).1.capacity = w.capacity ∧
      (move_assign v w).2.capacity = v.capacity ∧
      (swap v w).1.capacity = w.capacity ∧ (swap v w).2.capacity = v.capacity) ∧
    (wf v →
      (∀ x, ∃ v1, push_back v x = some v1) ∧
      (∀ x, ∃ v1, emplace_back v x = some (v1, x)) ∧
      (0 < v.size → ∃ v1, pop_back v = some v1) ∧
      (∀ n, ∃ v1, reserve v n = some v1) ∧
      (∀ n, n ≤ v.size → ∃ v1, resize v n = some v1) ∧
      (∃ v1, clear v = some v1) ∧
      (∀ w, wf w → ∃ v1, copy_assign v w = some (v1, w))) := by
  refine ⟨?_, ?_, ?_, ?_, ?_, ?_, ?_, ?_, ?_⟩
  · intro x v1 h
    obtain ⟨_, h2, _⟩ := push_back_fields v x v1 h
    show v.p_cap ≤ v1.p_cap
    omega
  · intro x v1 r h
    rw [emplace_back_eq] at h
    cases hq : push_back v x with
    | none => rw [hq] at h; simp at h
    | some v2 =>
      rw [hq] at h
      simp only [Option.map_some', Option.some.injEq, Prod.mk.injEq] at h
      obtain ⟨_, h2, _⟩ := push_back_fields v x v2 hq
      show v.p_cap ≤ v1.p_cap
      rw [← h.1]
      omega
  · intro v1 h
    exact (pop_back_fields v v1 h).2.1
  · intro n v1 h
    obtain ⟨_, h2⟩ := reserve_capacity v n v1 h
    show v.p_cap ≤ v1.p_cap
    rcases h2 with ⟨_, rfl⟩ | ⟨h3, h4, _⟩
    · exact Nat.le_refl _
    · omega
  · intro n v1 h
    exact (resize_fields v n v1 h).2.1
  · intro v1 h
    exact (resize_fields v 0 v1 h).2.1
  · intro w v1 w1 h
    exact (copy_assign_capacity v w _ h).1
  · intro w
    exact ⟨rfl, rfl, rfl, rfl⟩
  · intro hv
    obtain ⟨e1, e2⟩ := wf_canon v hv
    have hle : (elems v).length ≤ v.p_cap := by rw [e2]; exact hv.1
    refine ⟨?_, ?_, ?_, ?_, ?_, ?_, ?_⟩
    · intro x
      have := push_back_canon (elems v) v.p_cap x hle
      rw [← e1] at this
      exact ⟨_, this⟩
    · intro x
      have := emplace_back_canon (elems v) v.p_cap x hle
      rw [← e1] at this
      exact ⟨_, this⟩
    · intro hpos
      obtain ⟨v1, h1, _⟩ := pop_back_of_wf v hv hpos
      exact ⟨v1, h1⟩
    · intro n
      have := reserve_canon (elems v) v.p_cap n hle
      rw [← e1] at this
      exact ⟨_, this⟩
    · intro n hn
      exact ⟨_, resize_of_wf v n hv hn⟩
    · exact ⟨_, resize_of_wf v 0 hv (Nat.zero_le _)⟩
    · intro w hw
      obtain ⟨f1, f2⟩ := wf_canon w hw
      have hlw : (elems w).length ≤ w.p_cap := by rw [f2]; exact hw.1
      obtain ⟨cap1, _, _, h3⟩ := copy_assign_canon (elems v) (elems w) v.p_cap w.p_cap hle hlw
      rw [← e1, ← f1] at h3
      exact ⟨_, h3⟩

/-- Witness of C11 at the array `[1, 2]` of capacity 5. -/
theorem C11_capacity_of_each_operation_witness :
    wf (canon [1, 2] 5 : vector Nat) ∧
    (∃ v1, push_back (canon [1, 2] 5 : vector Nat) 7 = some v1 ∧ v1.capacity = 6) ∧
    (∃ v1, pop_back (canon [1, 2] 5 : vector Nat) = some v1 ∧ v1.capacity = 5) ∧
    (∃ v1, resize (canon [1, 2] 5 : vector Nat) 1 = some v1 ∧ v1.capacity = 5) ∧
    (∃ v1, copy_assign (canon [1, 2] 5 : vector Nat) (canon [3] 4) = some (v1, canon [3] 4) ∧
      5 ≤ v1.capacity) := by
  have h := C11_capacity_of_each_operation Nat (canon [1, 2] 5)
  obtain ⟨h1, _, h3, _, h5, _, h7, _, h9⟩ := h
  obtain ⟨g1, _, g3, _, g5, _, g7⟩ := h9 (by decide)
  refine ⟨by decide, ?_, ?_, ?_, ?_⟩
  · obtain ⟨v1, e⟩ := g1 7
    refine ⟨v1, e, ?_⟩
    have : push_back (canon [1, 2] 5 : vector Nat) 7 = some (canon [1, 2, 7] 6) := by decide
    rw [this] at e
    rw [← Option.some.inj e]
    rfl
  · obtain ⟨v1, e⟩ := g3 (by decide)
    exact ⟨v1, e, h3 v1 e⟩
  · obtain ⟨v1, e⟩ := g5 1 (by decide)
    exact ⟨v1, e, h5 1 v1 e⟩
  · obtain ⟨v1, e⟩ := g7 (canon [3] 4) (by decide)
    exact ⟨v1, e, h7 _ v1 _ e⟩

/-- Counterexample to C11 as stated: `A = [1, 2]` has capacity 5 (two
`push_back` calls on a new array), `B = [3]` has capacity 4; after the move
assignment `A = move(B)`, and likewise after `A.swap(B)`, `A` has capacity 4,
less than before. -/
theorem C11_move_assign_lowers_capacity :
    run_ops (new : vector Nat) [stack_op.push 1, stack_op.push 2] = some (canon [1, 2] 5) ∧
    run_ops (new : vector Nat) [stack_op.push 3] = some (canon [3] 4) ∧
    (canon [1, 2] 5 : vector Nat).capacity = 5 ∧
    (move_assign (canon [1, 2] 5 : vector Nat) (canon [3] 4)).1.capacity = 4 ∧
    (swap (canon [1, 2] 5 : vector Nat) (canon [3] 4)).1.capacity = 4 ∧
    ¬ ((canon [1, 2] 5 : vector Nat).capacity
        ≤ (move_assign (canon [1, 2] 5 : vector Nat) (canon [3] 4)).1.capacity) ∧
    ¬ ((canon [1, 2] 5 : vector Nat).capacity
        ≤ (swap (canon [1, 2] 5 : vector Nat) (canon [3] 4)).1.capacity) := by
  decide

/-- Claim C13: for every well-formed array and every `n ≤ size()`, `resize(n)`
succeeds, makes `size() = n`, leaves the elements at the indices below `n`
unchanged and leaves `capacity()` unchanged; `clear()` is `resize(0)` and
leaves the array empty with its capacity unchanged. -/
theorem C13_resize_shrinks (T : Type) (v : vector T) (n : Nat) (hv : wf v)
    (hn : n ≤ v.size) :
    (∃ v1, resize v n = some v1 ∧ wf v1 ∧ v1.size = n ∧ v1.capacity = v.capacity ∧
      (∀ i, i < n → v1.subscript i = v.subscript i ∧ (v.subscript i).isSome = true) ∧
      elems v1 = (elems v).take n) ∧
    clear v = resize v 0 ∧
    (∃ v0, clear v = some v0 ∧ wf v0 ∧ v0.size = 0 ∧ v0.empty = true ∧
      v0.capacity = v.capacity ∧ elems v0 = []) := by
  obtain ⟨e1, e2⟩ := wf_canon v hv
  have hle : (elems v).length ≤ v.p_cap := by rw [e2]; exact hv.1
  have hn2 : n ≤ (elems v).length := by rw [e2]; exact hn
  have hlt : ∀ k, ((elems v).take k).length ≤ v.p_cap := by
    intro k; rw [List.length_take]; omega
  refine ⟨⟨_, resize_of_wf v n hv hn, canon_wf _ _ (hlt n), ?_, rfl, ?_, canon_elems _ _ (hlt n)⟩,
    rfl, ⟨_, resize_of_wf v 0 hv (Nat.zero_le _), canon_wf _ _ (hlt 0), ?_, ?_, rfl, ?_⟩⟩
  · simp only [size, canon, List.length_take]; omega
  · intro i hi
    refine ⟨?_, subscript_isSome_of_wf v hv i (Nat.lt_of_lt_of_le hi hn)⟩
    rw [subscript_canon _ _ _ (hlt n)]
    conv_rhs => rw [e1, subscript_canon _ _ _ hle]
    rw [List.getElem?_take_of_lt hi]
  · simp [size, canon]
  · simp [empty, canon]
  · rw [canon_elems _ _ (hlt 0)]; simp

/-- Witness of C13 at the array `[1, 2, 3]` of capacity 6 and `n = 2`. -/
theorem C13_resize_shrinks_witness :
    wf (canon [1, 2, 3] 6 : vector Nat) ∧
    (∃ v1, resize (canon [1, 2, 3] 6 : vector Nat) 2 = some v1 ∧ v1.size = 2 ∧
      v1.capacity = 6 ∧ elems v1 = [1, 2]) ∧
    (∃ v0, clear (canon [1, 2, 3] 6 : vector Nat) = some v0 ∧ v0.size = 0 ∧
      v0.capacity = 6) := by
  have h := C13_resize_shrinks Nat (canon [1, 2, 3] 6) 2 (by decide) (by decide)
  obtain ⟨⟨v1, h1, _, h3, h4, _, h6⟩, _, ⟨v0, g1, _, g3, _, g5, _⟩⟩ := h
  exact ⟨by decide, ⟨v1, h1, h3, h4, by rw [h6]; decide⟩, ⟨v0, g1, g3, g5⟩⟩

/-- Claim C14, as the code has it: in every state reachable from a newly
constructed array by `push_back`, `emplace_back`, `pop_back`, `reserve(n)`,
`resize(n)` with `n ≤ capacity()`, `clear`, copy assignment, move assignment
and `swap` (with arrays reachable the same way), `p_size ≤ p_cap`, and
`p_cap = 0` implies that `p_buf` is null. -/
theorem C14_fields_invariant (T : Type) (v : vector T)
    (h : reachable_by resize_within_capacity v) :
    v.p_size ≤ v.p_cap ∧ (v.p_cap = 0 → v.p_buf = none) :=
  fields_ok_of_reachable v h

/-- Witness of C14 at the state after `push_back(1)`, `push_back(2)`,
`resize(1)` on a newly constructed array: the array `[1]` of capacity 5. -/
theorem C14_fields_invariant_witness :
    reachable_by resize_within_capacity (canon [1] 5 : vector Nat) ∧
    (canon [1] 5 : vector Nat).p_size ≤ (canon [1] 5 : vector Nat).p_cap ∧
    ((canon [1] 5 : vector Nat).p_cap = 0 → (canon [1] 5 : vector Nat).p_buf = none) := by
  have hr : reachable_by resize_within_capacity (canon [1] 5 : vector Nat) :=
    reachable_by.resize (canon [1, 2] 5) 1 _
      (reachable_by.push_back (canon [1] 4) 2 _
        (reachable_by.push_back new 1 _ reachable_by.new (by decide)) (by decide))
      (show 1 ≤ 5 by decide) (by decide)
  exact ⟨hr, C14_fields_invariant Nat _ hr⟩

/-- Counterexample to C14 as stated: `resize(n)` sets `p_size = n` whatever
`n` is.  On a newly constructed array `resize(1)` gives `p_size = 1` with
`p_cap = 0` and no buffer; after `push_back(1)` (capacity 4), `resize(9)`
gives `p_size = 9` with `p_cap = 4`. -/
theorem C14_resize_past_capacity :
    resize (new : vector Nat) 1 = some ⟨none, 1, 0⟩ ∧
    reachable_by any_resize (⟨none, 1, 0⟩ : vector Nat) ∧
    ¬ ((⟨none, 1, 0⟩ : vector Nat).p_size ≤ (⟨none, 1, 0⟩ : vector Nat).p_cap) ∧
    (∃ v1 v2, push_back (new : vector Nat) 1 = some v1 ∧ resize v1 9 = some v2 ∧
      reachable_by any_resize v2 ∧ v2.p_size = 9 ∧ v2.p_cap = 4 ∧
      ¬ (v2.p_size ≤ v2.p_cap)) := by
  refine ⟨by decide, ?_, by decide, ?_⟩
  · exact reachable_by.resize new 1 _ reachable_by.new trivial (by decide)
  · refine ⟨canon [1] 4, ⟨some [some 1, none, none, none], 9, 4⟩, by decide, by decide, ?_,
      rfl, rfl, by decide⟩
    exact reachable_by.resize (canon [1] 4) 9 _
      (reachable_by.push_back new 1 _ reachable_by.new (by decide)) trivial (by decide)

theorem run_pushes_canon (ys : List T) :
    ∀ (y : T) (xs : List T) (cap : Nat), xs.length ≤ cap →
      run_ops (canon xs cap) ((y :: ys).map stack_op.push)
        = some (canon (xs ++ y :: ys) (max (cap + ys.length + 1) (ys.length + 4))) := by
  induction ys with
  | nil =>
    intro y xs cap h
    simp only [List.map_cons, List.map_nil, run_ops, apply_op, push_back_canon xs cap y h,
      List.length_nil]
    congr 2
  | cons z zs ih =>
    intro y xs cap h
    have h2 : (xs ++ [y]).length ≤ max (cap + 1) MIN_SIZE := by
      simp only [List.length_append, List.length_singleton]; omega
    have := ih z (xs ++ [y]) (max (cap + 1) MIN_SIZE) h2
    simp only [List.map_cons, run_ops, apply_op, push_back_canon xs cap y h] at this ⊢
    rw [this]
    congr 2
    · simp
    · simp only [List.length_cons]; unfold MIN_SIZE; omega

/-- Claim C17: `push_back` / `emplace_back` on a well-formed array of capacity
`c` succeeds and leaves `capacity() = max (c + 1) 4`; hence after `k ≥ 1`
`push_back` calls on a newly constructed array `capacity() = k + 3` (and
`size() = k`, so `capacity() ≥ size()`); after pushing `0..999` the capacity
is 1003, at least 1000. -/
theorem C17_push_back_capacity :
    (∀ (T : Type) (v : vector T) (x : T), wf v →
      (∃ v1, push_back v x = some v1 ∧ v1.capacity = max (v.capacity + 1) 4 ∧
        v1.size = v.size + 1) ∧
      (∃ v1, emplace_back v x = some (v1, x) ∧ v1.capacity = max (v.capacity + 1) 4 ∧
        v1.size = v.size + 1)) ∧
    (∀ (T : Type) (xs : List T), 1 ≤ xs.length →
      ∃ v, run_ops (new : vector T) (xs.map stack_op.push) = some v ∧
        v.capacity = xs.length + 3 ∧ v.size = xs.length ∧ v.size ≤ v.capacity) ∧
    (∃ v, run_ops (new : vector Nat) ((List.range 1000).map stack_op.push) = some v ∧
        v.size = 1000 ∧ v.capacity = 1003 ∧ 1000 ≤ v.capacity) := by
  have hnew : ∀ (T : Type) (xs : List T), 1 ≤ xs.length →
      ∃ v, run_ops (new : vector T) (xs.map stack_op.push) = some v ∧
        v.capacity = xs.length + 3 ∧ v.size = xs.length ∧ v.size ≤ v.capacity := by
    intro T xs hx
    cases xs with
    | nil => simp at hx
    | cons y ys =>
      have := run_pushes_canon ys y ([] : List T) 0 (Nat.le_refl _)
      rw [← new_eq_canon] at this
      refine ⟨_, this, ?_, ?_, ?_⟩
      · show max (0 + ys.length + 1) (ys.length + 4) = (y :: ys).length + 3
        simp only [List.length_cons]; omega
      · simp [size, canon]
      · show ([] ++ y :: ys).length ≤ max (0 + ys.length + 1) (ys.length + 4)
        simp only [List.nil_append, List.length_cons]; omega
  refine ⟨?_, hnew, ?_⟩
  · intro T v x hv
    obtain ⟨e1, e2⟩ := wf_canon v hv
    have hle : (elems v).length ≤ v.p_cap := by rw [e2]; exact hv.1
    have hp := push_back_canon (elems v) v.p_cap x hle
    have he := emplace_back_canon (elems v) v.p_cap x hle
    rw [← e1] at hp he
    refine ⟨⟨_, hp, rfl, ?_⟩, ⟨_, he, rfl, ?_⟩⟩ <;>
      simp [size, canon, e2]
  · obtain ⟨v, h1, h2, h3, h4⟩ := hnew Nat (List.range 1000) (by simp)
    simp only [List.length_range] at h2 h3
    exact ⟨v, h1, h3, h2, by omega⟩

/-- Witness of C17 at the array `[1, 2]` of capacity 5 and at three pushes on
a new array. -/
theorem C17_push_back_capacity_witness :
    wf (canon [1, 2] 5 : vector Nat) ∧
    (∃ v1, push_back (canon [1, 2] 5 : vector Nat) 9 = some v1 ∧ v1.capacity = 6 ∧
      v1.size = 3) ∧
    (∃ v, run_ops (new : vector Nat) ([7, 8, 9].map stack_op.push) = some v ∧
      v.capacity = 6 ∧ v.size = 3) := by
  obtain ⟨v1, h1, h2, h3⟩ := (C17_push_back_capacity.1 Nat (canon [1, 2] 5) 9 (by decide)).1
  obtain ⟨v, g1, g2, g3, _⟩ := C17_push_back_capacity.2.1 Nat [7, 8, 9] (by decide)
  exact ⟨by decide, ⟨v1, h1, h2, h3⟩, ⟨v, g1, g2, g3⟩⟩

end vector

/-! ## map: operator[], the counters, the pool, frames (C12, C15, C16, C18, C20) -/

namespace map

variable {K V : Type} {HF : K → Nat} {CF : K → K → Bool}

theorem find_absent_iff (m : map K V HF CF) (hm : inv m) (k : K) :
    find m k = some none ↔ find_in_chain CF k (slot m (HF k % m.p_size)) = none := by
  rw [find_eq m hm]
  cases find_in_chain CF k (slot m (HF k % m.p_size)) <;> simp

theorem find_present_iff (m : map K V HF CF) (hm : inv m) (k : K) (w : V) :
    find m k = some (some w) ↔
      ∃ b, find_in_chain CF k (slot m (HF k % m.p_size)) = some b ∧ b.value.data = w := by
  rw [find_eq m hm]
  cases find_in_chain CF k (slot m (HF k % m.p_size)) <;> simp

theorem reachable_swap_inv [Inhabited K] [Inhabited V] (m : map K V HF CF)
    (hr : reachable_swap m) : inv m := by
  induction hr with
  | new sz hsz => exact inv_new sz hsz
  | call m op m1 _ hp ih =>
    obtain ⟨m2, h1, h2, _⟩ := apply_op_inv m ih op
    rw [hp] at h1
    rw [Option.some.inj h1]
    exact h2
  | swap_this this m _ _ _ ih2 => exact ih2
  | swap_other this m _ _ ih1 _ => exact ih1

theorem reachable_swap_of_run [Inhabited K] [Inhabited V] (ops : List (map_op K V)) :
    ∀ (m m1 : map K V HF CF), reachable_swap m → run_ops m ops = some m1 →
      reachable_swap m1 := by
  induction ops with
  | nil =>
    intro m m1 hr h
    simp only [run_ops, Option.some.injEq] at h
    rw [← h]; exact hr
  | cons op ops ih =>
    intro m m1 hr h
    simp only [run_ops] at h
    cases ha : apply_op m op with
    | none => rw [ha] at h; simp at h
    | some m2 =>
      rw [ha] at h
      exact ih m2 m1 (reachable_swap.call m op m2 hr ha) h

theorem reachable_swap_of_reachable [Inhabited K] [Inhabited V] (m : map K V HF CF)
    (hr : reachable m) : reachable_swap m := by
  obtain ⟨sz, ops, hsz, hrun⟩ := hr
  exact reachable_swap_of_run ops _ m (reachable_swap.new sz hsz) hrun

theorem chunk_buckets_head [Inhabited K] [Inhabited V] (c : Nat) (b : bucket K V)
    (rest : List (bucket K V)) (h : b :: rest = chunk_buckets c) :
    b.addr = (c, 0) ∧ rest.length = CHUNK_SIZE - 1 := by
  have hl := chunk_buckets_length (K := K) (V := V) c
  rw [← h, List.length_cons] at hl
  refine ⟨?_, by omega⟩
  have h0 : (chunk_buckets c : List (bucket K V))[0]? = some ⟨(c, 0), ⟨default, default⟩⟩ := by
    simp [chunk_buckets, CHUNK_SIZE]
  rw [← h] at h0
  simp only [List.getElem?_cons_zero, Option.some.injEq] at h0
  rw [h0]

/-- Claim C12: on every reachable map state (equality reflexive, as an
equivalence is) and for every key `k`: if an equal key is present with value
`w`, `operator[](k)` returns a reference to `w` and leaves the whole map state
unchanged; if no equal key is present, `operator[](k)` raises the element
count by one and links a bucket with key `k` at the head of the chain of slot
`hash(k) mod slot_count`, in front of the chain's previous buckets, every
other chain and the slot count being unchanged; the new entry is what `find`
and the returned reference give afterwards. -/
theorem C12_subscript_effect (K V : Type) [Inhabited K] [Inhabited V]
    (HF : K → Nat) (CF : K → K → Bool) (m : map K V HF CF) (k : K)
    (hE : equivalence CF) (hr : reachable m) :
    (∀ w, find m k = some (some w) →
      ∃ b, subscript m k = some (m, b) ∧ b.value.data = w ∧ load m b.addr = some w ∧
        CF k b.value.key = true ∧ b ∈ slot m (HF k % m.p_size)) ∧
    (find m k = some none →
      ∃ m1 b, subscript m k = some (m1, b) ∧ b.value.key = k ∧
        m1.p_nelems = m.p_nelems + 1 ∧ m1.p_size = m.p_size ∧
        m1.p_buckets.length = m.p_buckets.length ∧
        slot m1 (HF k % m.p_size) = b :: slot m (HF k % m.p_size) ∧
        (∀ h1, h1 ≠ HF k % m.p_size → slot m1 h1 = slot m h1) ∧
        load m1 b.addr = some b.value.data ∧
        find m1 k = some (some b.value.data)) := by
  have hm := reachable_inv m hr
  have hlt : HF k % m.p_size < m.p_buckets.length := by
    rw [hm.slots]; exact Nat.mod_lt _ hm.size_pos
  constructor
  · intro w hw
    obtain ⟨b, hb, hbw⟩ := (find_present_iff m hm k w).mp hw
    obtain ⟨hb1, hb2⟩ := find_in_chain_some hb
    refine ⟨b, subscript_present m hm k b hb, hbw, ?_, hb2, hb1⟩
    rw [load_of_mem m hm b (slot_sub_live m _ b hb1), hbw]
  · intro habs
    have hf := (find_absent_iff m hm k).mp habs
    obtain ⟨m1, b, h1, h2, h3⟩ := subscript_cases m hm k
    rcases h3 with ⟨_, h4⟩ | ⟨_, hbk, u, c, rfl⟩
    · rw [hf] at h4; simp at h4
    · refine ⟨_, b, h1, hbk, rfl, rfl, by simp [link], slot_link_self m _ hlt b u c,
        fun h1 hne => slot_link_ne m _ h1 hne b u c, ?_, ?_⟩
      · exact load_of_mem _ h2 b ((mem_live_link m _ hlt b u c b).mpr (Or.inl rfl))
      · rw [find_eq _ h2]
        have hsz : (link m (HF k % m.p_size) b u c).p_size = m.p_size := rfl
        rw [hsz, slot_link_self m _ hlt b u c]
        simp [find_in_chain, hbk, hE.1]

/-- Witness of C12 on the map of numbers with 2 slots that holds 1 ↦ 10:
`operator[](1)` (present) and `operator[](3)` (absent, same slot). -/
theorem C12_subscript_effect_witness :
    ∃ m, run_ops (new 2 : map Nat Nat nat_hash nat_equal) [.insert 1 10] = some m ∧
      (∃ b, subscript m 1 = some (m, b) ∧ b.value.data = 10) ∧
      (∃ m1 b, subscript m 3 = some (m1, b) ∧ b.value.key = 3 ∧
        m1.p_nelems = 2 ∧ slot m1 1 = b :: slot m 1 ∧ slot m1 0 = slot m 0) := by
  have hrun : run_ops (new 2 : map Nat Nat nat_hash nat_equal) [.insert 1 10]
      = some ((run_ops (new 2 : map Nat Nat nat_hash nat_equal)
          [.insert 1 10]).get (by decide)) := by simp
  have h1 := C12_subscript_effect Nat Nat nat_hash nat_equal _ 1 nat_equal_equivalence
    ⟨2, [.insert 1 10], by decide, hrun⟩
  have h3 := C12_subscript_effect Nat Nat nat_hash nat_equal _ 3 nat_equal_equivalence
    ⟨2, [.insert 1 10], by decide, hrun⟩
  obtain ⟨b, e1, e2, _⟩ := h1.1 10 (by decide)
  obtain ⟨m1, b1, g1, g2, g3, _, _, g6, g7, _⟩ := h3.2 (by decide)
  exact ⟨_, hrun, ⟨b, e1, e2⟩, ⟨m1, b1, g1, g2, g3, g6, g7 0 (by decide)⟩⟩

/-- Claim C15: in every map state reachable from constructions with a positive
slot count by `insert`, `operator[]`, `clear` and `swap` calls, `p_nelems` is
the sum of the lengths of the slot chains, which is the number of pairs
`for_each` visits; hence `empty()` is true exactly when `for_each` visits no
pair. -/
theorem C15_nelems_counts_chain_buckets (K V : Type) [Inhabited K] [Inhabited V]
    (HF : K → Nat) (CF : K → K → Bool) (m : map K V HF CF) (hr : reachable_swap m) :
    m.p_nelems = (m.p_buckets.map List.length).sum ∧
    (∃ vs, visited m = some vs ∧ vs.length = m.p_nelems) ∧
    (empty m = true ↔ visited m = some []) := by
  have hm := reachable_swap_inv m hr
  have hn : m.p_nelems = (live m).length := hm.nelems
  refine ⟨?_, ⟨_, visited_eq m hm, by rw [List.length_map, hn]⟩, ?_⟩
  · rw [hn, live, List.length_flatten]
  · rw [visited_eq m hm]
    simp only [empty, beq_iff_eq, Option.some.injEq, List.map_eq_nil_iff]
    rw [hn, List.length_eq_zero]

/-- Witness of C15 on two maps of numbers, one with 2 slots holding 1 ↦ 10
and 5 ↦ 50, one with 3 slots and cleared, after a `swap`. -/
theorem C15_nelems_counts_chain_buckets_witness :
    ∃ m1 m2, run_ops (new 2 : map Nat Nat nat_hash nat_equal)
        [.insert 1 10, .assign 5 50] = some m1 ∧
      run_ops (new 3 : map Nat Nat nat_hash nat_equal) [.insert 4 40, .clear] = some m2 ∧
      (swap m1 m2).2.p_nelems = 2 ∧
      (swap m1 m2).2.p_nelems = ((swap m1 m2).2.p_buckets.map List.length).sum ∧
      (swap m1 m2).1.p_nelems = 0 ∧
      (empty (swap m1 m2).1 = true ↔ visited (swap m1 m2).1 = some []) := by
  have hrun1 : run_ops (new 2 : map Nat Nat nat_hash nat_equal) [.insert 1 10, .assign 5 50]
      = some ((run_ops (new 2 : map Nat Nat nat_hash nat_equal)
          [.insert 1 10, .assign 5 50]).get (by decide)) := by simp
  have hrun2 : run_ops (new 3 : map Nat Nat nat_hash nat_equal) [.insert 4 40, .clear]
      = some ((run_ops (new 3 : map Nat Nat nat_hash nat_equal)
          [.insert 4 40, .clear]).get (by decide)) := by simp
  have hr1 := reachable_swap_of_reachable _
    ⟨2, [map_op.insert 1 10, map_op.assign 5 50], by decide, hrun1⟩
  have hr2 := reachable_swap_of_reachable _
    ⟨3, [map_op.insert 4 40, map_op.clear], by decide, hrun2⟩
  have ha := C15_nelems_counts_chain_buckets Nat Nat nat_hash nat_equal _
    (reachable_swap.swap_other _ _ hr1 hr2)
  have hb := C15_nelems_counts_chain_buckets Nat Nat nat_hash nat_equal _
    (reachable_swap.swap_this _ _ hr1 hr2)
  exact ⟨_, _, hrun1, hrun2, by decide, ha.1, by decide, hb.2.2⟩

/-- Claim C16: in every map state reachable from a construction with a
positive slot count by `insert`, `operator[]` and `clear` calls, 64 times the
number of chunks is `p_nelems` plus the length of the free list; the buckets
of the slot chains and of the free list have pairwise different addresses (no
bucket is on the free list and in a chain, or in two chains, or twice in one)
and lie in allocated chunks; and an insertion of an absent key, by `insert` or
`operator[]`, allocates a new chunk exactly when the free list is empty (the
bucket used is then the first of the new chunk, 63 remain free) and otherwise
takes the head of the free list. -/
theorem C16_pool_accounting (K V : Type) [Inhabited K] [Inhabited V]
    (HF : K → Nat) (CF : K → K → Bool) (m : map K V HF CF) (hr : reachable m) :
    64 * m.p_chunks.length = m.p_nelems + m.p_unused.length ∧
    ((m.p_buckets.flatten ++ m.p_unused).map bucket.addr).Nodup ∧
    (∀ b ∈ m.p_buckets.flatten ++ m.p_unused, b.addr.1 < m.p_chunks.length) ∧
    (∀ k, find m k = some none →
      (∀ v, ∃ m1 b, insert m k v = some (m1, b) ∧
        (m.p_unused = [] →
          m1.p_chunks = m.p_chunks.length :: m.p_chunks ∧
          b.addr = (m.p_chunks.length, 0) ∧ m1.p_unused.length = 63) ∧
        (∀ b0 next, m.p_unused = b0 :: next →
          m1.p_chunks = m.p_chunks ∧ b.addr = b0.addr ∧ m1.p_unused = next) ∧
        (m1.p_chunks.length = m.p_chunks.length + 1 ↔ m.p_unused = [])) ∧
      (∃ m1 b, subscript m k = some (m1, b) ∧
        (m.p_unused = [] →
          m1.p_chunks = m.p_chunks.length :: m.p_chunks ∧
          b.addr = (m.p_chunks.length, 0) ∧ m1.p_unused.length = 63) ∧
        (∀ b0 next, m.p_unused = b0 :: next →
          m1.p_chunks = m.p_chunks ∧ b.addr = b0.addr ∧ m1.p_unused = next) ∧
        (m1.p_chunks.length = m.p_chunks.length + 1 ↔ m.p_unused = []))) := by
  have hm := reachable_inv m hr
  have hpoolfacts : ∀ (b0 : bucket K V) (unused : List (bucket K V)) (chunks : List Nat),
      ((m.p_unused = [] ∧ chunks = m.p_chunks.length :: m.p_chunks ∧
          b0 :: unused = chunk_buckets m.p_chunks.length) ∨
       (m.p_unused = b0 :: unused ∧ chunks = m.p_chunks)) →
      (m.p_unused = [] →
          chunks = m.p_chunks.length :: m.p_chunks ∧
          b0.addr = (m.p_chunks.length, 0) ∧ unused.length = 63) ∧
        (∀ b1 next, m.p_unused = b1 :: next →
          chunks = m.p_chunks ∧ b0.addr = b1.addr ∧ unused = next) ∧
        (chunks.length = m.p_chunks.length + 1 ↔ m.p_unused = []) := by
    intro b0 unused chunks hpool
    rcases hpool with ⟨hu, hc, hb⟩ | ⟨hu, hc⟩
    · obtain ⟨a1, a2⟩ := chunk_buckets_head _ b0 unused hb
      refine ⟨fun _ => ⟨hc, a1, a2⟩, ?_, ?_⟩
      · intro b1 next h; rw [hu] at h; simp at h
      · rw [hc]; simp [hu]
    · refine ⟨?_, ?_, ?_⟩
      · intro h; rw [hu] at h; simp at h
      · intro b1 next h
        rw [hu] at h
        simp only [List.cons.injEq] at h
        exact ⟨hc, by rw [h.1], h.2⟩
      · rw [hc, hu]; simp
  refine ⟨hm.account, hm.nodup, hm.in_chunk, ?_⟩
  intro k habs
  have hf := (find_absent_iff m hm k).mp habs
  constructor
  · intro v
    obtain ⟨b0, unused, chunks, hpool, hins⟩ := insert_absent m hm k v hf
    exact ⟨_, _, hins, hpoolfacts b0 unused chunks hpool⟩
  · obtain ⟨b0, unused, chunks, hpool, hins⟩ := subscript_absent m hm k hf
    exact ⟨_, _, hins, hpoolfacts b0 unused chunks hpool⟩

/-- Witness of C16 on the map of numbers with 2 slots that holds 1 ↦ 10 (one
chunk, 63 buckets free) and on a newly constructed one (no chunk). -/
theorem C16_pool_accounting_witness :
    ∃ m, run_ops (new 2 : map Nat Nat nat_hash nat_equal) [.insert 1 10] = some m ∧
      m.p_chunks.length = 1 ∧ m.p_nelems = 1 ∧ m.p_unused.length = 63 ∧
      (∃ m1 b, insert m 3 30 = some (m1, b) ∧ m1.p_chunks = m.p_chunks ∧ b.addr = (0, 1)) ∧
      (∃ m1 b, insert (new 2 : map Nat Nat nat_hash nat_equal) 3 30 = some (m1, b) ∧
        m1.p_chunks = [0] ∧ b.addr = (0, 0) ∧ m1.p_unused.length = 63) := by
  have hrun : run_ops (new 2 : map Nat Nat nat_hash nat_equal) [.insert 1 10]
      = some ((run_ops (new 2 : map Nat Nat nat_hash nat_equal)
          [.insert 1 10]).get (by decide)) := by simp
  have h := C16_pool_accounting Nat Nat nat_hash nat_equal _
    ⟨2, [.insert 1 10], by decide, hrun⟩
  have h0 := C16_pool_accounting Nat Nat nat_hash nat_equal (new 2)
    ⟨2, [], by decide, rfl⟩
  obtain ⟨m1, b, e1, _, e3, _⟩ := (h.2.2.2 3 (by decide)).1 30
  obtain ⟨m2, b2, g1, g2, _, _⟩ := (h0.2.2.2 3 (by decide)).1 30
  refine ⟨_, hrun, by decide, by decide, by decide, ⟨m1, b, e1, ?_⟩, ⟨m2, b2, g1, g2 rfl⟩⟩
  have hu : ((run_ops (new 2 : map Nat Nat nat_hash nat_equal)
      [.insert 1 10]).get (by decide)).p_unused
      = (chunk_buckets 0).tail := by decide
  have hc : (chunk_buckets 0 : List (bucket Nat Nat)).tail
      = ⟨(0, 1), ⟨default, default⟩⟩ :: (chunk_buckets 0 : List (bucket Nat Nat)).tail.tail := by
    decide
  obtain ⟨a1, a2, _⟩ := e3 _ _ (hu.trans hc)
  exact ⟨a1, a2⟩

theorem find_in_chain_write (a : Nat × Nat) (f : entry K V → entry K V)
    (hf : ∀ e, (f e).key = e.key) (k1 : K) (c : List (bucket K V)) :
    find_in_chain CF k1 (write_chain a f c)
      = (find_in_chain CF k1 c).map
          (fun b => if b.addr = a then { b with value := f b.value } else b) := by
  induction c with
  | nil => rfl
  | cons b c ih =>
    have hw : write_chain a f (b :: c)
        = (if b.addr = a then { b with value := f b.value } else b) :: write_chain a f c := rfl
    rw [hw]
    have hk : (if b.addr = a then ({ b with value := f b.value } : bucket K V) else b).value.key
        = b.value.key := by
      split
      · exact hf _
      · rfl
    simp only [find_in_chain, hk]
    split
    · rfl
    · exact ih

theorem slot_write (m : map K V HF CF) (a : Nat × Nat) (f : entry K V → entry K V) (h : Nat) :
    slot (write m a f) h = write_chain a f (slot m h) := by
  simp only [slot, write, List.getElem?_map]
  cases m.p_buckets[h]? <;> rfl

theorem eq_of_addr_eq (m : map K V HF CF) (hm : inv m) (b b1 : bucket K V)
    (hb : b ∈ live m) (hb1 : b1 ∈ live m) (h : b1.addr = b.addr) : b1 = b := by
  have e := find_addr_of_nodup (live m ++ m.p_unused) hm.nodup b (List.mem_append_left _ hb)
  have e1 := find_addr_of_nodup (live m ++ m.p_unused) hm.nodup b1 (List.mem_append_left _ hb1)
  rw [h, e] at e1
  exact (Option.some.inj e1).symm

/-- A store through the reference to the data of a bucket whose key equals `k`
does not change what `find` returns for a key unequal to `k`. -/
theorem find_store_other (m : map K V HF CF) (hm : inv m) (hE : equivalence CF)
    (k k1 : K) (hne : CF k1 k = false) (b : bucket K V) (hb : b ∈ live m)
    (hbk : CF k b.value.key = true) (w : V) :
    find (store m b.addr w) k1 = find m k1 := by
  rw [find_eq _ (inv_store m hm b.addr w), find_eq m hm]
  have hsz : (store m b.addr w).p_size = m.p_size := rfl
  rw [hsz, store, slot_write,
    find_in_chain_write b.addr (fun e => { e with data := w }) (fun _ => rfl)]
  cases hfc : find_in_chain CF k1 (slot m (HF k1 % m.p_size)) with
  | none => rfl
  | some b1 =>
    obtain ⟨h1, h2⟩ := find_in_chain_some hfc
    have hna : ¬ b1.addr = b.addr := by
      intro ha
      have := eq_of_addr_eq m hm b b1 hb (slot_sub_live m _ b1 h1) ha
      rw [this] at h2
      have h3 : CF k1 k = true := hE.2.2 _ _ _ h2 (hE.2.1 _ _ hbk)
      rw [hne] at h3
      exact Bool.false_ne_true h3
    simp [hna]

/-- Claim C18: on every reachable map state (equality an equivalence), for
every key `k`, value `v` and key `k1` not equal to `k`: `find(k1)` returns
after `insert(k, v)`, after `operator[](k)`, and after a store through the
reference `operator[](k)` returned, what it returned before, whichever slots
the two keys fall into. -/
theorem C18_other_keys_undisturbed (K V : Type) [Inhabited K] [Inhabited V]
    (HF : K → Nat) (CF : K → K → Bool) (m : map K V HF CF) (k k1 : K) (v : V)
    (hE : equivalence CF) (hr : reachable m)
    (hne : CF k1 k = false ∨ CF k k1 = false) :
    (∃ m1 b, insert m k v = some (m1, b) ∧ find m1 k1 = find m k1) ∧
    (∃ m1 b, subscript m k = some (m1, b) ∧ find m1 k1 = find m k1 ∧
      ∀ w, find (store m1 b.addr w) k1 = find m k1) := by
  have hm := reachable_inv m hr
  have hlt : HF k % m.p_size < m.p_buckets.length := by
    rw [hm.slots]; exact Nat.mod_lt _ hm.size_pos
  have hne1 : CF k1 k = false := by
    rcases hne with h | h
    · exact h
    · cases h2 : CF k1 k with
      | false => rfl
      | true =>
        have := hE.2.1 _ _ h2
        rw [h] at this
        exact absurd this Bool.false_ne_true
  have hlink : ∀ (b : bucket K V) (u : List (bucket K V)) (c : List Nat),
      b.value.key = k → inv (link m (HF k % m.p_size) b u c) →
      find (link m (HF k % m.p_size) b u c) k1 = find m k1 := by
    intro b u c hbk hinv
    rw [find_eq _ hinv, find_eq m hm]
    have hsz : (link m (HF k % m.p_size) b u c).p_size = m.p_size := rfl
    rw [hsz]
    by_cases hs : HF k1 % m.p_size = HF k % m.p_size
    · rw [hs, slot_link_self m _ hlt b u c]
      simp [find_in_chain, hbk, hne1]
    · rw [slot_link_ne m _ _ hs b u c]
  constructor
  · obtain ⟨m1, b, h1, h2, h3⟩ := insert_cases m hm k v
    refine ⟨m1, b, h1, ?_⟩
    rcases h3 with ⟨rfl, _⟩ | ⟨_, hb, u, c, rfl⟩
    · rfl
    · exact hlink b u c (by rw [hb]) h2
  · obtain ⟨m1, b, h1, h2, h3⟩ := subscript_cases m hm k
    have hfind : find m1 k1 = find m k1 := by
      rcases h3 with ⟨rfl, _⟩ | ⟨_, hb, u, c, rfl⟩
      · rfl
      · exact hlink b u c hb h2
    have hmem : b ∈ live m1 ∧ CF k b.value.key = true := by
      rcases h3 with ⟨rfl, h4⟩ | ⟨_, hb, u, c, rfl⟩
      · obtain ⟨a1, a2⟩ := find_in_chain_some h4
        exact ⟨slot_sub_live _ _ b a1, a2⟩
      · exact ⟨(mem_live_link m _ hlt b u c b).mpr (Or.inl rfl), by rw [hb]; exact hE.1 k⟩
    refine ⟨m1, b, h1, hfind, fun w => ?_⟩
    rw [find_store_other m1 h2 hE k k1 hne1 b hmem.1 hmem.2 w, hfind]

/-- Witness of C18 on the map of numbers with 2 slots that holds 1 ↦ 10: the
keys 3 (inserted) and 1 (looked up) fall into the same slot. -/
theorem C18_other_keys_undisturbed_witness :
    ∃ m, run_ops (new 2 : map Nat Nat nat_hash nat_equal) [.insert 1 10] = some m ∧
      nat_hash 3 % 2 = nat_hash 1 % 2 ∧ find m 1 = some (some 10) ∧
      (∃ m1 b, insert m 3 30 = some (m1, b) ∧ find m1 1 = some (some 10)) ∧
      (∃ m1 b, subscript m 3 = some (m1, b) ∧
        find (store m1 b.addr 33) 1 = some (some 10)) := by
  have hrun : run_ops (new 2 : map Nat Nat nat_hash nat_equal) [.insert 1 10]
      = some ((run_ops (new 2 : map Nat Nat nat_hash nat_equal)
          [.insert 1 10]).get (by decide)) := by simp
  have h := C18_other_keys_undisturbed Nat Nat nat_hash nat_equal _ 3 1 30
    nat_equal_equivalence ⟨2, [.insert 1 10], by decide, hrun⟩ (Or.inl (by decide))
  have hf : find ((run_ops (new 2 : map Nat Nat nat_hash nat_equal)
      [.insert 1 10]).get (by decide)) 1 = some (some 10) := by decide
  obtain ⟨⟨m1, b, e1, e2⟩, ⟨m2, b2, g1, _, g3⟩⟩ := h
  exact ⟨_, hrun, by decide, hf, ⟨m1, b, e1, e2.trans hf⟩, ⟨m2, b2, g1, (g3 33).trans hf⟩⟩

theorem apply_op_new_zero [Inhabited K] [Inhabited V] (op : map_op K V)
    (m : map K V HF CF) (h : apply_op (new 0 : map K V HF CF) op = some m) :
    m = new 0 := by
  cases op with
  | insert key value => simp [apply_op, insert, find_bucket, new] at h
  | subscript key => simp [apply_op, subscript, find_bucket, new] at h
  | assign key value => simp [apply_op, subscript, find_bucket, new] at h
  | clear =>
    simp only [apply_op, Option.some.injEq] at h
    rw [← h]
    rfl

theorem run_ops_new_zero [Inhabited K] [Inhabited V] (ops : List (map_op K V)) :
    ∀ (m : map K V HF CF), run_ops (new 0 : map K V HF CF) ops = some m → m = new 0 := by
  induction ops with
  | nil =>
    intro m h
    simp only [run_ops, Option.some.injEq] at h
    exact h.symm
  | cons op ops ih =>
    intro m h
    simp only [run_ops] at h
    cases ha : apply_op (new 0 : map K V HF CF) op with
    | none => rw [ha] at h; simp at h
    | some m1 =>
      rw [ha] at h
      have := apply_op_new_zero op m1 ha
      subst this
      exact ih m h

/-- Claim C20: in every state of a map constructed with slot count `sz > 0`,
for every key the slot index `h = hash(key) mod sz` that `find_bucket`
computes is below `sz`, which is the length of the slot array, so that
`find_bucket`, `find`, `insert`, `operator[]` and `add` succeed: none of
their accesses to the slot array is out of range.  On a map constructed with
slot count 0 the index computation is a division by zero: `find_bucket`,
`find`, `insert` and `operator[]` fail.  The index computation fails exactly
when the slot count is 0. -/
theorem C20_slot_index_in_range :
    (∀ (K V : Type) [Inhabited K] [Inhabited V] (HF : K → Nat) (CF : K → K → Bool)
        (sz : Nat) (ops : List (map_op K V)) (m : map K V HF CF) (key : K),
      0 < sz → run_ops (new sz : map K V HF CF) ops = some m →
      m.p_size = sz ∧ m.p_buckets.length = sz ∧ HF key % sz < sz ∧
      (∃ chain, m.p_buckets[HF key % sz]? = some chain) ∧
      (∃ b, find_bucket m key = some (HF key % sz, b)) ∧
      (∃ r, find m key = some r) ∧
      (∀ v, ∃ r, insert m key v = some r) ∧
      (∃ r, subscript m key = some r) ∧
      (∃ r, add m (HF key % sz) = some r)) ∧
    (∀ (K V : Type) [Inhabited K] [Inhabited V] (HF : K → Nat) (CF : K → K → Bool)
        (ops : List (map_op K V)) (m : map K V HF CF) (key : K),
      run_ops (new 0 : map K V HF CF) ops = some m →
      find_bucket m key = none ∧ find m key = none ∧
      (∀ v, insert m key v = none) ∧ subscript m key = none) ∧
    (∀ (K V : Type) [Inhabited K] [Inhabited V] (HF : K → Nat) (CF : K → K → Bool)
        (sz : Nat) (ops : List (map_op K V)) (m : map K V HF CF) (key : K),
      run_ops (new sz : map K V HF CF) ops = some m →
      (find_bucket m key = none ↔ sz = 0)) := by
  have hzero : ∀ (K V : Type) [Inhabited K] [Inhabited V] (HF : K → Nat) (CF : K → K → Bool)
        (ops : List (map_op K V)) (m : map K V HF CF) (key : K),
      run_ops (new 0 : map K V HF CF) ops = some m →
      find_bucket m key = none ∧ find m key = none ∧
      (∀ v, insert m key v = none) ∧ subscript m key = none := by
    intro K V _ _ HF CF ops m key hrun
    have := run_ops_new_zero ops m hrun
    subst this
    refine ⟨?_, ?_, ?_, ?_⟩ <;> simp [find, insert, subscript, find_bucket, new]
  have hpos : ∀ (K V : Type) [Inhabited K] [Inhabited V] (HF : K → Nat) (CF : K → K → Bool)
        (sz : Nat) (ops : List (map_op K V)) (m : map K V HF CF) (key : K),
      0 < sz → run_ops (new sz : map K V HF CF) ops = some m →
      m.p_size = sz ∧ m.p_buckets.length = sz ∧ HF key % sz < sz ∧
      (∃ chain, m.p_buckets[HF key % sz]? = some chain) ∧
      (∃ b, find_bucket m key = some (HF key % sz, b)) ∧
      (∃ r, find m key = some r) ∧
      (∀ v, ∃ r, insert m key v = some r) ∧
      (∃ r, subscript m key = some r) ∧
      (∃ r, add m (HF key % sz) = some r) := by
    intro K V _ _ HF CF sz ops m key hsz hrun
    obtain ⟨m1, g1, g2, g3, _⟩ := run_ops_inv ops (new sz : map K V HF CF) (inv_new sz hsz)
    rw [hrun] at g1
    have := Option.some.inj g1
    subst this
    have hps : m.p_size = sz := g3
    have hlt : HF key % sz < sz := Nat.mod_lt _ hsz
    refine ⟨hps, by rw [g2.slots, hps], hlt, ?_, ?_, ?_, ?_, ?_, ?_⟩
    · exact ⟨_, List.getElem?_eq_getElem (by rw [g2.slots, hps]; exact hlt)⟩
    · exact ⟨_, by rw [find_bucket_eq m g2 key, hps]⟩
    · exact ⟨_, find_eq m g2 key⟩
    · intro v
      obtain ⟨m2, b, h1, _⟩ := insert_cases m g2 key v
      exact ⟨_, h1⟩
    · obtain ⟨m2, b, h1, _⟩ := subscript_cases m g2 key
      exact ⟨_, h1⟩
    · obtain ⟨b, u, c, h1, _⟩ := add_eq m g2 (HF key % sz) (by rw [hps]; exact hlt)
      exact ⟨_, h1⟩
  refine ⟨hpos, hzero, ?_⟩
  intro K V _ _ HF CF sz ops m key hrun
  constructor
  · intro hnone
    by_contra hne
    obtain ⟨_, _, _, _, ⟨b, hb⟩, _⟩ :=
      hpos K V HF CF sz ops m key (Nat.pos_of_ne_zero hne) hrun
    rw [hb] at hnone
    simp at hnone
  · intro h0
    subst h0
    exact (hzero K V HF CF ops m key hrun).1

/-- Witness of C20 on the map of numbers with 3 slots after `insert(7, 70)`,
for the key 11. -/
theorem C20_slot_index_in_range_witness :
    ∃ m, run_ops (new 3 : map Nat Nat nat_hash nat_equal) [.insert 7 70] = some m ∧
      m.p_buckets.length = 3 ∧ nat_hash 11 % 3 = 2 ∧
      (∃ b, find_bucket m 11 = some (2, b)) ∧ (∃ r, insert m 11 110 = some r) ∧
      find_bucket (new 0 : map Nat Nat nat_hash nat_equal) 11 = none := by
  have hrun : run_ops (new 3 : map Nat Nat nat_hash nat_equal) [.insert 7 70]
      = some ((run_ops (new 3 : map Nat Nat nat_hash nat_equal)
          [.insert 7 70]).get (by decide)) := by simp
  obtain ⟨_, h2, _, _, h5, _, h7, _⟩ := C20_slot_index_in_range.1 Nat Nat nat_hash nat_equal
    3 [.insert 7 70] _ 11 (by decide) hrun
  exact ⟨_, hrun, h2, by decide, h5, h7 110,
    (C20_slot_index_in_range.2.1 Nat Nat nat_hash nat_equal [] _ 11 rfl).1⟩

end map

/-! ## str_hash and str_equal (C19) -/

theorem strcmp_eq_zero_iff (k1 : List Nat) :
    ∀ k2 : List Nat, strcmp k1 k2 = 0 ↔
      k1.takeWhile (fun b => b != 0) = k2.takeWhile (fun b => b != 0) := by
  induction k1 with
  | nil =>
    intro k2
    cases k2 with
    | nil => simp [strcmp]
    | cons b k2 =>
      by_cases hb : b = 0
      · simp [strcmp, hb]
      · simp [strcmp, hb, List.takeWhile_cons]
  | cons a k1 ih =>
    intro k2
    cases k2 with
    | nil =>
      by_cases ha : a = 0
      · simp [strcmp, ha]
      · simp [strcmp, ha, List.takeWhile_cons]
    | cons b k2 =>
      by_cases hab : a = b
      · subst hab
        by_cases ha : a = 0
        · simp [strcmp, ha]
        · simp [strcmp, ha, List.takeWhile_cons, ih k2]
      · have hd : (a : Int) - (b : Int) ≠ 0 := by omega
        by_cases ha : a = 0
        · have hb : b ≠ 0 := fun h => hab (ha.trans h.symm)
          have hb2 : ¬ 0 = b := fun h => hb h.symm
          simp [strcmp, ha, hb, hb2, List.takeWhile_cons]
        · by_cases hb : b = 0
          · simp [strcmp, hab, hd, ha, hb, List.takeWhile_cons]
          · simp [strcmp, hab, hd, ha, hb, List.takeWhile_cons]

theorem str_equal_iff (k1 k2 : List Nat) :
    str_equal k1 k2 = true ↔
      k1.takeWhile (fun b => b != 0) = k2.takeWhile (fun b => b != 0) := by
  unfold str_equal
  rw [beq_iff_eq]
  exact strcmp_eq_zero_iff k1 k2

theorem takeWhile_append_nul (s rest : List Nat) (hs : ∀ b ∈ s, b ≠ 0) :
    (s ++ 0 :: rest).takeWhile (fun b => b != 0) = s := by
  induction s with
  | nil => simp
  | cons a s ih =>
    have ha : a ≠ 0 := hs a (List.mem_cons_self _ _)
    simp [List.takeWhile_cons, ha, ih (fun b hb => hs b (List.mem_cons_of_mem _ hb))]

theorem fnv1a_loop_eq_fold (w prime : Nat) (cs : Bool) (s : List Nat) :
    ∀ (pre rest : List Nat) (hash : Nat),
      fnv1a_loop w prime cs (pre ++ s ++ rest) s.length pre.length hash
        = s.foldl (fun h b => ((h ^^^ to_T w (char_value cs b)) * prime) % 2 ^ w) hash := by
  induction s with
  | nil => intro pre rest hash; rfl
  | cons a s ih =>
    intro pre rest hash
    have hb : byte_at (pre ++ a :: s ++ rest) pre.length = a := by
      simp only [byte_at, List.getD_eq_getElem?_getD, List.append_assoc, List.cons_append]
      rw [List.getElem?_append_right (Nat.le_refl _)]
      simp
    simp only [List.length_cons, fnv1a_loop, hb, List.foldl_cons]
    have := ih (pre ++ [a]) rest
      (((hash ^^^ to_T w (char_value cs a)) * prime) % 2 ^ w)
    simp only [List.length_append, List.length_singleton, List.append_assoc,
      List.singleton_append] at this
    simp only [List.append_assoc, List.cons_append]
    exact this

theorem fnv1a_eq_fold (w ob prime : Nat) (cs : Bool) (data : List Nat) :
    fnv1a w ob prime cs data
      = (data.takeWhile (fun b => b != 0)).foldl
          (fun h b => ((h ^^^ to_T w (char_value cs b)) * prime) % 2 ^ w) ob := by
  unfold fnv1a strlen
  have := fnv1a_loop_eq_fold w prime cs (data.takeWhile (fun b => b != 0)) []
    (data.dropWhile (fun b => b != 0)) ob
  simp only [List.nil_append, List.takeWhile_append_dropWhile, List.length_nil] at this
  exact this

/-- Claim C19: `str_equal` is an equivalence relation; it holds exactly when
the two strings have the same bytes before their first NUL; and `str_hash`
(of either word size, plain `char` signed or not) gives equal strings equal
hashes, a hash depending only on the bytes before the first NUL.  So
`str_hash` / `str_equal` meet the precondition of the map. -/
theorem C19_str_hash_consistent_with_str_equal :
    map.equivalence str_equal ∧
    (∀ k1 k2 : List Nat, str_equal k1 k2 = true ↔
      k1.takeWhile (fun b => b != 0) = k2.takeWhile (fun b => b != 0)) ∧
    (∀ s1 s2 r1 r2 : List Nat, (∀ b ∈ s1, b ≠ 0) → (∀ b ∈ s2, b ≠ 0) →
      (str_equal (s1 ++ 0 :: r1) (s2 ++ 0 :: r2) = true ↔ s1 = s2)) ∧
    (∀ cs : Bool, map.hash_consistent (str_hash64 cs) str_equal ∧
      map.hash_consistent (str_hash32 cs) str_equal) ∧
    (∀ (ws : Nat) (cs : Bool) (k1 k2 : List Nat), str_equal k1 k2 = true →
      str_hash ws cs k1 = str_hash ws cs k2) ∧
    (∀ (w ob prime : Nat) (cs : Bool) (s r1 r2 : List Nat), (∀ b ∈ s, b ≠ 0) →
      fnv1a w ob prime cs (s ++ 0 :: r1) = fnv1a w ob prime cs (s ++ 0 :: r2)) := by
  have hfn : ∀ (w ob prime : Nat) (cs : Bool) (k1 k2 : List Nat), str_equal k1 k2 = true →
      fnv1a w ob prime cs k1 = fnv1a w ob prime cs k2 := by
    intro w ob prime cs k1 k2 h
    rw [fnv1a_eq_fold, fnv1a_eq_fold, (str_equal_iff k1 k2).mp h]
  refine ⟨⟨?_, ?_, ?_⟩, str_equal_iff, ?_, ?_, ?_, ?_⟩
  · intro a
    exact (str_equal_iff a a).mpr rfl
  · intro a b h
    exact (str_equal_iff b a).mpr ((str_equal_iff a b).mp h).symm
  · intro a b c h1 h2
    exact (str_equal_iff a c).mpr (((str_equal_iff a b).mp h1).trans ((str_equal_iff b c).mp h2))
  · intro s1 s2 r1 r2 h1 h2
    rw [str_equal_iff, takeWhile_append_nul s1 r1 h1, takeWhile_append_nul s2 r2 h2]
  · intro cs
    exact ⟨fun a b h => hfn 64 _ _ cs a b h, fun a b h => hfn 32 _ _ cs a b h⟩
  · intro ws cs k1 k2 h
    unfold str_hash str_hash64 str_hash32
    rw [hfn 64 _ _ cs k1 k2 h, hfn 32 _ _ cs k1 k2 h]
  · intro w ob prime cs s r1 r2 hs
    rw [fnv1a_eq_fold, fnv1a_eq_fold, takeWhile_append_nul s r1 hs, takeWhile_append_nul s r2 hs]

/-- Witness of C19 at the strings `"ab"` followed in memory by different
bytes, and `"ab"` against `"ac"`. -/
theorem C19_str_hash_consistent_with_str_equal_witness :
    str_equal [97, 98, 0, 5] [97, 98, 0, 9, 9] = true ∧
    str_hash 64 true [97, 98, 0, 5] = str_hash 64 true [97, 98, 0, 9, 9] ∧
    str_hash 32 false [97, 98, 0, 5] = str_hash 32 false [97, 98, 0, 9, 9] ∧
    str_equal [97, 98, 0] [97, 99, 0] = false ∧
    fnv1a 64 14695981039346656037 1099511628211 true ([200, 7] ++ 0 :: [1])
      = fnv1a 64 14695981039346656037 1099511628211 true ([200, 7] ++ 0 :: [2, 3]) := by
  have h := C19_str_hash_consistent_with_str_equal
  have he : str_equal [97, 98, 0, 5] [97, 98, 0, 9, 9] = true := by decide
  exact ⟨he, h.2.2.2.2.1 64 true _ _ he, h.2.2.2.2.1 32 false _ _ he, by decide,
    h.2.2.2.2.2 64 _ _ true [200, 7] [1] [2, 3] (by decide)⟩

/-! ### Reference arguments of push_back, byte count of reserve (C2, C10) -/

namespace vector

variable {T : Type}

theorem reserve_keeps_buffer_succ (v : vector T) :
    reserve_keeps_buffer v (v.p_cap + 1) = false := by
  simp [reserve_keeps_buffer]

/-- A push of an object outside the array is the push by value. -/
theorem push_back_ref_outside (v : vector T) (x : T) :
    push_back_ref v (.outside x) = push_back v x := by
  unfold push_back_ref push_back
  cases reserve v (v.p_cap + 1) <;> simp [read_operand]

/-- An emplace of an object outside the array is the emplace by value. -/
theorem emplace_back_ref_outside (v : vector T) (x : T) :
    emplace_back_ref v (.outside x) = emplace_back v x := by
  unfold emplace_back_ref emplace_back
  cases reserve v (v.p_cap + 1) <;> simp [read_operand]

/-- A push of a reference to an element of the array itself reads the element
after `reserve(p_cap + 1)` has released the buffer that holds it. -/
theorem push_back_ref_element (v : vector T) (i : Nat) :
    push_back_ref v (.element i) = none := by
  unfold push_back_ref
  cases reserve v (v.p_cap + 1) <;> simp [read_operand, reserve_keeps_buffer_succ]

theorem emplace_back_ref_element (v : vector T) (i : Nat) :
    emplace_back_ref v (.element i) = none := by
  unfold emplace_back_ref
  cases reserve v (v.p_cap + 1) <;> simp [read_operand, reserve_keeps_buffer_succ]

theorem run_calls_to_call (ops : List (stack_op T)) (v : vector T) :
    run_calls v (ops.map to_call) = run_ops v ops := by
  induction ops generalizing v with
  | nil => rfl
  | cons o ops ih =>
    have h1 : apply_call v (to_call o) = apply_op v o := by
      cases o with
      | push x => exact push_back_ref_outside v x
      | pop => rfl
    simp only [List.map_cons, run_calls, run_ops, h1]
    cases apply_op v o with
    | none => rfl
    | some v1 => exact ih v1

theorem run_calls_element (calls : List (stack_call T)) (v : vector T) (i : Nat)
    (h : stack_call.push (.element i) ∈ calls) : run_calls v calls = none := by
  induction calls generalizing v with
  | nil => simp at h
  | cons c calls ih =>
    rcases List.mem_cons.1 h with h1 | h1
    · subst h1
      simp [run_calls, apply_call, push_back_ref_element]
    · simp only [run_calls]
      cases apply_call v c with
      | none => rfl
      | some v1 => exact ih v1 h1

theorem ref_calls_to_call (ops : List (stack_op T)) (s : List T) (n : Nat)
    (hn : s.length = n) (hok : pops_ok n ops = true) :
    ref_calls s (ops.map to_call) = some (ref_run s ops) := by
  induction ops generalizing s n with
  | nil => rfl
  | cons o ops ih =>
    cases o with
    | push x =>
      simp only [pops_ok] at hok
      simp only [List.map_cons, to_call, ref_calls, ref_call, ref_run, List.foldl_cons,
        ref_apply]
      exact ih (s ++ [x]) (n + 1) (by simp [hn]) hok
    | pop =>
      simp only [pops_ok, Bool.and_eq_true, decide_eq_true_eq] at hok
      cases s with
      | nil => simp at hn; omega
      | cons a l =>
        simp only [List.map_cons, to_call, ref_calls, ref_call, ref_run, List.foldl_cons,
          ref_apply]
        exact ih (a :: l).dropLast (n - 1) (by simp [← hn]) hok.2

theorem alloc_cells_of_lt (w size_of n : Nat) (hs : 0 < size_of)
    (h : n * size_of < 2 ^ w) : alloc_cells w size_of n = n := by
  unfold alloc_cells
  rw [Nat.mod_eq_of_lt h, Nat.mul_div_cancel _ hs]

/-- Where the byte count of the request does not wrap around, `reserve` with
the allocation counted in bytes is `reserve`. -/
theorem reserve_sized_eq (w size_of : Nat) (v : vector T) (n : Nat) (hs : 0 < size_of)
    (h : max n MIN_SIZE * size_of < 2 ^ w) : reserve_sized w size_of v n = reserve v n := by
  unfold reserve_sized reserve
  by_cases h1 : n ≤ v.p_cap
  · simp [h1]
  · have h2 : (if n < MIN_SIZE then MIN_SIZE else n) = max n MIN_SIZE := by
      unfold MIN_SIZE; split <;> omega
    simp only [h1, if_false]
    rw [h2, alloc_cells_of_lt w size_of _ hs h]

/-- Claim C2, against the code: `push_back` takes its argument by reference
(`T const &`, `T &&`) and calls `reserve(p_cap + 1)` before it reads the
argument; the request always exceeds the capacity, so `reserve` moves the
elements out and releases the buffer first.  On a new array, after
`push_back(1)`, the call `push_back(v[0])` therefore reads an object that no
longer exists, where the reference stack subjected to the same two pushes is
`[1, 1]`.  The same holds for every array, every index and every call
sequence that pushes an element of the array itself, and for `emplace_back`.
For pushes of objects outside the array the sequence of calls is the one by
value, and the claimed stack discipline holds for all such sequences: the
calls succeed, `size()` is pushes minus pops, the elements, `front()` and
`back()` are those of the reference stack, and pushing `0..999` gives
`size() = 1000`, `front() = 0`, `back() = 999`. -/
theorem C2_push_back_of_own_element :
    (∃ v1, push_back (new : vector Nat) 1 = some v1 ∧ wf v1 ∧ v1.size = 1 ∧
        v1.subscript 0 = some 1 ∧ push_back_ref v1 (.element 0) = none) ∧
    run_calls (new : vector Nat) [.push (.outside 1), .push (.element 0)] = none ∧
    ref_calls ([] : List Nat) [.push (.outside 1), .push (.element 0)] = some [1, 1] ∧
    (∀ (T : Type) (v : vector T) (i : Nat),
      reserve_keeps_buffer v (v.p_cap + 1) = false ∧
      push_back_ref v (.element i) = none ∧ emplace_back_ref v (.element i) = none) ∧
    (∀ (T : Type) (v : vector T) (calls : List (stack_call T)) (i : Nat),
      stack_call.push (.element i) ∈ calls → run_calls v calls = none) ∧
    (∀ (T : Type) (v : vector T) (x : T),
      push_back_ref v (.outside x) = push_back v x ∧
      emplace_back_ref v (.outside x) = emplace_back v x) ∧
    (∀ (T : Type) (ops : List (stack_op T)), pops_ok 0 ops = true →
      ref_calls [] (ops.map to_call) = some (ref_run [] ops) ∧
      ∃ v, run_calls (new : vector T) (ops.map to_call) = some v ∧
        count_pop ops ≤ count_push ops ∧
        v.size = count_push ops - count_pop ops ∧
        v.size = (ref_run [] ops).length ∧
        (∀ i, i < v.size → v.subscript i = (ref_run [] ops)[i]? ∧ (v.subscript i).isSome = true) ∧
        v.front = (ref_run [] ops).head? ∧
        v.back = (ref_run [] ops).getLast?) ∧
    (∃ v, run_calls (new : vector Nat)
          (((List.range 1000).map stack_op.push).map to_call) = some v ∧
        v.size = 1000 ∧ v.front = some 0 ∧ v.back = some 999) := by
  refine ⟨⟨(push_back (new : vector Nat) 1).get (by decide), by simp, by decide, by decide,
      by decide, push_back_ref_element _ _⟩, by decide, by decide, ?_, ?_, ?_, ?_, ?_⟩
  · intro T v i
    exact ⟨reserve_keeps_buffer_succ v, push_back_ref_element v i, emplace_back_ref_element v i⟩
  · intro T v calls i h
    exact run_calls_element calls v i h
  · intro T v x
    exact ⟨push_back_ref_outside v x, emplace_back_ref_outside v x⟩
  · intro T ops hok
    refine ⟨ref_calls_to_call ops [] 0 (by simp) hok, ?_⟩
    rw [run_calls_to_call]
    exact stack_discipline_outside.1 T ops hok
  · rw [run_calls_to_call]
    exact stack_discipline_outside.2

/-- Claim C10, against the code: `reserve` allocates `n * sizeof(T)` bytes, the
product taken in `size_t`, and nothing checks that it does not wrap around.
With a 64-bit `size_t` and an 8-byte `T`, on the array `[1, 2]` of capacity 5
(`size() ≤ capacity()`), `reserve(2^61 + 1)` asks for `2^64 + 8` bytes, which
is 8: the new buffer has one cell, and the move of the element at index 1
writes past its end, where the claim has both elements kept and the capacity
`2^61 + 1`.  On a new array the same call leaves a one-cell buffer under a
recorded capacity of `2^61 + 1`.  Where the byte count of `max n 4` elements
does not wrap around, the allocation is the requested one and the claim holds
for every well-formed array: growth sets `capacity()` to `max n 4` and keeps
`size()` and the elements in index order, and `n ≤ capacity()` changes
nothing. -/
theorem C10_reserve_byte_count_wraps :
    wf (canon [1, 2] 5 : vector Nat) ∧
    run_ops (new : vector Nat) [.push 1, .push 2] = some (canon [1, 2] 5) ∧
    (canon [1, 2] 5 : vector Nat).size ≤ (canon [1, 2] 5 : vector Nat).capacity ∧
    (canon [1, 2] 5 : vector Nat).capacity < 2 ^ 61 + 1 ∧
    ((2 ^ 61 + 1) * 8) % 2 ^ 64 = 8 ∧
    alloc_cells 64 8 (2 ^ 61 + 1) = 1 ∧
    reserve_sized 64 8 (canon [1, 2] 5 : vector Nat) (2 ^ 61 + 1) = none ∧
    reserve_sized 64 8 (new : vector Nat) (2 ^ 61 + 1)
      = some { p_buf := some [none], p_size := 0, p_cap := 2 ^ 61 + 1 } ∧
    reserve_sized 64 8 (canon [1, 2] 5 : vector Nat) 10 = some (canon [1, 2] 10) ∧
    reserve_sized 64 8 (canon [1, 2] 5 : vector Nat) 3 = some (canon [1, 2] 5) ∧
    (∀ (T : Type) (w size_of : Nat) (v : vector T) (n : Nat), 0 < size_of →
      max n MIN_SIZE * size_of < 2 ^ w → reserve_sized w size_of v n = reserve v n) ∧
    (∀ (T : Type) (w size_of : Nat) (v : vector T) (n : Nat), wf v → 0 < size_of →
      max n MIN_SIZE * size_of < 2 ^ w →
      (v.capacity < n →
        ∃ v1, reserve_sized w size_of v n = some v1 ∧ wf v1 ∧
          v1.capacity = max n 4 ∧ v1.size = v.size ∧
          (∀ i, i < v.size →
            v1.subscript i = v.subscript i ∧ (v.subscript i).isSome = true) ∧
          elems v1 = elems v) ∧
      (n ≤ v.capacity → reserve_sized w size_of v n = some v)) := by
  refine ⟨by decide, by decide, by decide, ?_, by norm_num, ?_, ?_, ?_, ?_, ?_, ?_, ?_⟩
  · show 5 < 2 ^ 61 + 1
    norm_num
  · unfold alloc_cells; norm_num
  · have h : alloc_cells 64 8 (2 ^ 61 + 1) = 1 := by unfold alloc_cells; norm_num
    unfold reserve_sized
    have h5 : ¬ (2 ^ 61 + 1 ≤ (canon [1, 2] 5 : vector Nat).p_cap) := by
      show ¬ (2 ^ 61 + 1 ≤ 5)
      norm_num
    have h6 : ¬ (2 ^ 61 + 1 < MIN_SIZE) := by unfold MIN_SIZE; norm_num
    simp only [h5, h6, if_false, h]
    decide
  · have h : alloc_cells 64 8 (2 ^ 61 + 1) = 1 := by unfold alloc_cells; norm_num
    unfold reserve_sized
    have h5 : ¬ (2 ^ 61 + 1 ≤ (new : vector Nat).p_cap) := by
      show ¬ (2 ^ 61 + 1 ≤ 0)
      norm_num
    have h6 : ¬ (2 ^ 61 + 1 < MIN_SIZE) := by unfold MIN_SIZE; norm_num
    simp only [h5, h6, if_false, h]
    rfl
  · rw [reserve_sized_eq 64 8 _ 10 (by decide) (by unfold MIN_SIZE; norm_num)]
    decide
  · rw [reserve_sized_eq 64 8 _ 3 (by decide) (by unfold MIN_SIZE; norm_num)]
    decide
  · intro T w size_of v n hs h
    exact reserve_sized_eq w size_of v n hs h
  · intro T w size_of v n hv hs h
    rw [reserve_sized_eq w size_of v n hs h]
    exact reserve_effect T v n hv

end vector

end util
